import Mathlib

/-!
Verification development for the post-bundling OpenAPI schema normalizer
(`hoistBundledSchemas` and its helpers).

The TypeScript source operates on mutable JavaScript values.  The embedding
uses two complementary models:

* a pure tree model `Json` of JavaScript JSON-like values (used for the
  structural-fingerprint claims, where the source's cycle guard never fires
  on tree-shaped, unshared values), and
* a heap model (`JVal`/`JObj`/`Heap`) in which every object or array lives at
  an address and compound values hold references, so that object identity
  (`WeakMap` keys), shared subtrees, cycles and in-place mutation are
  represented faithfully.

Strings are modelled as Lean `String`/`List Char`; machine numbers that the
claims exercise are integers, so numbers are modelled as `Int`.
`String.prototype.localeCompare` is modelled as code-point lexicographic
comparison (the source only relies on it being a total order for
deterministic sorting).  Recursions that the source terminates through a
visited-set over object identities are modelled with an explicit fuel
parameter returning `Option`; lemmas are proved uniformly in the fuel or at
an explicitly sufficient fuel.
-/

namespace OasHoist

/-- Replace every occurrence of the single character `c` by the string `r`,
left to right (model of `String.prototype.replace` with a one-character
global pattern). -/
def replaceCharL (c : Char) (r : List Char) : List Char → List Char
  | [] => []
  | x :: xs => if x = c then r ++ replaceCharL c r xs else x :: replaceCharL c r xs

/-- Replace every occurrence of the two-character pattern `a b` by the string
`r`, left to right and non-overlapping (model of
`String.prototype.replace` with a two-character global pattern). -/
def replaceSeq2 (a b : Char) (r : List Char) : List Char → List Char
  | [] => []
  | [x] => [x]
  | x :: y :: xs =>
    if x = a ∧ y = b then r ++ replaceSeq2 a b r xs
    else x :: replaceSeq2 a b r (y :: xs)

/-- Numeric value of a hexadecimal digit character. -/
def hexVal (c : Char) : Option Nat :=
  if '0' ≤ c ∧ c ≤ '9' then some (c.toNat - '0'.toNat)
  else if 'a' ≤ c ∧ c ≤ 'f' then some (c.toNat - 'a'.toNat + 10)
  else if 'A' ≤ c ∧ c ≤ 'F' then some (c.toNat - 'A'.toNat + 10)
  else none

/-- Scan a character list into literal characters (`Sum.inl`) and
percent-escaped byte values (`Sum.inr`); a `%` not followed by two hex digits
fails. -/
def pctTokens : List Char → Option (List (Sum Char Nat))
  | [] => some []
  | c :: r =>
    if c = '%' then
      match r with
      | h1 :: h2 :: r2 =>
        match hexVal h1, hexVal h2 with
        | some x, some y => (pctTokens r2).map (Sum.inr (16 * x + y) :: ·)
        | _, _ => none
      | _ => none
    else (pctTokens r).map (Sum.inl c :: ·)

/-- Decode one character from the token stream: a literal character passes
through, an escaped byte heads a UTF-8 sequence whose continuation bytes must
also be escaped; returns the character and the remaining tokens, or `none`
for an invalid or truncated sequence. -/
def utf8Step : List (Sum Char Nat) → Option (Char × List (Sum Char Nat))
  | [] => none
  | Sum.inl c :: r => some (c, r)
  | Sum.inr b1 :: r =>
    if b1 < 0x80 then some (Char.ofNat b1, r)
    else if b1 < 0xC0 then none
    else if b1 < 0xE0 then
      match r with
      | Sum.inr b2 :: r2 =>
        if 0x80 ≤ b2 ∧ b2 < 0xC0 then
          let cp := (b1 - 0xC0) * 0x40 + (b2 - 0x80)
          if 0x80 ≤ cp then some (Char.ofNat cp, r2) else none
        else none
      | _ => none
    else if b1 < 0xF0 then
      match r with
      | Sum.inr b2 :: Sum.inr b3 :: r3 =>
        if (0x80 ≤ b2 ∧ b2 < 0xC0) ∧ (0x80 ≤ b3 ∧ b3 < 0xC0) then
          let cp := (b1 - 0xE0) * 0x1000 + (b2 - 0x80) * 0x40 + (b3 - 0x80)
          if 0x800 ≤ cp ∧ ¬(0xD800 ≤ cp ∧ cp ≤ 0xDFFF) then
            some (Char.ofNat cp, r3)
          else none
        else none
      | _ => none
    else if b1 < 0xF8 then
      match r with
      | Sum.inr b2 :: Sum.inr b3 :: Sum.inr b4 :: r4 =>
        if (0x80 ≤ b2 ∧ b2 < 0xC0) ∧ (0x80 ≤ b3 ∧ b3 < 0xC0) ∧
            (0x80 ≤ b4 ∧ b4 < 0xC0) then
          let cp := (b1 - 0xF0) * 0x40000 + (b2 - 0x80) * 0x1000 +
            (b3 - 0x80) * 0x40 + (b4 - 0x80)
          if 0x10000 ≤ cp ∧ cp ≤ 0x10FFFF then some (Char.ofNat cp, r4)
          else none
        else none
      | _ => none
    else none

/-- Iterate `utf8Step` over the whole token stream.  The fuel only serves to
make the recursion structural: every step consumes at least one token, so
fuel equal to the stream length never runs out. -/
def utf8CombineF : Nat → List (Sum Char Nat) → Option (List Char)
  | _, [] => some []
  | 0, _ :: _ => none
  | fuel + 1, t :: r =>
    match utf8Step (t :: r) with
    | none => none
    | some (c, rest) => (utf8CombineF fuel rest).map (c :: ·)

/-- Combine a token stream into characters, decoding consecutive escaped
bytes as UTF-8 sequences; any invalid or truncated sequence fails. -/
def utf8Combine (l : List (Sum Char Nat)) : Option (List Char) :=
  utf8CombineF l.length l

/-- Model of JavaScript `decodeURIComponent`: percent escapes are decoded as
UTF-8 byte sequences; a malformed escape or an invalid byte sequence makes
the whole decode fail (`none`, standing for the thrown `URIError`).
Characters other than `%` pass through unchanged. -/
def uriDecode (l : List Char) : Option (List Char) :=
  (pctTokens l).bind utf8Combine

/-- Characters of `l` in which every occurrence of a tilde is immediately
followed by the digit zero (the shape produced by the first half of the
JSON-Pointer escape). -/
def tildeOk : List Char → Bool
  | [] => true
  | x :: xs =>
    if x = '~' then
      match xs with
      | [] => false
      | y :: _ => y = '0' && tildeOk xs
    else tildeOk xs

/-- Model of `encodeJsonPointerToken` from
`hoistBundledSchemas.ts` / `helpers/pointers.ts`:
`token.replace(/~/g, '~0').replace(/\//g, '~1')`. -/
def encodeJsonPointerToken (token : String) : String :=
  (replaceCharL '/' ['~', '1'] (replaceCharL '~' ['~', '0'] token.toList)).asString

/-- Model of `decodeJsonPointerToken`: attempt `decodeURIComponent` first,
falling back to the raw token when it fails; then undo the JSON-Pointer
escapes (`~1` to `/` first, then `~0` to `~`). -/
def decodeJsonPointerToken (token : String) : String :=
  let d := (uriDecode token.toList).getD token.toList
  (replaceSeq2 '~' '0' ['~'] (replaceSeq2 '~' '1' ['/'] d)).asString

/-- Decimal digit character for a value below ten. -/
def digitChar (d : Nat) : Char := Char.ofNat (48 + d)

/-- Decimal digits of `n`, least significant first.  The fuel only makes the
recursion structural; fuel `n + 1` is always enough since the value shrinks
by a factor of ten per step. -/
def natDigitsRevF : Nat → Nat → List Char
  | 0, _ => []
  | fuel + 1, n =>
    if n < 10 then [digitChar n]
    else digitChar (n % 10) :: natDigitsRevF fuel (n / 10)

/-- Decimal rendering of a natural number (model of JavaScript number to
string conversion for the integer values the source manipulates). -/
def natDecimal (n : Nat) : String := ((natDigitsRevF (n + 1) n).reverse).asString

/-- Value of a most-significant-first decimal digit string. -/
def digitsVal (l : List Char) : Nat :=
  l.foldl (fun acc c => acc * 10 + (c.toNat - 48)) 0

/-- Candidate schema name with a numeric suffix: the JavaScript template
string `` `${safeBaseName}_${index}` ``. -/
def suffixedName (base : String) (k : Nat) : String :=
  base ++ "_" ++ natDecimal k

/-- Model of the `while (names.has(uniqueName))` loop of
`createUniqueSchemaName`: try `base`, then `base_2`, `base_3`, … until a
candidate is free.  The fuel makes the recursion structural; one more than
the number of live names always suffices because distinct indices give
distinct candidates. -/
def uniqueNameLoop (base : String) (names : List String) :
    Nat → String → Nat → String
  | 0, u, _ => u
  | fuel + 1, u, i =>
    if u ∈ names then uniqueNameLoop base names fuel (suffixedName base i) (i + 1)
    else u

/-- Model of `createUniqueSchemaName` from `helpers/naming.ts` (also inlined
in `hoistBundledSchemas.ts`): an empty base name falls back to `"Schema"`
(JavaScript `baseName || 'Schema'`); then suffixes `_2`, `_3`, … are tried
until the name is free; the chosen name is added to the live name set, which
is modelled as a duplicate-free list in insertion order. -/
def createUniqueSchemaName (baseName : String) (names : List String) :
    String × List String :=
  let safeBaseName := if baseName = "" then "Schema" else baseName
  let u := uniqueNameLoop safeBaseName names (names.length + 1) safeBaseName 2
  (u, if u ∈ names then names else names ++ [u])

/-! ### A tree model of JSON-like JavaScript values

`Json` models plain JavaScript data without shared references: the shape the
fingerprint operates on when its cycle guard never fires.  Numbers are
modelled as integers (the values the source manipulates are integral). -/

inductive Json where
  | null
  | bool (b : Bool)
  | num (n : Int)
  | str (s : String)
  | arr (items : List Json)
  | obj (fields : List (String × Json))

mutual

/-- Size measure used as parser fuel (counts nodes and string lengths). -/
def sizeJ : Json → Nat
  | .null | .bool _ | .num _ => 1
  | .str s => 2 + s.data.length
  | .arr items => 1 + sizeJL items
  | .obj fields => 1 + sizeJF fields

/-- Size of an element list. -/
def sizeJL : List Json → Nat
  | [] => 1
  | x :: r => 1 + sizeJ x + sizeJL r

/-- Size of a field list. -/
def sizeJF : List (String × Json) → Nat
  | [] => 1
  | (k, v) :: r => 2 + k.data.length + sizeJ v + sizeJF r

end

/-- Lowercase hexadecimal digit character. -/
def hexDigitChar (d : Nat) : Char :=
  if d < 10 then Char.ofNat (48 + d) else Char.ofNat (97 + (d - 10))

/-- Escape a single character the way `JSON.stringify` quotes string
contents. -/
def jsonEscapeChar (c : Char) : List Char :=
  if c = '"' then ['\\', '"']
  else if c = '\\' then ['\\', '\\']
  else if c = '\x08' then ['\\', 'b']
  else if c = '\x09' then ['\\', 't']
  else if c = '\x0a' then ['\\', 'n']
  else if c = '\x0c' then ['\\', 'f']
  else if c = '\x0d' then ['\\', 'r']
  else if c.toNat < 0x20 then
    '\\' :: 'u' :: '0' :: '0' :: hexDigitChar (c.toNat / 16) ::
      [hexDigitChar (c.toNat % 16)]
  else [c]

/-- Escape every character of a string body. -/
def escapeChars : List Char → List Char
  | [] => []
  | c :: r => jsonEscapeChar c ++ escapeChars r

/-- Decimal rendering of an integer. -/
def intChars (n : Int) : List Char :=
  if n < 0 then '-' :: (natDigitsRevF (n.natAbs + 1) n.natAbs).reverse
  else (natDigitsRevF (n.toNat + 1) n.toNat).reverse

mutual

/-- Model of `JSON.stringify` on tree-shaped values (no spacing argument, as
in the source's `JSON.stringify(normalized)`). -/
def stringifyJson : Json → List Char
  | .null => "null".data
  | .bool true => "true".data
  | .bool false => "false".data
  | .num n => intChars n
  | .str s => '"' :: (escapeChars s.data ++ ['"'])
  | .arr items => '[' :: (stringifyArr items ++ [']'])
  | .obj fields => '{' :: (stringifyObj fields ++ ['}'])

/-- Comma-separated serialization of array elements. -/
def stringifyArr : List Json → List Char
  | [] => []
  | [x] => stringifyJson x
  | x :: y :: r => stringifyJson x ++ ',' :: stringifyArr (y :: r)

/-- Comma-separated serialization of object fields. -/
def stringifyObj : List (String × Json) → List Char
  | [] => []
  | [(k, v)] => '"' :: (escapeChars k.data ++ '"' :: ':' :: stringifyJson v)
  | (k, v) :: p :: r =>
    ('"' :: (escapeChars k.data ++ '"' :: ':' :: stringifyJson v)) ++
      ',' :: stringifyObj (p :: r)

end

/-- Head of the list is not a decimal digit (used to delimit number
parses). -/
def noDigitHead : List Char → Bool
  | [] => true
  | c :: _ => !c.isDigit

/-- Accumulating decimal-digit muncher. -/
def parseDigitsAux (acc : Nat) : List Char → Nat × List Char
  | [] => (acc, [])
  | c :: r =>
    if c.isDigit then parseDigitsAux (acc * 10 + (c.toNat - 48)) r
    else (acc, c :: r)

/-- Parse a single backslash escape (the backslash itself has already been
consumed), returning the decoded character and the remaining input. -/
def parseEscape : List Char → Option (Char × List Char)
  | [] => none
  | c :: r =>
    if c = '"' then some ('"', r)
    else if c = '\\' then some ('\\', r)
    else if c = '/' then some ('/', r)
    else if c = 'b' then some ('\x08', r)
    else if c = 't' then some ('\x09', r)
    else if c = 'n' then some ('\x0a', r)
    else if c = 'f' then some ('\x0c', r)
    else if c = 'r' then some ('\x0d', r)
    else if c = 'u' then
      match r with
      | h1 :: h2 :: h3 :: h4 :: r2 =>
        match hexVal h1, hexVal h2, hexVal h3, hexVal h4 with
        | some a, some b, some cc, some d =>
          some (Char.ofNat (((a * 16 + b) * 16 + cc) * 16 + d), r2)
        | _, _, _, _ => none
      | _ => none
    else none

/-- Parse a quoted-string body up to the closing quote, undoing the
`jsonEscapeChar` escapes.  The fuel makes the recursion structural; one
more than the number of produced characters always suffices. -/
def parseStringBodyF : Nat → List Char → Option (List Char × List Char)
  | 0, _ => none
  | fuel + 1, l =>
    match l with
    | [] => none
    | c :: r =>
      if c = '"' then some ([], r)
      else if c = '\\' then
        match parseEscape r with
        | none => none
        | some (e, r2) => (parseStringBodyF fuel r2).map (fun p => (e :: p.1, p.2))
      else (parseStringBodyF fuel r).map (fun p => (c :: p.1, p.2))

/-- Expect a fixed character sequence at the head of the input, returning
the remainder on success. -/
def expectChars : List Char → List Char → Option (List Char)
  | [], l => some l
  | p :: ps, l =>
    match l.head? with
    | some c => if c = p then expectChars ps l.tail else none
    | none => none

mutual

/-- Fuel-indexed JSON parser, the left inverse of `stringifyJson` used to
prove that serialization is injective. -/
def parseJsonF : Nat → List Char → Option (Json × List Char)
  | 0, _ => none
  | fuel + 1, l =>
    match l with
    | [] => none
    | c :: r =>
      if c = 'n' then
        match expectChars ['u', 'l', 'l'] r with
        | some r2 => some (.null, r2)
        | none => none
      else if c = 't' then
        match expectChars ['r', 'u', 'e'] r with
        | some r2 => some (.bool true, r2)
        | none => none
      else if c = 'f' then
        match expectChars ['a', 'l', 's', 'e'] r with
        | some r2 => some (.bool false, r2)
        | none => none
      else if c = '"' then
        (parseStringBodyF fuel r).map (fun p => (.str p.1.asString, p.2))
      else if c = '-' then
        match r.head? with
        | some d =>
          if d.isDigit then
            let p := parseDigitsAux 0 r
            some (.num (-(p.1 : Int)), p.2)
          else none
        | none => none
      else if c = '[' then
        match r.head? with
        | some c2 =>
          if c2 = ']' then some (.arr [], r.tail)
          else (parseElemsF fuel r).map (fun p => (.arr p.1, p.2))
        | none => none
      else if c = '{' then
        match r.head? with
        | some c2 =>
          if c2 = '}' then some (.obj [], r.tail)
          else (parseFieldsF fuel r).map (fun p => (.obj p.1, p.2))
        | none => none
      else if c.isDigit then
        let p := parseDigitsAux 0 (c :: r)
        some (.num (p.1 : Int), p.2)
      else none

/-- Parse one or more comma-separated array elements then `]`. -/
def parseElemsF : Nat → List Char → Option (List Json × List Char)
  | 0, _ => none
  | fuel + 1, l =>
    match parseJsonF fuel l with
    | none => none
    | some (v, r1) =>
      match r1 with
      | ',' :: r2 => (parseElemsF fuel r2).map (fun p => (v :: p.1, p.2))
      | ']' :: r2 => some ([v], r2)
      | _ => none

/-- Parse one or more comma-separated object fields then `}`. -/
def parseFieldsF : Nat → List Char → Option (List (String × Json) × List Char)
  | 0, _ => none
  | fuel + 1, l =>
    match l with
    | [] => none
    | c :: r =>
      if c = '"' then
        match parseStringBodyF fuel r with
        | none => none
        | some (k, r1) =>
          match r1 with
          | ':' :: r2 =>
            match parseJsonF fuel r2 with
            | none => none
            | some (v, r3) =>
              match r3 with
              | ',' :: r4 => (parseFieldsF fuel r4).map
                  (fun p => ((k.asString, v) :: p.1, p.2))
              | '}' :: r4 => some ([(k.asString, v)], r4)
              | _ => none
          | _ => none
      else none

end

/-- Code-point comparison of character lists, most significant first. -/
def charListLe : List Char → List Char → Bool
  | [], _ => true
  | _ :: _, [] => false
  | x :: xs, y :: ys =>
    if x = y then charListLe xs ys else decide (x.toNat < y.toNat)

/-- Model of the key comparator (`localeCompare` in the source) as
code-point lexicographic order; the source relies only on the comparator
being a total order yielding a deterministic sort. -/
def strLe (a b : String) : Bool := charListLe a.toList b.toList

/-- Insert a field into a key-sorted field list. -/
def insertField {α : Type} (p : String × α) :
    List (String × α) → List (String × α)
  | [] => [p]
  | q :: r => if strLe p.1 q.1 then p :: q :: r else q :: insertField p r

/-- Insertion sort of object fields by key. -/
def sortFields {α : Type} : List (String × α) → List (String × α)
  | [] => []
  | p :: r => insertField p (sortFields r)

mutual

/-- Tree-level model of `normalizeForFingerprint` from `helpers/types.ts` /
`hoistBundledSchemas.ts`.  On tree-shaped (unshared, acyclic) values the
source's `seen` set never contains a revisited object, so the cycle branch
never fires and the recursion is exactly this one; the heap-level model
below (`normVal`) keeps the `seen` set and is related to this function through the
pure readback `reifyVal`.  The source sorts the filtered entries and then
normalizes each value; normalizing before sorting is the same because
normalization preserves keys and the comparator reads only keys. -/
def normalizeTree : Bool → Json → Json
  | _, .null => .null
  | _, .bool b => .bool b
  | _, .num n => .num n
  | _, .str s => .str s
  | _, .arr items => .arr (normalizeTreeList items)
  | isRoot, .obj fields => .obj (sortFields (normalizeTreeFields isRoot fields))

/-- Normalize every array element (array entries are never roots). -/
def normalizeTreeList : List Json → List Json
  | [] => []
  | x :: r => normalizeTree false x :: normalizeTreeList r

/-- Filter out root-level `description`/`summary` fields and normalize the
remaining values. -/
def normalizeTreeFields (isRoot : Bool) :
    List (String × Json) → List (String × Json)
  | [] => []
  | (k, v) :: r =>
    if isRoot ∧ (k = "description" ∨ k = "summary") then
      normalizeTreeFields isRoot r
    else (k, normalizeTree false v) :: normalizeTreeFields isRoot r

end

/-- Tree-level model of `createSchemaFingerprint`:
`JSON.stringify(normalizeForFingerprint(schema, true, new WeakSet()))`. -/
def createSchemaFingerprintTree (schema : Json) : String :=
  (stringifyJson (normalizeTree true schema)).asString


/-- Drop the `description` and `summary` members of a field list (the
root-level filter of `normalizeForFingerprint`). -/
def dropDocFields {α : Type} (fs : List (String × α)) : List (String × α) :=
  fs.filter (fun p => decide (p.1 ≠ "description" ∧ p.1 ≠ "summary"))

mutual

/-- Spec-side relation for claim C5: equality up to the ordering of keys in
any nested record.  Scalars must coincide, arrays must match pointwise, and
a record must list the same keys (pairwise distinct, as JavaScript object
keys are) with related values in some order: the left fields `fs` are
pointwise related to a list `hs` that is a permutation of the right
fields. -/
inductive KeyPermEq : Json → Json → Prop where
  | null : KeyPermEq Json.null Json.null
  | bool (b : Bool) : KeyPermEq (Json.bool b) (Json.bool b)
  | num (n : Int) : KeyPermEq (Json.num n) (Json.num n)
  | str (s : String) : KeyPermEq (Json.str s) (Json.str s)
  | arr {xs ys : List Json} : KPList xs ys →
      KeyPermEq (Json.arr xs) (Json.arr ys)
  | obj {fs hs gs : List (String × Json)} : (fs.map Prod.fst).Nodup →
      KPFields fs hs → hs.Perm gs → KeyPermEq (Json.obj fs) (Json.obj gs)

inductive KPList : List Json → List Json → Prop where
  | nil : KPList [] []
  | cons {x y xs ys} : KeyPermEq x y → KPList xs ys →
      KPList (x :: xs) (y :: ys)

inductive KPFields : List (String × Json) →
    List (String × Json) → Prop where
  | nil : KPFields [] []
  | cons {k v w fs hs} : KeyPermEq v w → KPFields fs hs →
      KPFields ((k, v) :: fs) ((k, w) :: hs)

end

/-- One-hole context over `Json` trees, locating the position at which two
schemas differ. -/
inductive JCtx where
  | hole
  | arrC (before : List Json) (c : JCtx) (after : List Json)
  | objC (before : List (String × Json)) (k : String) (c : JCtx)
      (after : List (String × Json))

/-- Plug a value into a context. -/
def plug : JCtx → Json → Json
  | .hole, x => x
  | .arrC b c a, x => .arr (b ++ plug c x :: a)
  | .objC b k c a, x => .obj (b ++ (k, plug c x) :: a)

/-- Every record frame of the context has pairwise distinct keys (JavaScript
object keys are unique). -/
def ctxOk : JCtx → Prop
  | .hole => True
  | .arrC _ c _ => ctxOk c
  | .objC b k c a =>
      ((b.map Prod.fst) ++ k :: (a.map Prod.fst)).Nodup ∧ ctxOk c

/-- Model of a mutable JavaScript value: primitives are immutable; arrays
and plain objects live in a heap and are denoted by their address.  Object
identity (`WeakMap`/`WeakSet` keys) is address equality. -/
inductive JVal where
  | null
  | bool (b : Bool)
  | num (n : Int)
  | str (s : String)
  | ref (a : Nat)
deriving DecidableEq

/-- A heap cell: a JavaScript array or plain record. -/
inductive JObj where
  | arr (items : List JVal)
  | record (fields : List (String × JVal))
deriving DecidableEq

/-- The heap: the cell at address `a` is entry `a` of the list. -/
abbrev Heap := List JObj



mutual

/-- Heap-level model of `normalizeForFingerprint` from `helpers/types.ts`:
non-objects pass through; an address already on the current traversal path
(`seen`) yields the sentinel `"[Circular]"`; an array normalizes its entries
with its address pushed onto the path; a record drops root-level
`description`/`summary` members, sorts the remaining fields by key, and
normalizes their values with its address pushed onto the path.  The source
statement `seen.delete(value)` after a subtree is rendered by handing the
unextended path to the siblings.  The fuel only makes the `seen`-guarded
recursion structural (it decreases at every step); lemmas quantify over a
sufficiently large fuel.  The result is a pure `Json` tree, standing for the
fresh plain value the source builds. -/
def normVal (h : Heap) : Nat → List Nat → Bool → JVal → Option Json
  | _, _, _, .null => some .null
  | _, _, _, .bool b => some (.bool b)
  | _, _, _, .num n => some (.num n)
  | _, _, _, .str s => some (.str s)
  | 0, seen, _, .ref a =>
    if a ∈ seen then some (.str "[Circular]") else none
  | fuel + 1, seen, isRoot, .ref a =>
    if a ∈ seen then some (.str "[Circular]")
    else
      match h.get? a with
      | none => none
      | some (.arr items) =>
        (normValList h fuel (a :: seen) items).map Json.arr
      | some (.record fields) =>
        (normValFields h fuel (a :: seen)
          (sortFields (if isRoot then dropDocFields fields else fields))).map
          Json.obj

def normValList (h : Heap) : Nat → List Nat → List JVal → Option (List Json)
  | _, _, [] => some []
  | 0, _, _ :: _ => none
  | fuel + 1, seen, v :: r =>
    match normVal h fuel seen false v, normValList h fuel seen r with
    | some j, some js => some (j :: js)
    | _, _ => none

def normValFields (h : Heap) :
    Nat → List Nat → List (String × JVal) → Option (List (String × Json))
  | _, _, [] => some []
  | 0, _, _ :: _ => none
  | fuel + 1, seen, (k, v) :: r =>
    match normVal h fuel seen false v, normValFields h fuel seen r with
    | some j, some js => some ((k, j) :: js)
    | _, _ => none

end



mutual

/-- Pure readback of a heap value as a tree: the same traversal as `normVal`
but with no sorting, filtering or sentinel — it fails on a revisited path
address and on fuel exhaustion.  `reifyVal h fuel seen v = some t` states
that `v` is acyclic (relative to the forbidden path `seen`) and its
structure reads back as the tree `t`. -/
def reifyVal (h : Heap) : Nat → List Nat → JVal → Option Json
  | _, _, .null => some .null
  | _, _, .bool b => some (.bool b)
  | _, _, .num n => some (.num n)
  | _, _, .str s => some (.str s)
  | 0, _, .ref _ => none
  | fuel + 1, seen, .ref a =>
    if a ∈ seen then none
    else
      match h.get? a with
      | none => none
      | some (.arr items) =>
        (reifyList h fuel (a :: seen) items).map Json.arr
      | some (.record fields) =>
        (reifyFields h fuel (a :: seen) fields).map Json.obj

def reifyList (h : Heap) : Nat → List Nat → List JVal → Option (List Json)
  | _, _, [] => some []
  | 0, _, _ :: _ => none
  | fuel + 1, seen, v :: r =>
    match reifyVal h fuel seen v, reifyList h fuel seen r with
    | some j, some js => some (j :: js)
    | _, _ => none

def reifyFields (h : Heap) :
    Nat → List Nat → List (String × JVal) → Option (List (String × Json))
  | _, _, [] => some []
  | 0, _, _ :: _ => none
  | fuel + 1, seen, (k, v) :: r =>
    match reifyVal h fuel seen v, reifyFields h fuel seen r with
    | some j, some js => some ((k, j) :: js)
    | _, _ => none

end

/-- Heap-level model of `createSchemaFingerprint`:
`JSON.stringify(normalizeForFingerprint(schema, true, new WeakSet()))` for
the record at address `a`.  The fuel makes the `seen`-guarded recursion
structural. -/
def createSchemaFingerprint (h : Heap) (fuel : Nat) (a : Nat) : Option String :=
  (normVal h fuel [] true (JVal.ref a)).map
    (fun t => (stringifyJson t).asString)


/-! ### Registry, pointer resolution and the document heap -/

/-- First field of a record with the given key (JavaScript property read;
object keys are unique in JavaScript, the model reads the first match). -/
def getFieldL (fs : List (String × JVal)) (k : String) : Option JVal :=
  (fs.find? (fun p => p.1 == k)).map Prod.snd

/-- JavaScript property write: overwrite an existing key in place, append a
new key in insertion order. -/
def setFieldL (fs : List (String × JVal)) (k : String) (v : JVal) :
    List (String × JVal) :=
  if (getFieldL fs k).isSome then
    fs.map (fun p => if p.1 = k then (k, v) else p)
  else fs ++ [(k, v)]

/-- Property read through the heap (`none` when the address does not hold a
record or the key is absent). -/
def heapGetField (h : Heap) (a : Nat) (k : String) : Option JVal :=
  match h.get? a with
  | some (JObj.record fs) => getFieldL fs k
  | _ => none

/-- Property write through the heap (in-place mutation of the record at
address `a`; no-op on a non-record). -/
def heapSetField (h : Heap) (a : Nat) (k : String) (v : JVal) : Heap :=
  match h.get? a with
  | some (JObj.record fs) => h.set a (JObj.record (setFieldL fs k v))
  | _ => h

/-- `Object.keys` of the record at an address. -/
def recordKeys (h : Heap) (a : Nat) : List String :=
  match h.get? a with
  | some (JObj.record fs) => fs.map Prod.fst
  | _ => []

/-- `WeakMap.get` on an address-keyed map. -/
def lookupAddr (m : List (Nat × String)) (a : Nat) : Option String :=
  (m.find? (fun p => p.1 == a)).map Prod.snd

/-- JavaScript falsiness of a value (`NaN` aside, which the model omits). -/
def jsFalsy : JVal → Bool
  | JVal.null => true
  | JVal.bool b => !b
  | JVal.num n => n == 0
  | JVal.str s => s == ""
  | JVal.ref _ => false

/-- The `SchemaRegistry` state of `helpers/types.ts`: the live name set, the
`WeakMap` from schema object identity (address) to component pointer, and
the address of the mutable `components.schemas` record. -/
structure SchemaRegistry where
  schemaNames : List String
  schemaPointersByValue : List (Nat × String)
  componentSchemasAddr : Nat

/-- The `if (!obj.key) obj.key = {}` pattern of `createSchemaRegistry`: read
a field, replacing a missing or falsy value by a freshly allocated empty
record; fails when the value is a truthy non-object (the source would then
crash or misbehave on the subsequent property writes). -/
def ensureFieldRecord (h : Heap) (a : Nat) (k : String) :
    Option (Heap × Nat) :=
  match h.get? a with
  | some (JObj.record fs) =>
    match getFieldL fs k with
    | some (JVal.ref b) => some (h, b)
    | some v =>
      if jsFalsy v then
        some ((h.set a (JObj.record (setFieldL fs k (JVal.ref h.length)))) ++
          [JObj.record []], h.length)
      else none
    | none =>
      some ((h.set a (JObj.record (setFieldL fs k (JVal.ref h.length)))) ++
        [JObj.record []], h.length)
  | _ => none

/-- Model of `createSchemaRegistry` from `registry.ts` (`part_006`): ensure
`components` and `components.schemas` exist, then index the existing keys as
live names and record a component pointer for every object-valued entry. -/
def createSchemaRegistry (h : Heap) (rootA : Nat) :
    Option (Heap × SchemaRegistry) :=
  match ensureFieldRecord h rootA "components" with
  | none => none
  | some (h1, cA) =>
    match ensureFieldRecord h1 cA "schemas" with
    | none => none
    | some (h2, sA) =>
      match h2.get? sA with
      | some (JObj.record sFs) =>
        some (h2,
          { schemaNames := sFs.map Prod.fst,
            schemaPointersByValue := sFs.filterMap (fun p =>
              match p.2 with
              | JVal.ref a => some (a,
                  "#/components/schemas/" ++ encodeJsonPointerToken p.1)
              | _ => none),
            componentSchemasAddr := sA })
      | _ => none

/-- Model of `registerSchemaInComponents` from `registry.ts` (`part_006`):
an object already registered (by identity) returns its recorded pointer
unchanged; otherwise a unique name is chosen, the object is stored under
`components.schemas`, and the new pointer is recorded. -/
def registerSchemaInComponents (h : Heap) (reg : SchemaRegistry)
    (schemaAddr : Nat) (preferredName : String) :
    Heap × SchemaRegistry × String :=
  match lookupAddr reg.schemaPointersByValue schemaAddr with
  | some p => (h, reg, p)
  | none =>
    let r := createUniqueSchemaName preferredName reg.schemaNames
    let pointer := "#/components/schemas/" ++ encodeJsonPointerToken r.1
    (heapSetField h reg.componentSchemasAddr r.1 (JVal.ref schemaAddr),
      ⟨r.2, reg.schemaPointersByValue ++ [(schemaAddr, pointer)],
        reg.componentSchemasAddr⟩,
      pointer)

/-- `String.prototype.split` on a single-character separator. -/
def splitOnChar (c : Char) : List Char → List (List Char)
  | [] => [[]]
  | x :: xs =>
    match splitOnChar c xs with
    | [] => [[]]
    | g :: gs => if x = c then [] :: g :: gs else (x :: g) :: gs

/-- The `StrWhiteSpace` characters `Number(string)` trims: ASCII
whitespace, NBSP, BOM, the Unicode `Space_Separator` code points and the
line separators. -/
def jsWhitespaceChar (c : Char) : Bool :=
  [0x9, 0xA, 0xB, 0xC, 0xD, 0x20, 0xA0, 0x1680, 0x2000, 0x2001, 0x2002,
    0x2003, 0x2004, 0x2005, 0x2006, 0x2007, 0x2008, 0x2009, 0x200A, 0x2028,
    0x2029, 0x202F, 0x205F, 0x3000, 0xFEFF].contains c.toNat

/-- Both-ends trim of JS whitespace. -/
def trimJsWs (l : List Char) : List Char :=
  ((l.dropWhile (fun c => jsWhitespaceChar c)).reverse.dropWhile
    (fun c => jsWhitespaceChar c)).reverse

/-- A nonempty digit run in a given radix, `none` on any non-digit. -/
def radixVal (radix : Nat) (digVal : Char → Option Nat)
    (l : List Char) : Option Nat :=
  if l.isEmpty then none
  else l.foldl (fun acc c =>
    match acc, digVal c with
    | some a, some d => some (a * radix + d)
    | _, _ => none) (some 0)

/-- Octal digit value. -/
def octVal (c : Char) : Option Nat :=
  if '0' ≤ c ∧ c ≤ '7' then some (c.toNat - 48) else none

/-- Binary digit value. -/
def binVal (c : Char) : Option Nat :=
  if c = '0' then some 0 else if c = '1' then some 1 else none

/-- The mantissa of a decimal numeric literal: digits with an optional
decimal point (at least one digit in total), returning the digit value,
the fraction length and the unconsumed tail. -/
def parseDecMantissa (l : List Char) : Option (Nat × Nat × List Char) :=
  let ip := l.takeWhile Char.isDigit
  match l.dropWhile Char.isDigit with
  | '.' :: r2 =>
    let fp := r2.takeWhile Char.isDigit
    if ip.isEmpty && fp.isEmpty then none
    else some (digitsVal (ip ++ fp), fp.length, r2.dropWhile Char.isDigit)
  | r1 =>
    if ip.isEmpty then none else some (digitsVal ip, 0, r1)

/-- The optional exponent part of a decimal numeric literal; the empty
tail means exponent `0`, anything else must be `e`/`E` with an optional
sign and a nonempty digit run. -/
def parseExpPart : List Char → Option Int
  | [] => some 0
  | e :: rest =>
    if e = 'e' ∨ e = 'E' then
      match rest with
      | '+' :: ds =>
        if ds ≠ [] ∧ ds.all Char.isDigit then some (Int.ofNat (digitsVal ds))
        else none
      | '-' :: ds =>
        if ds ≠ [] ∧ ds.all Char.isDigit then
          some (-(Int.ofNat (digitsVal ds)))
        else none
      | ds =>
        if ds ≠ [] ∧ ds.all Char.isDigit then some (Int.ofNat (digitsVal ds))
        else none
    else none

/-- Exact value of a signless decimal numeric literal when that value is
an integer (`mantissa × 10^(exp − fractionLength)` with exact
divisibility), `none` otherwise. -/
def jsDecNumber (l : List Char) : Option Int :=
  match parseDecMantissa l with
  | none => none
  | some (m, fl, rest) =>
    match parseExpPart rest with
    | none => none
    | some e =>
      let t : Int := e - Int.ofNat fl
      if m = 0 then some 0
      else if 0 ≤ t then some (Int.ofNat (m * 10 ^ t.toNat))
      else if m % 10 ^ (-t).toNat = 0 then
        some (Int.ofNat (m / 10 ^ (-t).toNat))
      else none

/-- JavaScript `Number(token)` under the `Number.isInteger` guard of
`resolveLocalPointer`: the exact value when the trimmed token is a numeric
literal with an integral value (decimal with optional fraction and
exponent, unsigned hex/octal/binary, the empty string as `0`), `none` for
`NaN`, non-integral values and `Infinity`. -/
def jsNumber (tok : String) : Option Int :=
  match trimJsWs tok.toList with
  | [] => some 0
  | '0' :: 'x' :: rest => (radixVal 16 hexVal rest).map Int.ofNat
  | '0' :: 'X' :: rest => (radixVal 16 hexVal rest).map Int.ofNat
  | '0' :: 'o' :: rest => (radixVal 8 octVal rest).map Int.ofNat
  | '0' :: 'O' :: rest => (radixVal 8 octVal rest).map Int.ofNat
  | '0' :: 'b' :: rest => (radixVal 2 binVal rest).map Int.ofNat
  | '0' :: 'B' :: rest => (radixVal 2 binVal rest).map Int.ofNat
  | '+' :: rest => if rest = "Infinity".data then none else jsDecNumber rest
  | '-' :: rest =>
    if rest = "Infinity".data then none
    else (jsDecNumber rest).map (fun n => -n)
  | l => if l = "Infinity".data then none else jsDecNumber l

/-- The array-index step of `resolveLocalPointer`: `Number(token)` must be
an integer; a negative index reads as `undefined` exactly like an
out-of-range one. -/
def jsArrayIndex (tok : String) : Option Nat :=
  match jsNumber tok with
  | some i => if i < 0 then none else some i.toNat
  | none => none

/-- The token-walking loop of `resolveLocalPointer`: arrays are indexed by
integer tokens, records by key; any miss or non-object step yields
`undefined` (`none`). -/
def resolveTokens (h : Heap) : List String → JVal → Option JVal
  | [], cur => some cur
  | tok :: rest, cur =>
    match cur with
    | JVal.ref a =>
      match h.get? a with
      | some (JObj.arr items) =>
        match jsArrayIndex tok with
        | some i =>
          match items.get? i with
          | some v => resolveTokens h rest v
          | none => none
        | none => none
      | some (JObj.record fs) =>
        match getFieldL fs tok with
        | some v => resolveTokens h rest v
        | none => none
      | none => none
    | _ => none

/-- Model of `resolveLocalPointer` from `pointers.ts` (`part_007`): `#` is
the root, a `#/`-pointer is split on `/`, tokens are decoded with
`decodeJsonPointerToken` and walked from the root. -/
def resolveLocalPointer (h : Heap) (rootA : Nat) (pointer : String) :
    Option JVal :=
  if pointer = "#" then some (JVal.ref rootA)
  else
    match pointer.toList with
    | '#' :: '/' :: rest =>
      resolveTokens h
        ((splitOnChar '/' rest).map
          (fun tks => decodeJsonPointerToken tks.asString))
        (JVal.ref rootA)
    | _ => none

/-- States reachable by a sequence of `registerSchemaInComponents` calls on
a registry built by `createSchemaRegistry`.  The `init` constructor carries
the well-formedness of the freshly built registry that the source relies on
and the heap cannot contradict for a real bundled document: the document
root and the `components` record are distinct objects from the
`components.schemas` record, the pre-existing component names are pairwise
distinct (JavaScript object keys), and — the amendment of claim C4 — every
pre-existing name is free of `'%'`.  Each `step` likewise registers under a
`'%'`-free preferred name. -/
inductive RegReach (rootA : Nat) : Heap → SchemaRegistry → Prop where
  | init {h h' : Heap} {reg : SchemaRegistry} {cA : Nat} :
      createSchemaRegistry h rootA = some (h', reg) →
      rootA ≠ reg.componentSchemasAddr →
      cA ≠ reg.componentSchemasAddr →
      heapGetField h' rootA "components" = some (JVal.ref cA) →
      heapGetField h' cA "schemas" =
        some (JVal.ref reg.componentSchemasAddr) →
      (recordKeys h' reg.componentSchemasAddr).Nodup →
      (∀ n ∈ reg.schemaNames, '%' ∉ n.toList) →
      RegReach rootA h' reg
  | step {h h' : Heap} {reg reg' : SchemaRegistry} {addr : Nat}
      {name p : String} :
      RegReach rootA h reg →
      '%' ∉ name.toList →
      registerSchemaInComponents h reg addr name = (h', reg', p) →
      RegReach rootA h' reg'


/-- The registry invariant carried across `registerSchemaInComponents`
steps: the `components.schemas` record is a record distinct from the root
and `components` objects on its access path, every live name is `'%'`-free,
every key of the schemas record is a live name, and every pointer-map entry
records the component pointer of a name under which its object is stored. -/
def RegInv (h : Heap) (rootA : Nat) (reg : SchemaRegistry) : Prop :=
  (∃ cA, rootA ≠ reg.componentSchemasAddr ∧ cA ≠ reg.componentSchemasAddr ∧
    heapGetField h rootA "components" = some (JVal.ref cA) ∧
    heapGetField h cA "schemas" = some (JVal.ref reg.componentSchemasAddr)) ∧
  (∃ sFs, h.get? reg.componentSchemasAddr = some (JObj.record sFs)) ∧
  (∀ n ∈ reg.schemaNames, '%' ∉ n.toList) ∧
  (∀ k ∈ recordKeys h reg.componentSchemasAddr, k ∈ reg.schemaNames) ∧
  (∀ ap ∈ reg.schemaPointersByValue, ∃ name, '%' ∉ name.toList ∧
    ap.2 = "#/components/schemas/" ++ encodeJsonPointerToken name ∧
    heapGetField h reg.componentSchemasAddr name = some (JVal.ref ap.1))


/-- Generic `Map.get` on a string-keyed insertion-ordered map. -/
def lookupStr {α : Type} (m : List (String × α)) (k : String) : Option α :=
  (m.find? (fun p => p.1 == k)).map Prod.snd

/-- The part of the source's `ExternalSchemaNameResolver` state read by the
candidate-resolution functions: the identity map from schema objects
(addresses) to their recorded names, the canonical schema per name, and the
per-fingerprint map of canonical schemas keyed by name.  The remaining
fields of the source structure are not read by these functions and are
omitted. -/
structure ExternalResolver where
  nameByValue : List (Nat × String)
  canonicalByName : List (String × Nat)
  canonicalByFingerprint : List (String × List (String × Nat))

/-- The identity half of `resolveExternalSchemaCandidate`: a recorded name
is used only when truthy (nonempty) and only when `canonicalByName` still
holds it; otherwise the caller falls through to the fingerprint lookup. -/
def resolveByIdentity (r : ExternalResolver) (schemaAddr : Nat) :
    Option (String × Nat) :=
  match lookupAddr r.nameByValue schemaAddr with
  | some n =>
    if n = "" then none
    else
      match lookupStr r.canonicalByName n with
      | some c => some (n, c)
      | none => none
  | none => none

/-- Model of `resolveExternalSchemaCandidate` from
`helpers/rewritePasses.ts`: first by identity, else by fingerprint, and by
fingerprint only when exactly one canonical schema carries that
fingerprint.  The outer `Option` is the fingerprint fuel (`none` = fuel
exhausted, never the case at sufficient fuel); the inner `Option` is the
source's `undefined`-or-candidate result. -/
def resolveExternalSchemaCandidate (h : Heap) (fuel : Nat)
    (r : ExternalResolver) (schemaAddr : Nat) :
    Option (Option (String × Nat)) :=
  match resolveByIdentity r schemaAddr with
  | some c => some (some c)
  | none =>
    match createSchemaFingerprint h fuel schemaAddr with
    | none => none
    | some fp =>
      match lookupStr r.canonicalByFingerprint fp with
      | none => some none
      | some cands =>
        match cands with
        | [c] => some (some c)
        | _ => some none

/-- Model of `resolveExternalComponentCandidate` from
`helpers/rewritePasses.ts`: a single-entry fingerprint match in the hoisted
component index, `undefined` on zero or several matches. -/
def resolveExternalComponentCandidate (h : Heap) (fuel : Nat)
    (index : List (String × List (String × Nat))) (schemaAddr : Nat) :
    Option (Option (String × Nat)) :=
  match createSchemaFingerprint h fuel schemaAddr with
  | none => none
  | some fp =>
    match lookupStr index fp with
    | none => some none
    | some ms =>
      match ms with
      | [c] => some (some c)
      | _ => some none

/-! ### Strings, names and guards used by the walk passes -/

/-- List-level prefix test used to model `String.prototype.startsWith`. -/
def isPrefixL : List Char → List Char → Bool
  | [], _ => true
  | _ :: _, [] => false
  | x :: xs, y :: ys => x == y && isPrefixL xs ys

/-- JavaScript `s.startsWith(p)`. -/
def jsStartsWith (s p : String) : Bool := isPrefixL p.toList s.toList

/-- JavaScript `s.endsWith(p)`. -/
def jsEndsWith (s p : String) : Bool :=
  isPrefixL p.toList.reverse s.toList.reverse

/-- ASCII lower-casing of one character (`String.prototype.toLowerCase` on
the ASCII data these passes handle). -/
def lowerChar (c : Char) : Char :=
  if 65 ≤ c.toNat && c.toNat ≤ 90 then Char.ofNat (c.toNat + 32) else c

/-- JavaScript `s.toLowerCase()` (ASCII). -/
def strToLower (s : String) : String := (s.toList.map lowerChar).asString

/-- ASCII upper-casing of one character (`String.prototype.toUpperCase`). -/
def upperChar (c : Char) : Char :=
  if 97 ≤ c.toNat && c.toNat ≤ 122 then Char.ofNat (c.toNat - 32) else c

/-- `nodePath.basename`: the segment after the final `'/'` (POSIX; the
trailing-separator special cases do not arise for the paths handled here). -/
def pathBasename (s : String) : String :=
  ((splitOnChar '/' s.toList).getLastD []).asString

/-- The `schemaContextKeys` set of `hoistBundledSchemas.ts` (lines 11–33). -/
def schemaContextKeys : List String :=
  ["$defs", "additionalProperties", "allOf", "anyOf", "contains",
   "definitions", "dependentSchemas", "else", "if", "items", "not", "oneOf",
   "patternProperties", "prefixItems", "properties", "propertyNames",
   "schema", "schemas", "then", "unevaluatedItems", "unevaluatedProperties"]

/-- The `ignoredPointerNameTokens` set of `hoistBundledSchemas.ts`
(lines 35–55). -/
def ignoredPointerNameTokens : List String :=
  ["allOf", "anyOf", "components", "content", "items", "oneOf", "paths",
   "post", "put", "patch", "get", "delete", "head", "trace", "options",
   "requestBody", "responses", "schema", "schemas"]

/-- The `schemaKeys` list of `isLikelySchemaObject`. -/
def likelySchemaKeys : List String :=
  ["$ref", "additionalProperties", "allOf", "anyOf", "const",
   "discriminator", "enum", "format", "items", "not", "oneOf",
   "patternProperties", "properties", "required", "type"]

/-- `isLikelySchemaObject` on a record's field list: some likely schema key
is present. -/
def isLikelySchemaFields (fs : List (String × JVal)) : Bool :=
  likelySchemaKeys.any (fun k => (getFieldL fs k).isSome)

/-- `isLikelySchemaObject` through the heap (`false` on a non-record). -/
def isLikelySchemaObject (h : Heap) (a : Nat) : Bool :=
  match h.get? a with
  | some (JObj.record fs) => isLikelySchemaFields fs
  | _ => false

/-- The replacement `name.replace(/\.[^./\x7b0\x7d]+$/u, '')` pattern shared
by the naming helpers: drop a final `.extension` whose extension part is
nonempty and free of `.`, `/` and `\`. -/
def stripExtension (l : List Char) : List Char :=
  let tail := l.reverse.takeWhile (fun c => c ≠ '.' && c ≠ '/' && c ≠ '\\')
  if tail.length < l.length && !tail.isEmpty &&
      l.reverse.get? tail.length == some '.' then
    (l.reverse.drop (tail.length + 1)).reverse
  else l

/-- Character class `[a-zA-Z0-9._-]` of `createSchemaNameFromSourcePath`. -/
def isSourceNameChar (c : Char) : Bool :=
  (97 ≤ c.toNat && c.toNat ≤ 122) || (65 ≤ c.toNat && c.toNat ≤ 90) ||
    (48 ≤ c.toNat && c.toNat ≤ 57) || c == '.' || c == '_' || c == '-'

/-- Character class `[a-zA-Z0-9]`. -/
def isAlphaNumChar (c : Char) : Bool :=
  (48 ≤ c.toNat && c.toNat ≤ 57) || (65 ≤ c.toNat && c.toNat ≤ 90) ||
    (97 ≤ c.toNat && c.toNat ≤ 122)

/-- Character class `[a-zA-Z]`. -/
def isAlphaChar (c : Char) : Bool :=
  (65 ≤ c.toNat && c.toNat ≤ 90) || (97 ≤ c.toNat && c.toNat ≤ 122)

/-- Model of `createSchemaNameFromSourcePath`: basename, extension stripped,
characters outside `[a-zA-Z0-9._-]` replaced by `-`, empty results replaced
by `Schema`. -/
def createSchemaNameFromSourcePath (sourcePath : String) : String :=
  let fileName := (pathBasename sourcePath).toList
  let normalized := (stripExtension fileName).map
    (fun c => if isSourceNameChar c then c else '-')
  if normalized.isEmpty then "Schema" else normalized.asString

/-- `part[0].toUpperCase() + part.slice(1)`. -/
def capitalizeFirst : List Char → List Char
  | [] => []
  | c :: r => upperChar c :: r

/-- Model of `normalizeComponentName`: strip the extension, break the name
at maximal non-alphanumeric runs, capitalize each part and concatenate;
`Schema` when nothing remains. -/
def normalizeComponentName (name : String) : String :=
  let spaced := (stripExtension name.toList).map
    (fun c => if isAlphaNumChar c then c else ' ')
  let parts := (splitOnChar ' ' spaced).filter (fun p => !p.isEmpty)
  if parts.isEmpty then "Schema"
  else ((parts.map capitalizeFirst).foldr (· ++ ·) []).asString

/-- `/^\d+$/u.test(token)`. -/
def isAllDigits (s : String) : Bool :=
  !s.toList.isEmpty && s.toList.all Char.isDigit

/-- The token filter of `createSchemaNameFromPointer`: skip falsy,
all-digit, slash-containing, ignored and `application/`-prefixed tokens. -/
def pointerTokenSkipped (t : String) : Bool :=
  t == "" || isAllDigits t || t.toList.contains '/' ||
    ignoredPointerNameTokens.contains t || jsStartsWith t "application/"

/-- Model of `createSchemaNameFromPointer`: decode the pointer tokens after
`#/`, take the last token that the filter keeps, and fall back to the very
last token (`Schema` is unreachable since `split` is never empty). -/
def createSchemaNameFromPointer (pointer : String) : String :=
  let tokens := (splitOnChar '/' (pointer.toList.drop 2)).map
    (fun tks => decodeJsonPointerToken tks.asString)
  match tokens.reverse.find? (fun t => !pointerTokenSkipped t) with
  | some t => normalizeComponentName t
  | none =>
    match tokens.getLast? with
    | some t => normalizeComponentName t
    | none => "Schema"

/-- Model of `isComponentSchemaRootPointer`
(`/^#\/components\/schemas\/[^/]+$/u`): the component-schema prefix
followed by a nonempty final token without `/`. -/
def isComponentSchemaRootPointer (p : String) : Bool :=
  let rest := p.toList.drop 21
  isPrefixL "#/components/schemas/".toList p.toList &&
    !rest.isEmpty && !rest.contains '/'

/-- Character class `[a-zA-Z0-9+.-]` of the URI-scheme test. -/
def isSchemeChar (c : Char) : Bool :=
  isAlphaNumChar c || c == '+' || c == '.' || c == '-'

/-- Scheme characters up to a `:` (the tail of
`/^[a-zA-Z][a-zA-Z0-9+.-]*:/u`). -/
def schemeTail : List Char → Bool
  | [] => false
  | c :: r => if c == ':' then true else isSchemeChar c && schemeTail r

/-- `/^[a-zA-Z][a-zA-Z0-9+.-]*:/u.test(value)`. -/
def hasUriScheme : List Char → Bool
  | [] => false
  | c :: r => isAlphaChar c && schemeTail r

/-- Whether a (lower-cased) tail behind a `.` matches
`(yaml|yml|json)(#.*)?$`. -/
def extAfterDot (rest : List Char) : Bool :=
  ["yaml", "yml", "json"].any (fun e =>
    isPrefixL e.toList rest &&
      ((rest.drop e.length).isEmpty || (rest.drop e.length).head? == some '#'))

/-- `/\.(yaml|yml|json)(#.*)?$/iu` on an already lower-cased character
list. -/
def hasSchemaFileExt : List Char → Bool
  | [] => false
  | c :: rest => (c == '.' && extAfterDot rest) || hasSchemaFileExt rest

/-- Model of `looksLikeExternalFileReference`: no URI scheme, not a local
pointer, and a schema file extension (case-insensitive) optionally followed
by a fragment. -/
def looksLikeExternalFileReference (value : String) : Bool :=
  if hasUriScheme value.toList || jsStartsWith value "#/" then false
  else hasSchemaFileExt (value.toList.map lowerChar)

/-! ### The generic walk and the synchronous rewrite passes -/

/-- The parent slot (`parent`, `parentKey`) handed to a walk visitor: the
root has no parent; every other visited value sits in a record field or an
array position of its parent object. -/
inductive Slot where
  | root
  | fld (parent : Nat) (key : String)
  | idx (parent : Nat) (i : Nat)
deriving DecidableEq

/-- `parent[parentKey] = v`: the replacement write of the rewrite passes. -/
def setSlot (h : Heap) : Slot → JVal → Heap
  | Slot.root, _ => h
  | Slot.fld pa k, v => heapSetField h pa k v
  | Slot.idx pa i, v =>
    match h.get? pa with
    | some (JObj.arr items) => h.set pa (JObj.arr (items.set i v))
    | _ => h

/-- A walk visitor: state, heap, visited address, JSON pointer, schema
context flag and parent slot, producing updated state and heap. -/
abbrev WalkVisitor (σ : Type) :=
  σ → Heap → Nat → String → Bool → Slot → σ × Heap

mutual

/-- Model of `walk` (monolithic source lines 836–877): non-objects are
skipped; an object is first handed to the visitor, then — unless its
address is already on the current path (`seen`) — its children, read from
the post-visit heap, are walked with the schema context extended at
schema-context keys.  The source's `seen.delete(value)` on exit is modelled
by handing the unextended path to siblings.  The fuel (consumed at every
step) only makes the recursion structural. -/
def walk {σ : Type} (vis : WalkVisitor σ) :
    Nat → σ → Heap → JVal → String → Bool → List Nat → Slot → σ × Heap
  | 0, s, h, _, _, _, _, _ => (s, h)
  | _ + 1, s, h, JVal.null, _, _, _, _ => (s, h)
  | _ + 1, s, h, JVal.bool _, _, _, _, _ => (s, h)
  | _ + 1, s, h, JVal.num _, _, _, _, _ => (s, h)
  | _ + 1, s, h, JVal.str _, _, _, _, _ => (s, h)
  | fuel + 1, s, h, JVal.ref a, ptr, ctx, seen, slot =>
    match vis s h a ptr ctx slot with
    | (s1, h1) =>
      if a ∈ seen then (s1, h1)
      else
        match h1.get? a with
        | some (JObj.arr items) =>
          walkItems vis fuel s1 h1 items 0 ptr ctx (a :: seen) a
        | some (JObj.record fs) =>
          walkFields vis fuel s1 h1 fs ptr ctx (a :: seen) a
        | none => (s1, h1)

/-- The array leg of the walk: positional recursion over the item snapshot,
extending the pointer with the encoded index. -/
def walkItems {σ : Type} (vis : WalkVisitor σ) :
    Nat → σ → Heap → List JVal → Nat → String → Bool → List Nat → Nat →
      σ × Heap
  | 0, s, h, _, _, _, _, _, _ => (s, h)
  | _ + 1, s, h, [], _, _, _, _, _ => (s, h)
  | fuel + 1, s, h, v :: rest, i, ptr, ctx, seen, pa =>
    match walk vis fuel s h v
        (ptr ++ "/" ++ encodeJsonPointerToken (natDecimal i)) ctx seen
        (Slot.idx pa i) with
    | (s1, h1) => walkItems vis fuel s1 h1 rest (i + 1) ptr ctx seen pa

/-- The record leg of the walk: recursion over the `Object.entries`
snapshot, extending the schema context at schema-context keys. -/
def walkFields {σ : Type} (vis : WalkVisitor σ) :
    Nat → σ → Heap → List (String × JVal) → String → Bool → List Nat →
      Nat → σ × Heap
  | 0, s, h, _, _, _, _, _ => (s, h)
  | _ + 1, s, h, [], _, _, _, _ => (s, h)
  | fuel + 1, s, h, (k, v) :: rest, ptr, ctx, seen, pa =>
    match walk vis fuel s h v (ptr ++ "/" ++ encodeJsonPointerToken k)
        (ctx || schemaContextKeys.contains k) seen (Slot.fld pa k) with
    | (s1, h1) => walkFields vis fuel s1 h1 rest ptr ctx seen pa

end

/-- Model of `isEquivalentRefReplacement` (monolithic source lines
693–704): same `$ref`, `summary` and `description` members, and no key of
the original outside the allowed replacement keys. -/
def isEquivalentRefReplacement (fs rs : List (String × JVal)) : Bool :=
  getFieldL fs "$ref" == getFieldL rs "$ref" &&
  getFieldL fs "summary" == getFieldL rs "summary" &&
  getFieldL fs "description" == getFieldL rs "description" &&
  (fs.map Prod.fst).all
    (fun k => k == "$ref" || k == "summary" || k == "description")

/-- The replacement record `{ $ref: cp }` extended with the original's
`summary` and `description` members when those are strings. -/
def buildReplacementFields (fs : List (String × JVal)) (cp : String) :
    List (String × JVal) :=
  [("$ref", JVal.str cp)] ++
  (match getFieldL fs "summary" with
   | some (JVal.str s) => [("summary", JVal.str s)]
   | _ => []) ++
  (match getFieldL fs "description" with
   | some (JVal.str s) => [("description", JVal.str s)]
   | _ => [])

/-- The visitor of `rewriteLocalSchemaRefsToComponents` (monolithic source
lines 177–206): on a schema-context record whose `$ref` is a local
non-component pointer string resolving to a record, register the resolved
target (preferring an external candidate's canonical schema and name) and
overwrite the `$ref` in place when it differs from the component pointer.
The `none` state signals exhausted fingerprint fuel (a model artifact,
never hit at sufficient fuel). -/
def rewriteLocalVisitor (rootA : Nat) (res : ExternalResolver)
    (fpFuel : Nat) : WalkVisitor (Option SchemaRegistry) :=
  fun st h a _ ctx _ =>
    match st with
    | none => (none, h)
    | some reg =>
      if !ctx then (some reg, h)
      else
        match h.get? a with
        | some (JObj.record fs) =>
          match getFieldL fs "$ref" with
          | some (JVal.str s) =>
            if jsStartsWith s "#/" && !jsStartsWith s "#/components/schemas/" then
              match resolveLocalPointer h rootA s with
              | some (JVal.ref ra) =>
                match h.get? ra with
                | some (JObj.record _) =>
                  match resolveExternalSchemaCandidate h fpFuel res ra with
                  | none => (none, h)
                  | some m =>
                    let preferredName :=
                      match m with
                      | some (n, _) =>
                        if n = "" then createSchemaNameFromPointer s else n
                      | none => createSchemaNameFromPointer s
                    let schemaForComponent :=
                      match m with
                      | some (_, c) => c
                      | none => ra
                    match registerSchemaInComponents h reg
                        schemaForComponent preferredName with
                    | (h', reg', cp) =>
                      if s ≠ cp then
                        (some reg', heapSetField h' a "$ref" (JVal.str cp))
                      else (some reg', h')
                | _ => (some reg, h)
              | some _ => (some reg, h)
              | none => (some reg, h)
            else (some reg, h)
          | _ => (some reg, h)
        | _ => (some reg, h)

/-- Model of `rewriteLocalSchemaRefsToComponents`: one walk of the document
with `rewriteLocalVisitor`. -/
def rewriteLocalSchemaRefsToComponents (fpFuel walkFuel : Nat) (rootA : Nat)
    (res : ExternalResolver) (reg : SchemaRegistry) (h : Heap) :
    Option (SchemaRegistry × Heap) :=
  match walk (rewriteLocalVisitor rootA res fpFuel) walkFuel (some reg) h
      (JVal.ref rootA) "#" false [] Slot.root with
  | (some reg', h') => some (reg', h')
  | (none, _) => none

/-- `Map.set` on a string-keyed insertion-ordered map: overwrite an
existing key in place, append a new one. -/
def updateStr {α : Type} (m : List (String × α)) (k : String) (v : α) :
    List (String × α) :=
  if (lookupStr m k).isSome then
    m.map (fun p => if p.1 = k then (k, v) else p)
  else m ++ [(k, v)]

/-- `Map.set`/`WeakMap.set` on an address-keyed map. -/
def updateAddr {α : Type} (m : List (Nat × α)) (a : Nat) (v : α) :
    List (Nat × α) :=
  if (m.find? (fun p => p.1 == a)).isSome then
    m.map (fun p => if p.1 = a then (a, v) else p)
  else m ++ [(a, v)]

/-- The entry recursion of `buildExternalComponentFingerprintIndex`
(monolithic source lines 706–724): hoisted component records whose name has
a canonical external schema are indexed by fingerprint in entry order. -/
def buildIndexFields (h : Heap) (fpFuel : Nat)
    (canonicalByName : List (String × Nat)) :
    List (String × JVal) → List (String × List (String × Nat)) →
      Option (List (String × List (String × Nat)))
  | [], acc => some acc
  | (name, v) :: rest, acc =>
    match lookupStr canonicalByName name, v with
    | some _, JVal.ref a =>
      match h.get? a with
      | some (JObj.record _) =>
        match createSchemaFingerprint h fpFuel a with
        | none => none
        | some fp =>
          buildIndexFields h fpFuel canonicalByName rest
            (updateStr acc fp (((lookupStr acc fp).getD []) ++ [(name, a)]))
      | _ => buildIndexFields h fpFuel canonicalByName rest acc
    | _, _ => buildIndexFields h fpFuel canonicalByName rest acc

/-- Model of `buildExternalComponentFingerprintIndex`. -/
def buildExternalComponentFingerprintIndex (h : Heap) (fpFuel : Nat)
    (reg : SchemaRegistry) (canonicalByName : List (String × Nat)) :
    Option (List (String × List (String × Nat))) :=
  match h.get? reg.componentSchemasAddr with
  | some (JObj.record fs) => buildIndexFields h fpFuel canonicalByName fs []
  | _ => some []

/-- The visitor of `rewriteInlineExternalSchemasToComponentRefs`
(monolithic source lines 647–689): a schema-context record that is not a
component root and has a parent is matched first against the resolver
(identity, then unique fingerprint), then against the hoisted-component
index; a match is registered, and the record's slot is replaced by a fresh
`{ $ref }` record (carrying its string `summary`/`description`) unless the
record already was exactly that replacement.  The `Bool` is the pass's
`changed` flag; the outer `Option` signals exhausted fingerprint fuel. -/
def inlineVisitor (res : ExternalResolver)
    (index : List (String × List (String × Nat))) (fpFuel : Nat) :
    WalkVisitor (Option (SchemaRegistry × Bool)) :=
  fun st h a ptr ctx slot =>
    match st with
    | none => (none, h)
    | some (reg, ch) =>
      if !ctx || isComponentSchemaRootPointer ptr || slot == Slot.root then
        (some (reg, ch), h)
      else
        match h.get? a with
        | some (JObj.record _) =>
          match resolveExternalSchemaCandidate h fpFuel res a with
          | none => (none, h)
          | some ms =>
            match (match ms with
                   | some c => some (some c)
                   | none => resolveExternalComponentCandidate h fpFuel index a) with
            | none => (none, h)
            | some selected =>
              match selected with
              | none => (some (reg, ch), h)
              | some (name, schemaAddr) =>
                match registerSchemaInComponents h reg schemaAddr name with
                | (h1, reg1, cp) =>
                  match h1.get? a with
                  | some (JObj.record fs1) =>
                    let repl := buildReplacementFields fs1 cp
                    if isEquivalentRefReplacement fs1 repl then
                      (some (reg1, ch), h1)
                    else
                      (some (reg1, true),
                        setSlot (h1 ++ [JObj.record repl]) slot
                          (JVal.ref h1.length))
                  | _ => (some (reg1, ch), h1)
        | _ => (some (reg, ch), h)

/-- One iteration of the `while (changed)` loop of
`rewriteInlineExternalSchemasToComponentRefs`: rebuild the
hoisted-component fingerprint index, then run one full walk.  The `Bool`
reports whether this traversal performed a replacement. -/
def rewriteInlineIteration (fpFuel walkFuel : Nat) (rootA : Nat)
    (res : ExternalResolver) (reg : SchemaRegistry) (h : Heap) :
    Option (SchemaRegistry × Heap × Bool) :=
  match buildExternalComponentFingerprintIndex h fpFuel reg
      res.canonicalByName with
  | none => none
  | some index =>
    match walk (inlineVisitor res index fpFuel) walkFuel
        (some (reg, false)) h (JVal.ref rootA) "#" false [] Slot.root with
    | (some (reg', ch), h') => some (reg', h', ch)
    | (none, _) => none

/-- Model of `rewriteInlineExternalSchemasToComponentRefs` (monolithic
source lines 636–691): iterate the traversal while it reports a change.
`loopFuel` bounds the iteration count; the final `Bool` is `true` exactly
when a traversal with no replacement was reached — that is, when the
source's `while (changed)` loop terminated. -/
def rewriteInlineExternalSchemasToComponentRefs (fpFuel walkFuel : Nat)
    (rootA : Nat) (res : ExternalResolver) :
    Nat → SchemaRegistry → Heap → Option (SchemaRegistry × Heap × Bool)
  | 0, reg, h => some (reg, h, false)
  | loopFuel + 1, reg, h =>
    match rewriteInlineIteration fpFuel walkFuel rootA res reg h with
    | none => none
    | some (reg', h', ch) =>
      if ch then
        rewriteInlineExternalSchemasToComponentRefs fpFuel walkFuel rootA
          res loopFuel reg' h'
      else some (reg', h', true)

/-- The visitor of `replaceHoistedObjectsWithRefs` (monolithic source lines
760–778): a schema-context value with a parent whose identity has a
recorded component pointer is replaced by a fresh `{ $ref }` record, except
at its own component pointer or a component root. -/
def replaceHoistedVisitor (reg : SchemaRegistry) : WalkVisitor Unit :=
  fun _ h a ptr ctx slot =>
    if !ctx || slot == Slot.root then ((), h)
    else
      match lookupAddr reg.schemaPointersByValue a with
      | none => ((), h)
      | some cp =>
        if ptr = cp || isComponentSchemaRootPointer ptr then ((), h)
        else
          ((), setSlot (h ++ [JObj.record [("$ref", JVal.str cp)]]) slot
            (JVal.ref h.length))

/-- Model of `replaceHoistedObjectsWithRefs`: one walk with
`replaceHoistedVisitor`. -/
def replaceHoistedObjectsWithRefs (walkFuel : Nat) (rootA : Nat)
    (reg : SchemaRegistry) (h : Heap) : Heap :=
  (walk (replaceHoistedVisitor reg) walkFuel () h (JVal.ref rootA) "#"
    false [] Slot.root).2

/-- The visitor of `collectSchemaTargets` (monolithic source lines
156–175): record schema-context occurrences of known external file roots
outside `components.schemas`, first occurrence only, in visit order. -/
def collectVisitor (externalSchemas : List (Nat × String)) :
    WalkVisitor (List (Nat × String)) :=
  fun found h a ptr ctx _ =>
    if !ctx then (found, h)
    else
      match lookupAddr externalSchemas a with
      | none => (found, h)
      | some sourcePath =>
        if jsStartsWith ptr "#/components/schemas/" then (found, h)
        else if (lookupAddr found a).isSome then (found, h)
        else (found ++ [(a, sourcePath)], h)

/-- Model of `collectSchemaTargets`: gather the targets, then sort them by
source path (`localeCompare` modelled as code-point order, as for the
fingerprint key sort). -/
def collectSchemaTargets (walkFuel : Nat) (h : Heap) (rootA : Nat)
    (externalSchemas : List (Nat × String)) : List (String × Nat) :=
  sortFields (((walk (collectVisitor externalSchemas) walkFuel [] h
    (JVal.ref rootA) "#" false [] Slot.root).1).map (fun p => (p.2, p.1)))

/-! ### Resolver state, external loading and the driver -/

/-- The full `ExternalSchemaNameResolver` state (monolithic source lines
63–74): `core` carries the three fields read by candidate resolution
(declared above as `ExternalResolver`); the remaining source fields
follow in declaration order. -/
structure ResolverState where
  core : ExternalResolver
  namesByFingerprint : List (String × List String)
  schemaBySourcePath : List (String × Nat)
  sourcePathsByBaseName : List (String × List String)
  componentNameBySourcePath : List (String × String)
  sourcePathByValue : List (Nat × String)
  sourcePathByComponentName : List (String × String)
  loadingSourcePaths : List String

/-- `createExternalSchemaNameResolver`: all maps empty. -/
def emptyResolver : ResolverState :=
  ⟨⟨[], [], []⟩, [], [], [], [], [], [], []⟩

/-- `Set.add`: append if absent. -/
def addUniqueStr (l : List String) (s : String) : List String :=
  if s ∈ l then l else l ++ [s]

/-- Model of `addExternalNameCandidate` (monolithic source lines 223–243):
on a likely schema object, record the identity name, the canonical schema
per name, and the fingerprint indexes.  `none` = exhausted fingerprint
fuel. -/
def addExternalNameCandidate (h : Heap) (fpFuel : Nat) (res : ResolverState)
    (a : Nat) (schemaName : String) : Option ResolverState :=
  if !isLikelySchemaObject h a then some res
  else
    match createSchemaFingerprint h fpFuel a with
    | none => none
    | some fp =>
      some { res with
        core := ⟨updateAddr res.core.nameByValue a schemaName,
          updateStr res.core.canonicalByName schemaName a,
          updateStr res.core.canonicalByFingerprint fp
            (updateStr ((lookupStr res.core.canonicalByFingerprint fp).getD [])
              schemaName a)⟩,
        namesByFingerprint := updateStr res.namesByFingerprint fp
          (addUniqueStr ((lookupStr res.namesByFingerprint fp).getD [])
            schemaName) }

/-- Model of `registerExternalSourcePath` (monolithic source lines
245–261): on a likely schema object, record the source path maps and the
lower-cased basename index. -/
def registerExternalSourcePath (h : Heap) (res : ResolverState)
    (sourcePath : String) (a : Nat) : ResolverState :=
  if !isLikelySchemaObject h a then res
  else
    let baseName := strToLower (pathBasename sourcePath)
    { res with
      schemaBySourcePath := updateStr res.schemaBySourcePath sourcePath a,
      sourcePathByValue := updateAddr res.sourcePathByValue a sourcePath,
      sourcePathsByBaseName := updateStr res.sourcePathsByBaseName baseName
        (addUniqueStr ((lookupStr res.sourcePathsByBaseName baseName).getD [])
          sourcePath) }

/-- The driver's external world: the `node:path` functions (library code
outside this repository) and the `$RefParser` file loader, which parses a
file into the heap (`none` = parse failure, which the source swallows). -/
structure ExtOracle where
  isAbsolute : String → Bool
  normalize : String → String
  dirname : String → String
  resolvePath : String → String → String
  parse : Heap → String → Heap × Option Nat

/-- Model of `ensureExternalSchemaForSourcePath` (monolithic source lines
571–604): cached schemas are returned as is; a load in progress yields
`undefined`; otherwise the file is parsed and, when a likely schema record,
registered as an external candidate and source path.  The `finally` release
of the loading guard is the `eraseLoading` on every exit of the parse
branch. -/
def ensureExternalSchemaForSourcePath (o : ExtOracle) (fpFuel : Nat)
    (h : Heap) (res : ResolverState) (sourcePath : String) :
    Option (Heap × ResolverState × Option Nat) :=
  match lookupStr res.schemaBySourcePath sourcePath with
  | some existing => some (h, res, some existing)
  | none =>
    if sourcePath ∈ res.loadingSourcePaths then some (h, res, none)
    else
      let withLoad := { res with
        loadingSourcePaths := addUniqueStr res.loadingSourcePaths sourcePath }
      let eraseLoading := fun (r : ResolverState) => { r with
        loadingSourcePaths := r.loadingSourcePaths.filter
          (fun p => p != sourcePath) }
      match o.parse h sourcePath with
      | (h1, none) => some (h1, eraseLoading withLoad, none)
      | (h1, some a) =>
        match h1.get? a with
        | some (JObj.record _) =>
          if !isLikelySchemaObject h1 a then
            some (h1, eraseLoading withLoad, none)
          else
            match addExternalNameCandidate h1 fpFuel withLoad a
                (createSchemaNameFromSourcePath sourcePath) with
            | none => none
            | some res2 =>
              some (h1,
                eraseLoading (registerExternalSourcePath h1 res2
                  sourcePath a), some a)
        | _ => some (h1, eraseLoading withLoad, none)

/-- `decodeJsonPointerToken(pointer.split('/').at(-1) || fallback)`. -/
def componentNameOfPointer (pointer fallback : String) : String :=
  let last := ((splitOnChar '/' pointer.toList).getLastD []).asString
  decodeJsonPointerToken (if last = "" then fallback else last)

/-- Model of `ensureComponentPointerForSourcePath` (monolithic source lines
549–569): load the external schema, register it under the recorded or
derived name, and record the component-name/source-path correspondence. -/
def ensureComponentPointerForSourcePath (o : ExtOracle) (fpFuel : Nat)
    (h : Heap) (reg : SchemaRegistry) (res : ResolverState)
    (sourcePath : String) :
    Option (Heap × SchemaRegistry × ResolverState × Option String) :=
  match ensureExternalSchemaForSourcePath o fpFuel h res sourcePath with
  | none => none
  | some (h1, res1, none) => some (h1, reg, res1, none)
  | some (h1, res1, some a) =>
    let preferredName :=
      match lookupStr res1.componentNameBySourcePath sourcePath with
      | some n => if n = "" then createSchemaNameFromSourcePath sourcePath
                  else n
      | none => createSchemaNameFromSourcePath sourcePath
    match registerSchemaInComponents h1 reg a preferredName with
    | (h2, reg2, cp) =>
      let componentName := componentNameOfPointer cp preferredName
      some (h2, reg2,
        { res1 with
          componentNameBySourcePath :=
            updateStr res1.componentNameBySourcePath sourcePath
              componentName,
          sourcePathByComponentName :=
            updateStr res1.sourcePathByComponentName componentName
              sourcePath },
        some cp)

/-- `pathRef.replace(/^\.\//u, '')`. -/
def stripDotSlash (s : String) : String :=
  match s.toList with
  | '.' :: '/' :: rest => rest.asString
  | _ => s

/-- Model of `resolveMatchingSourcePath` (monolithic source lines 377–400):
a unique basename candidate, else a unique case-insensitive
`/`-suffix match. -/
def resolveMatchingSourcePath (pathRef baseName : String)
    (res : ResolverState) : Option String :=
  match lookupStr res.sourcePathsByBaseName baseName with
  | none => none
  | some [] => none
  | some [p] => some p
  | some candidates =>
    match candidates.filter (fun sp =>
        jsEndsWith (strToLower sp) ("/" ++ strToLower (stripDotSlash pathRef))) with
    | [m] => some m
    | _ => none

/-- `isAbsolute`/`normalize`/`resolve(dirname …)` tail shared by the source
path resolutions. -/
def sourcePathFinish (o : ExtOracle) (pathRef sourcePath : String) : String :=
  if o.isAbsolute pathRef then o.normalize pathRef
  else o.normalize (o.resolvePath (o.dirname sourcePath) pathRef)

/-- Model of `resolveSourcePathFromSchemaContext` (monolithic source lines
402–431): the schema's recorded source path, else the component name's, else
the unique fingerprint candidate's; the path reference is then resolved
against it.  The outer `Option` is fingerprint fuel. -/
def resolveSourcePathFromSchemaContext (o : ExtOracle) (fpFuel : Nat)
    (h : Heap) (pathRef : String) (schemaAddr : Nat) (schemaPointer : String)
    (res : ResolverState) : Option (Option String) :=
  let byValue :=
    match lookupAddr res.sourcePathByValue schemaAddr with
    | some sp => if sp = "" then none else some sp
    | none => none
  let direct :=
    match byValue with
    | some sp => some sp
    | none =>
      if isComponentSchemaRootPointer schemaPointer then
        match lookupStr res.sourcePathByComponentName
            (decodeJsonPointerToken
              (((splitOnChar '/' schemaPointer.toList).getLastD []).asString)) with
        | some sp => if sp = "" then none else some sp
        | none => none
      else none
  match direct with
  | some sp => some (some (sourcePathFinish o pathRef sp))
  | none =>
    match createSchemaFingerprint h fpFuel schemaAddr with
    | none => none
    | some fp =>
      match lookupStr res.core.canonicalByFingerprint fp with
      | some [(_, cand)] =>
        match lookupAddr res.sourcePathByValue cand with
        | some sp =>
          if sp = "" then some none
          else some (some (sourcePathFinish o pathRef sp))
        | none => some none
      | _ => some none

/-- Model of `resolveSourcePathFromSourceRef` (monolithic source lines
536–547). -/
def resolveSourcePathFromSourceRef (o : ExtOracle)
    (sourcePath sourceRef : String) : Option String :=
  let refPath := ((splitOnChar '#' sourceRef.toList).headD []).asString
  if refPath = "" then none
  else if o.isAbsolute refPath then some (o.normalize refPath)
  else some (o.normalize (o.resolvePath (o.dirname sourcePath) refPath))

/-- Model of `resolveDiscriminatorMappingPointer` (monolithic source lines
326–375): component pointers pass through; external file references are
resolved by basename, schema context, or an existing component name, and
loaded/registered when a source path is found. -/
def resolveDiscriminatorMappingPointer (o : ExtOracle) (fpFuel : Nat)
    (h : Heap) (reg : SchemaRegistry) (res : ResolverState)
    (mappingValue : String) (schemaAddr : Nat) (schemaPointer : String) :
    Option (Heap × SchemaRegistry × ResolverState × Option String) :=
  if jsStartsWith mappingValue "#/components/schemas/" then
    some (h, reg, res, some mappingValue)
  else if !looksLikeExternalFileReference mappingValue then
    some (h, reg, res, none)
  else
    let withoutFragment :=
      (((splitOnChar '#' mappingValue.toList).headD []).map
        (fun c => if c = '\\' then '/' else c)).asString
    let baseName := strToLower (pathBasename withoutFragment)
    if baseName = "" then some (h, reg, res, none)
    else
      match (match resolveMatchingSourcePath withoutFragment baseName res with
             | some sp => some (some sp)
             | none => resolveSourcePathFromSchemaContext o fpFuel h
                 withoutFragment schemaAddr schemaPointer res) with
      | none => none
      | some none =>
        let fallbackName := createSchemaNameFromSourcePath withoutFragment
        if fallbackName ∈ recordKeys h reg.componentSchemasAddr then
          some (h, reg, res,
            some ("#/components/schemas/" ++
              encodeJsonPointerToken fallbackName))
        else some (h, reg, res, none)
      | some (some sourcePath) =>
        match ensureExternalSchemaForSourcePath o fpFuel h res sourcePath with
        | none => none
        | some (h1, res1, none) => some (h1, reg, res1, none)
        | some (h1, res1, some ext) =>
          let preferredName :=
            match lookupStr res1.componentNameBySourcePath sourcePath with
            | some n => if n = "" then createSchemaNameFromSourcePath sourcePath
                        else n
            | none => createSchemaNameFromSourcePath sourcePath
          match registerSchemaInComponents h1 reg ext preferredName with
          | (h2, reg2, cp) =>
            let componentName := componentNameOfPointer cp preferredName
            some (h2, reg2,
              { res1 with
                componentNameBySourcePath :=
                  updateStr res1.componentNameBySourcePath sourcePath
                    componentName,
                sourcePathByComponentName :=
                  updateStr res1.sourcePathByComponentName componentName
                    sourcePath },
              some cp)

/-- One mapping entry scheduled for rewriting by
`rewriteDiscriminatorMappings`. -/
structure MappingRewrite where
  schemaAddr : Nat
  schemaPointer : String
  mappingAddr : Nat
  mappingKey : String
  mappingValue : String
deriving DecidableEq

/-- The collecting visitor of `rewriteDiscriminatorMappings` (monolithic
source lines 282–307): schema-context records with a record
`discriminator.mapping` contribute their string mapping values that look
like external file references. -/
def discriminatorCollectVisitor : WalkVisitor (List MappingRewrite) :=
  fun ms h a ptr ctx _ =>
    if !ctx then (ms, h)
    else
      match h.get? a with
      | some (JObj.record fs) =>
        match getFieldL fs "discriminator" with
        | some (JVal.ref d) =>
          match h.get? d with
          | some (JObj.record dfs) =>
            match getFieldL dfs "mapping" with
            | some (JVal.ref m) =>
              match h.get? m with
              | some (JObj.record mfs) =>
                (ms ++ mfs.filterMap (fun p =>
                  match p.2 with
                  | JVal.str v =>
                    if looksLikeExternalFileReference v then
                      some ⟨a, ptr, m, p.1, v⟩
                    else none
                  | _ => none), h)
              | _ => (ms, h)
            | _ => (ms, h)
          | _ => (ms, h)
        | _ => (ms, h)
      | _ => (ms, h)

/-- The rewrite loop over collected mapping entries (monolithic source
lines 309–322): a truthy resolved pointer different from the current
mapping value is written back and marks the iteration as changed. -/
def processMappingRewrites (o : ExtOracle) (fpFuel : Nat) :
    List MappingRewrite → Heap → SchemaRegistry → ResolverState → Bool →
      Option (Heap × SchemaRegistry × ResolverState × Bool)
  | [], h, reg, res, ch => some (h, reg, res, ch)
  | rw :: rest, h, reg, res, ch =>
    match resolveDiscriminatorMappingPointer o fpFuel h reg res
        rw.mappingValue rw.schemaAddr rw.schemaPointer with
    | none => none
    | some (h1, reg1, res1, none) =>
      processMappingRewrites o fpFuel rest h1 reg1 res1 ch
    | some (h1, reg1, res1, some cp) =>
      if cp = "" then processMappingRewrites o fpFuel rest h1 reg1 res1 ch
      else if heapGetField h1 rw.mappingAddr rw.mappingKey = some (JVal.str cp) then
        processMappingRewrites o fpFuel rest h1 reg1 res1 ch
      else
        processMappingRewrites o fpFuel rest
          (heapSetField h1 rw.mappingAddr rw.mappingKey (JVal.str cp))
          reg1 res1 true

/-- Model of `rewriteDiscriminatorMappings` (monolithic source lines
263–324): collect, rewrite, repeat while changed.  `none` = exhausted loop
or fingerprint fuel. -/
def rewriteDiscriminatorMappings (o : ExtOracle) (fpFuel walkFuel : Nat)
    (rootA : Nat) :
    Nat → Heap → SchemaRegistry → ResolverState →
      Option (Heap × SchemaRegistry × ResolverState)
  | 0, _, _, _ => none
  | loopFuel + 1, h, reg, res =>
    match processMappingRewrites o fpFuel
        ((walk discriminatorCollectVisitor walkFuel [] h (JVal.ref rootA)
          "#" false [] Slot.root).1) h reg res false with
    | none => none
    | some (h1, reg1, res1, ch) =>
      if ch then
        rewriteDiscriminatorMappings o fpFuel walkFuel rootA loopFuel h1
          reg1 res1
      else some (h1, reg1, res1)

mutual

/-- Model of `rewriteFromSourceTemplate` (monolithic source lines 466–534):
matching source/bundled records either become a fresh `{ $ref }` record
(when the source node is an external file `$ref` that resolves to a
component) or a fresh shallow copy whose source-shared keys are rewritten
recursively; matching arrays are rewritten positionally into a fresh copy
truncated at the bundled length; any other shape keeps the bundled value. -/
def rewriteFromSourceTemplate (o : ExtOracle) (fpFuel : Nat)
    (sourcePath : String) :
    Nat → Heap → SchemaRegistry → ResolverState → JVal → JVal →
      Option (Heap × SchemaRegistry × ResolverState × JVal)
  | 0, _, _, _, _, _ => none
  | fuel + 1, h, reg, res, sourceNode, bundledNode =>
    match sourceNode, bundledNode with
    | JVal.ref sa, JVal.ref ba =>
      match h.get? sa, h.get? ba with
      | some (JObj.record sfs), some (JObj.record _) =>
        match (match getFieldL sfs "$ref" with
               | some (JVal.str sref) =>
                 if looksLikeExternalFileReference sref then
                   resolveSourcePathFromSourceRef o sourcePath sref
                 else none
               | _ => none) with
        | some targetSourcePath =>
          match ensureComponentPointerForSourcePath o fpFuel h reg res
              targetSourcePath with
          | none => none
          | some (h1, reg1, res1, cpOpt) =>
            match cpOpt with
            | some cp =>
              if cp = "" then
                rewriteTemplateCopy o fpFuel sourcePath fuel h1 reg1 res1
                  sfs ba
              else
                match h1.get? ba with
                | some (JObj.record bfs1) =>
                  some (h1 ++ [JObj.record (buildReplacementFields bfs1 cp)],
                    reg1, res1, JVal.ref h1.length)
                | _ =>
                  rewriteTemplateCopy o fpFuel sourcePath fuel h1 reg1 res1
                    sfs ba
            | none =>
              rewriteTemplateCopy o fpFuel sourcePath fuel h1 reg1 res1
                sfs ba
        | none =>
          rewriteTemplateCopy o fpFuel sourcePath fuel h reg res sfs ba
      | some (JObj.arr sIts), some (JObj.arr bIts) =>
        match rewriteTemplateList o fpFuel sourcePath fuel h reg res sIts
            bIts with
        | none => none
        | some (h1, reg1, res1, items) =>
          some (h1 ++ [JObj.arr items], reg1, res1, JVal.ref h1.length)
      | _, _ => some (h, reg, res, bundledNode)
    | _, _ => some (h, reg, res, bundledNode)

/-- The shallow-copy leg of `rewriteFromSourceTemplate`: `{...bundledNode}`
with every key shared with the source rewritten recursively, allocated as a
fresh record. -/
def rewriteTemplateCopy (o : ExtOracle) (fpFuel : Nat) (sourcePath : String) :
    Nat → Heap → SchemaRegistry → ResolverState →
      List (String × JVal) → Nat →
      Option (Heap × SchemaRegistry × ResolverState × JVal)
  | 0, _, _, _, _, _ => none
  | fuel + 1, h, reg, res, sfs, ba =>
    match h.get? ba with
    | some (JObj.record bfs) =>
      match rewriteTemplateFields o fpFuel sourcePath fuel h reg res sfs
          bfs with
      | none => none
      | some (h1, reg1, res1, next) =>
        some (h1 ++ [JObj.record next], reg1, res1, JVal.ref h1.length)
    | _ => some (h, reg, res, JVal.ref ba)

/-- The source-keyed field recursion of the copy leg: keys absent from the
copy are skipped, shared keys are rewritten in place. -/
def rewriteTemplateFields (o : ExtOracle) (fpFuel : Nat)
    (sourcePath : String) :
    Nat → Heap → SchemaRegistry → ResolverState →
      List (String × JVal) → List (String × JVal) →
      Option (Heap × SchemaRegistry × ResolverState × List (String × JVal))
  | 0, _, _, _, _, _ => none
  | _ + 1, h, reg, res, [], next => some (h, reg, res, next)
  | fuel + 1, h, reg, res, (k, sv) :: rest, next =>
    match getFieldL next k with
    | none => rewriteTemplateFields o fpFuel sourcePath fuel h reg res rest
        next
    | some bv =>
      match rewriteFromSourceTemplate o fpFuel sourcePath fuel h reg res sv
          bv with
      | none => none
      | some (h1, reg1, res1, bv') =>
        rewriteTemplateFields o fpFuel sourcePath fuel h1 reg1 res1 rest
          (setFieldL next k bv')

/-- The positional array recursion of `rewriteFromSourceTemplate`,
truncated at the bundled length. -/
def rewriteTemplateList (o : ExtOracle) (fpFuel : Nat) (sourcePath : String) :
    Nat → Heap → SchemaRegistry → ResolverState → List JVal → List JVal →
      Option (Heap × SchemaRegistry × ResolverState × List JVal)
  | 0, _, _, _, _, _ => none
  | _ + 1, h, reg, res, [], bs => some (h, reg, res, bs)
  | _ + 1, h, reg, res, _ :: _, [] => some (h, reg, res, [])
  | fuel + 1, h, reg, res, sv :: ss, bv :: bs =>
    match rewriteFromSourceTemplate o fpFuel sourcePath fuel h reg res sv
        bv with
    | none => none
    | some (h1, reg1, res1, bv') =>
      match rewriteTemplateList o fpFuel sourcePath fuel h1 reg1 res1 ss
          bs with
      | none => none
      | some (h2, reg2, res2, bs') => some (h2, reg2, res2, bv' :: bs')

end

/-- The component/source pair loop of `rewriteSchemaRefsFromSourceTemplates`
(monolithic source lines 441–458). -/
def templatePairsLoop (o : ExtOracle) (fpFuel tmplFuel : Nat) :
    List (String × String) → Heap → SchemaRegistry → ResolverState →
      Option (Heap × SchemaRegistry × ResolverState)
  | [], h, reg, res => some (h, reg, res)
  | (componentName, sourcePath) :: rest, h, reg, res =>
    match ensureExternalSchemaForSourcePath o fpFuel h res sourcePath with
    | none => none
    | some (h1, res1, sOpt) =>
      match sOpt, heapGetField h1 reg.componentSchemasAddr componentName with
      | some sa, some (JVal.ref ba) =>
        match h1.get? sa, h1.get? ba with
        | some (JObj.record _), some (JObj.record _) =>
          match rewriteFromSourceTemplate o fpFuel sourcePath tmplFuel h1
              reg res1 (JVal.ref sa) (JVal.ref ba) with
          | none => none
          | some (h2, reg2, res2, rewritten) =>
            templatePairsLoop o fpFuel tmplFuel rest
              (heapSetField h2 reg2.componentSchemasAddr componentName
                rewritten) reg2 res2
        | _, _ => templatePairsLoop o fpFuel tmplFuel rest h1 reg res1
      | _, _ => templatePairsLoop o fpFuel tmplFuel rest h1 reg res1

/-- Model of `rewriteSchemaRefsFromSourceTemplates` (monolithic source
lines 433–464): rewrite each known component from its source template over
a snapshot of the pairs, then re-point `root.components.schemas` at the
registry's record. -/
def rewriteSchemaRefsFromSourceTemplates (o : ExtOracle)
    (fpFuel tmplFuel : Nat) (rootA : Nat) (h : Heap) (reg : SchemaRegistry)
    (res : ResolverState) :
    Option (Heap × SchemaRegistry × ResolverState) :=
  match templatePairsLoop o fpFuel tmplFuel res.sourcePathByComponentName h
      reg res with
  | none => none
  | some (h1, reg1, res1) =>
    match h1.get? rootA, heapGetField h1 rootA "components" with
    | some (JObj.record _), some (JVal.ref cA) =>
      match h1.get? cA with
      | some (JObj.record _) =>
        some (heapSetField h1 cA "schemas"
          (JVal.ref reg1.componentSchemasAddr), reg1, res1)
      | _ => some (h1, reg1, res1)
    | _, _ => some (h1, reg1, res1)

/-- The `(obj.key ??= \x7b\x7d)` pattern of the driver's
`createSchemaRegistry`: a missing or `null` member is replaced by a fresh
empty record; a record passes through; any other value is kept by `??=`
and the subsequent property write on it throws a `TypeError` in strict
mode, modelled as `none`. -/
def ensureFieldRecordN (h : Heap) (a : Nat) (k : String) :
    Option (Heap × Nat) :=
  match h.get? a with
  | some (JObj.record fs) =>
    match getFieldL fs k with
    | some (JVal.ref b) => some (h, b)
    | some JVal.null =>
      some ((h.set a (JObj.record (setFieldL fs k (JVal.ref h.length)))) ++
        [JObj.record []], h.length)
    | some _ => none
    | none =>
      some ((h.set a (JObj.record (setFieldL fs k (JVal.ref h.length)))) ++
        [JObj.record []], h.length)
  | _ => none

/-- Model of the driver's `createSchemaRegistry` (monolithic source lines
136–154, the `??=` variant): ensure `components` and `components.schemas`
exist, then index the existing keys as live names and record a component
pointer for every object-valued entry. -/
def createSchemaRegistryD (h : Heap) (rootA : Nat) :
    Option (Heap × SchemaRegistry) :=
  match ensureFieldRecordN h rootA "components" with
  | none => none
  | some (h1, cA) =>
    match ensureFieldRecordN h1 cA "schemas" with
    | none => none
    | some (h2, sA) =>
      match h2.get? sA with
      | some (JObj.record sFs) =>
        some (h2,
          { schemaNames := sFs.map Prod.fst,
            schemaPointersByValue := sFs.filterMap (fun p =>
              match p.2 with
              | JVal.ref a => some (a,
                  "#/components/schemas/" ++ encodeJsonPointerToken p.1)
              | _ => none),
            componentSchemasAddr := sA })
      | _ => none

/-- Modelled from the spec: `isOpenAPI` is imported from `assertions.js`,
which is absent from the sources; per the specification the document is
recognizable as OpenAPI 3.x when its `openapi` member is a string starting
with `3.`. -/
def isOpenAPI (h : Heap) (rootA : Nat) : Bool :=
  match heapGetField h rootA "openapi" with
  | some (JVal.str v) => jsStartsWith v "3."
  | _ => false

/-- The parser handed to the driver: the bundled document heap and root,
and — when `$refs` is present — the resolved paths in order, each with the
address `$refs.get(path)` returns. -/
structure ParserState where
  heap : Heap
  rootA : Nat
  refs : Option (List (String × Nat))

/-- Driver step 1 (monolithic source lines 92–116): pre-register non-root
external file roots as named candidates and source paths, then register
every schema-context occurrence collected from the document and record its
component name. -/
def preRegisterExternalRoots (fpFuel walkFuel : Nat) (h : Heap)
    (rootA : Nat) (reg : SchemaRegistry) (res : ResolverState)
    (resolvedPaths : List (String × Nat)) :
    Option (Heap × SchemaRegistry × ResolverState) :=
  match resolvedPaths with
  | [] => some (h, reg, res)
  | (rootPath, _) :: _ =>
    match (resolvedPaths.filter (fun p => p.1 != rootPath)).foldl
        (fun acc p =>
          match acc with
          | none => none
          | some (ext, r) =>
            match h.get? p.2 with
            | some (JObj.record _) =>
              match addExternalNameCandidate h fpFuel r p.2
                  (createSchemaNameFromSourcePath p.1) with
              | none => none
              | some r1 =>
                some (updateAddr ext p.2 p.1,
                  registerExternalSourcePath h r1 p.1 p.2)
            | _ => some (ext, r))
        (some (([] : List (Nat × String)), res)) with
    | none => none
    | some (externalSchemas, res1) =>
      some ((collectSchemaTargets walkFuel h rootA externalSchemas).foldl
        (fun st t =>
          match st with
          | (hs, regs, rs) =>
            match registerSchemaInComponents hs regs t.2
                (createSchemaNameFromSourcePath t.1) with
            | (h', reg', cp) =>
              let componentName := componentNameOfPointer cp ""
              (h', reg',
                { rs with
                  componentNameBySourcePath :=
                    updateStr rs.componentNameBySourcePath t.1
                      componentName,
                  sourcePathByComponentName :=
                    updateStr rs.sourcePathByComponentName componentName
                      t.1 }))
        (h, reg, res1))

/-- One round of driver step 2c: the discriminator-mapping pass followed by
the source-template pass. -/
def mappingTemplateRound (o : ExtOracle) (fpFuel walkFuel loopFuel : Nat)
    (rootA : Nat) (h : Heap) (reg : SchemaRegistry) (res : ResolverState) :
    Option (Heap × SchemaRegistry × ResolverState) :=
  match rewriteDiscriminatorMappings o fpFuel walkFuel rootA loopFuel h reg
      res with
  | none => none
  | some (h1, reg1, res1) =>
    rewriteSchemaRefsFromSourceTemplates o fpFuel walkFuel rootA h1 reg1
      res1

/-- Model of the driver `hoistBundledSchemas` (monolithic source lines
81–134): the OpenAPI/`$refs` guard returns the document unchanged; then
registry creation, pre-registration of external roots, the local-ref and
inline-external passes, two rounds of the mapping/template passes, and the
final dedupe pass.  The result is the final document heap; `none` signals
exhausted fuel (a model artifact) or the strict-mode `TypeError` of
`createSchemaRegistry` on a non-object `components`. -/
def hoistBundledSchemas (o : ExtOracle) (fpFuel walkFuel loopFuel : Nat)
    (p : ParserState) : Option Heap :=
  if !isOpenAPI p.heap p.rootA || p.refs.isNone then some p.heap
  else
    match p.refs with
    | none => some p.heap
    | some resolvedPaths =>
      match createSchemaRegistryD p.heap p.rootA with
      | none => none
      | some (h1, reg1) =>
        match preRegisterExternalRoots fpFuel walkFuel h1 p.rootA reg1
            emptyResolver resolvedPaths with
        | none => none
        | some (h2, reg2, res2) =>
          match rewriteLocalSchemaRefsToComponents fpFuel walkFuel p.rootA
              res2.core reg2 h2 with
          | none => none
          | some (reg3, h3) =>
            match rewriteInlineExternalSchemasToComponentRefs fpFuel
                walkFuel p.rootA res2.core loopFuel reg3 h3 with
            | none => none
            | some (reg4, h4, _) =>
              match mappingTemplateRound o fpFuel walkFuel loopFuel p.rootA
                  h4 reg4 res2 with
              | none => none
              | some (h5, reg5, res5) =>
                match mappingTemplateRound o fpFuel walkFuel loopFuel
                    p.rootA h5 reg5 res5 with
                | none => none
                | some (h6, reg6, _) =>
                  some (replaceHoistedObjectsWithRefs walkFuel p.rootA reg6
                    h6)


/-! ### Oscillation scenario for the inline-external fixpoint loop -/

/-- Component pointers of the two cross-referencing schemas. -/
def oscPtrA : String := "#/components/schemas/A"

/-- See `oscPtrA`. -/
def oscPtrB : String := "#/components/schemas/B"

/-- The pointer currently held by the oscillating record. -/
def oscPtr (b : Bool) : String := if b then oscPtrA else oscPtrB

/-- The root record's fields, with the `properties` member pointing at the
oscillating record's address. -/
def oscRootFields (aN : Nat) : List (String × JVal) :=
  [("openapi", JVal.str "3.1.0"), ("components", JVal.ref 1),
   ("properties", JVal.ref aN)]

/-- The oscillation document: components `A` and `B` are bare
cross-references to each other's component pointer, and the schema-context
member `properties` holds a record equal to component `B`'s content. -/
def oscHeap0 : Heap :=
  [JObj.record (oscRootFields 5),
   JObj.record [("schemas", JVal.ref 2)],
   JObj.record [("A", JVal.ref 3), ("B", JVal.ref 4)],
   JObj.record [("$ref", JVal.str oscPtrB)],
   JObj.record [("$ref", JVal.str oscPtrA)],
   JObj.record [("$ref", JVal.str oscPtrA)]]

/-- The registry over `oscHeap0`: both components registered. -/
def oscReg : SchemaRegistry := ⟨["A", "B"], [(3, oscPtrA), (4, oscPtrB)], 2⟩

/-- Fingerprint of a record whose single member is `$ref: oscPtrA`. -/
def oscFpA : String := "\x7b\"$ref\":\"#/components/schemas/A\"\x7d"

/-- Fingerprint of a record whose single member is `$ref: oscPtrB`. -/
def oscFpB : String := "\x7b\"$ref\":\"#/components/schemas/B\"\x7d"

/-- Fingerprint of the `components.schemas` record of `oscHeap0`. -/
def oscFpCS : String :=
  "\x7b\"A\":\x7b\"$ref\":\"#/components/schemas/B\"\x7d,\"B\":\x7b\"$ref\":\"#/components/schemas/A\"\x7d\x7d"

/-- The resolver state after both external files were registered as named
candidates: each component's fingerprint is the OTHER pointer's ref shape,
because each file is a bare reference to the other component. -/
def oscRes : ExternalResolver :=
  ⟨[(3, "A"), (4, "B")], [("A", 3), ("B", 4)],
   [(oscFpA, [("B", 4)]), (oscFpB, [("A", 3)])]⟩

/-- The hoisted-component fingerprint index that
`buildExternalComponentFingerprintIndex` derives from `oscHeap0`. -/
def oscIndex : List (String × List (String × Nat)) :=
  [(oscFpB, [("A", 3)]), (oscFpA, [("B", 4)])]

/-- The next oscillation state: the fresh replacement record is appended
and the root's `properties` member re-pointed at it. -/
def oscNext (b : Bool) (h : Heap) : Heap :=
  (h ++ [JObj.record [("$ref", JVal.str (oscPtr (!b)))]]).set 0
    (JObj.record (oscRootFields h.length))

/-- The oscillation invariant: the registry is the fixed two-component
registry, the heap is the oscillation document whose root `properties`
member points at a record `\x7b $ref: <current pointer> \x7d`, and the rest
of the heap is the garbage of earlier replacements. -/
def OscInv (b : Bool) (reg : SchemaRegistry) (h : Heap) : Prop :=
  reg = oscReg ∧ ∃ aN g, 5 ≤ aN ∧
    h = oscHeap0.set 0 (JObj.record (oscRootFields aN)) ++ g ∧
    h.get? aN = some (JObj.record [("$ref", JVal.str (oscPtr b))])

/-- Witness document for the skip guarantee: a record already in the exact
replacement shape of its selected candidate. -/
def skipHeap : Heap :=
  [JObj.record [("$ref", JVal.str "#/components/schemas/S")]]

/-- Witness resolver whose only fingerprint candidate is `S`. -/
def skipRes : ExternalResolver :=
  ⟨[], [], [("\x7b\"$ref\":\"#/components/schemas/S\"\x7d", [("S", 5)])]⟩

/-- Witness registry with `S` already registered. -/
def skipReg : SchemaRegistry := ⟨["S"], [(5, "#/components/schemas/S")], 9⟩

/-- Witness document on which one traversal performs no replacement. -/
def quietHeap : Heap := [JObj.record []]

/-- Witness registry for `quietHeap`. -/
def quietReg : SchemaRegistry := ⟨[], [], 0⟩


/-! ### Concrete documents for claims C1–C3 -/

/-- An external world in which every parse fails (the driver runs below
never consult it). -/
def trivialOracle : ExtOracle :=
  ⟨fun _ => false, fun s => s, fun s => s, fun _ r => r, fun h _ => (h, none)⟩

/-- Witness document with a schema-context `$ref` to the resolvable local
pointer `#/foo`. -/
def localRefHeap : Heap :=
  [JObj.record [("foo", JVal.ref 1), ("x", JVal.ref 2)],
   JObj.record [("type", JVal.str "t")],
   JObj.record [("$ref", JVal.str "#/foo")],
   JObj.record []]

/-- Witness registry over `localRefHeap` (`components.schemas` at 3). -/
def localRefReg : SchemaRegistry := ⟨[], [], 3⟩

/-- Witness document whose `$ref` is a dangling deep pointer. -/
def danglingHeap : Heap := [JObj.record [("$ref", JVal.str "#/paths/x")]]

/-- The C2 counterexample document: `components.schemas.T` holds a record
whose `$ref` is the dangling deep pointer `#/paths/missing`. -/
def c2Heap : Heap :=
  [JObj.record [("openapi", JVal.str "3.1.0"), ("paths", JVal.ref 1),
     ("components", JVal.ref 2)],
   JObj.record [],
   JObj.record [("schemas", JVal.ref 3)],
   JObj.record [("T", JVal.ref 4)],
   JObj.record [("$ref", JVal.str "#/paths/missing")]]

/-- The C2 counterexample parser state: `$refs` present, only the root
path resolved. -/
def c2Parser : ParserState := ⟨c2Heap, 0, some [("/spec/openapi.yaml", 0)]⟩


/-- The C3 counterexample document: `components.schemas.T.example` points
at a record structurally identical to the external schema file
`/spec/x.yaml` (heap cell 5). -/
def c3Heap : Heap :=
  [JObj.record [("openapi", JVal.str "3.1.0"), ("components", JVal.ref 1)],
   JObj.record [("schemas", JVal.ref 2)],
   JObj.record [("T", JVal.ref 3)],
   JObj.record [("type", JVal.str "object"), ("example", JVal.ref 4)],
   JObj.record [("type", JVal.str "string"), ("format", JVal.str "uuid")],
   JObj.record [("type", JVal.str "string"), ("format", JVal.str "uuid")]]

/-- The C3 counterexample parser state: root document plus the external
root `/spec/x.yaml` resolved to heap cell 5. -/
def c3Parser : ParserState :=
  ⟨c3Heap, 0, some [("/spec/openapi.yaml", 0), ("/spec/x.yaml", 5)]⟩

/-- The heap `hoistBundledSchemas` produces from `c3Parser`: the external
schema is registered as the component `x`, and `T.example` has been
replaced by a fresh `$ref` record (cell 6). -/
def c3Final : Heap :=
  [JObj.record [("openapi", JVal.str "3.1.0"), ("components", JVal.ref 1)],
   JObj.record [("schemas", JVal.ref 2)],
   JObj.record [("T", JVal.ref 3), ("x", JVal.ref 5)],
   JObj.record [("type", JVal.str "object"), ("example", JVal.ref 6)],
   JObj.record [("type", JVal.str "string"), ("format", JVal.str "uuid")],
   JObj.record [("type", JVal.str "string"), ("format", JVal.str "uuid")],
   JObj.record [("$ref", JVal.str "#/components/schemas/x")]]

/-- The C1 witness document: a minimal OpenAPI 3.x root with no
`components` member. -/
def c1Heap : Heap := [JObj.record [("openapi", JVal.str "3.0.2")]]

/-- The heap `hoistBundledSchemas` produces from `c1Heap` with `$refs`
present but empty: the document extended with an empty
`components.schemas` record. -/
def c1Final : Heap :=
  [JObj.record [("openapi", JVal.str "3.0.2"), ("components", JVal.ref 1)],
   JObj.record [("schemas", JVal.ref 2)],
   JObj.record []]

/-! ### String provenance: no pass introduces deep `$ref` strings -/

/-- The string payload of a value (used to track every string a pass can
write into the document). -/
def valStrs : JVal → List String
  | JVal.str s => [s]
  | _ => []

/-- All string values stored in an object's fields or items. -/
def objStrs : JObj → List String
  | JObj.record fs => (fs.map (fun p => valStrs p.2)).join
  | JObj.arr its => (its.map valStrs).join

/-- `s` occurs as a string value somewhere in the heap. -/
def StrIn (h : Heap) (s : String) : Prop := ∃ ob ∈ h, s ∈ objStrs ob

/-- Every `#/paths/`-prefixed string value of `h` already occurs in `h0`:
the heap evolved from `h0` without introducing deep pointer strings. -/
def Bound (h0 h : Heap) : Prop :=
  ∀ s, jsStartsWith s "#/paths/" = true → StrIn h s → StrIn h0 s

/-- Every recorded component pointer of the registry has the
`#/components/schemas/` prefix. -/
def RegPtrs (reg : SchemaRegistry) : Prop :=
  ∀ p ∈ reg.schemaPointersByValue,
    jsStartsWith p.2 "#/components/schemas/" = true

/-- The external file loader introduces no deep pointer strings: every
`#/paths/`-prefixed string of a parse result was already in the document.
(`$RefParser` allocates fresh objects for the parsed file, so this only
constrains the loaded file's own contents.) -/
def OracleBound (o : ExtOracle) : Prop := ∀ h p, Bound h (o.parse h p).1

/-- Heaps reachable from `h` through visitor invocations at schema-context
visits only: the write provenance of a traversal pass. -/
inductive CtxSteps {σ : Type} (vis : WalkVisitor σ) : Heap → Heap → Prop where
  | refl (h : Heap) : CtxSteps vis h h
  | tail {h1 h2 : Heap} (st : σ) (a : Nat) (ptr : String) (slot : Slot) :
      CtxSteps vis h1 h2 → CtxSteps vis h1 (vis st h2 a ptr true slot).2


/-- The C3 quiet document: `example` payload and `x-doc-refs` list open no
schema context and share no object with one. -/
def c3qHeap : Heap :=
  [JObj.record [("openapi", JVal.str "3.1.0"), ("components", JVal.ref 1),
     ("example", JVal.ref 3), ("x-doc-refs", JVal.ref 4)],
   JObj.record [("schemas", JVal.ref 2)],
   JObj.record [],
   JObj.record [("foo", JVal.str "bar")],
   JObj.arr [JVal.str "./a.yaml"]]

/-- Parser state for `c3qHeap` with `$refs` present but empty. -/
def c3qParser : ParserState := ⟨c3qHeap, 0, some []⟩

/-- The second C3 counterexample document: the payload under the top-level
`example` key contains the schema-context key `schema`, whose record is
structurally identical to the external root `/spec/x.yaml` (cell 5). -/
def c3bHeap : Heap :=
  [JObj.record [("openapi", JVal.str "3.1.0"), ("components", JVal.ref 1),
     ("example", JVal.ref 3)],
   JObj.record [("schemas", JVal.ref 2)],
   JObj.record [],
   JObj.record [("schema", JVal.ref 4)],
   JObj.record [("type", JVal.str "string"), ("format", JVal.str "uuid")],
   JObj.record [("type", JVal.str "string"), ("format", JVal.str "uuid")]]

/-- Parser state for `c3bHeap`: root document plus the external root
`/spec/x.yaml` at cell 5. -/
def c3bParser : ParserState :=
  ⟨c3bHeap, 0, some [("/spec/openapi.yaml", 0), ("/spec/x.yaml", 5)]⟩

/-- The heap `hoistBundledSchemas` produces from `c3bParser`: the external
schema becomes the component `x` and the payload under `example.schema` is
replaced by a fresh `$ref` record (cell 6). -/
def c3bFinal : Heap :=
  [JObj.record [("openapi", JVal.str "3.1.0"), ("components", JVal.ref 1),
     ("example", JVal.ref 3)],
   JObj.record [("schemas", JVal.ref 2)],
   JObj.record [("x", JVal.ref 5)],
   JObj.record [("schema", JVal.ref 6)],
   JObj.record [("type", JVal.str "string"), ("format", JVal.str "uuid")],
   JObj.record [("type", JVal.str "string"), ("format", JVal.str "uuid")],
   JObj.record [("$ref", JVal.str "#/components/schemas/x")]]

/-- A minimal document for instantiating the pass-level provenance
conclusions: one scalar field, nothing to rewrite. -/
def c3wHeap : Heap := [JObj.record [("t", JVal.str "x")], JObj.record []]

/-! ### Theorems -/

theorem replaceSeq2_cons_ne (a b : Char) (r : List Char) (x : Char) (h : x ≠ a)
    (l : List Char) : replaceSeq2 a b r (x :: l) = x :: replaceSeq2 a b r l := by
  cases l <;> simp [replaceSeq2, h]

theorem tildeOk_replaceCharL_tilde (l : List Char) :
    tildeOk (replaceCharL '~' ['~', '0'] l) = true := by
  induction l with
  | nil => rfl
  | cons c xs ih =>
    by_cases hc : c = '~'
    · subst hc; simp [replaceCharL, tildeOk, ih]
    · simp [replaceCharL, tildeOk, hc, ih]

theorem replaceSeq2_tilde1_replaceCharL (l : List Char) (h : tildeOk l = true) :
    replaceSeq2 '~' '1' ['/'] (replaceCharL '/' ['~', '1'] l) = l := by
  induction l with
  | nil => rfl
  | cons c xs ih =>
    by_cases hc : c = '/'
    · subst hc
      have hx : tildeOk xs = true := by simpa [tildeOk] using h
      simp [replaceCharL, replaceSeq2, ih hx]
    · by_cases ht : c = '~'
      · subst ht
        cases xs with
        | nil => simp [tildeOk] at h
        | cons y ys =>
          have hy : y = '0' ∧ tildeOk (y :: ys) = true := by
            simpa [tildeOk] using h
          obtain ⟨hy0, hys⟩ := hy
          subst hy0
          have : replaceCharL '/' ['~', '1'] ('~' :: '0' :: ys) =
              '~' :: '0' :: replaceCharL '/' ['~', '1'] ys := by
            simp [replaceCharL]
          rw [this]
          have hrec := ih hys
          rw [show replaceCharL '/' ['~', '1'] ('0' :: ys) =
              '0' :: replaceCharL '/' ['~', '1'] ys from by simp [replaceCharL]] at hrec
          simp [replaceSeq2, hrec]
      · have hx : tildeOk xs = true := by simpa [tildeOk, ht] using h
        rw [show replaceCharL '/' ['~', '1'] (c :: xs) =
            c :: replaceCharL '/' ['~', '1'] xs from by simp [replaceCharL, hc]]
        rw [replaceSeq2_cons_ne _ _ _ _ ht, ih hx]

theorem replaceSeq2_tilde0_replaceCharL (l : List Char) :
    replaceSeq2 '~' '0' ['~'] (replaceCharL '~' ['~', '0'] l) = l := by
  induction l with
  | nil => rfl
  | cons c xs ih =>
    by_cases hc : c = '~'
    · subst hc; simp [replaceCharL, replaceSeq2, ih]
    · rw [show replaceCharL '~' ['~', '0'] (c :: xs) =
          c :: replaceCharL '~' ['~', '0'] xs from by simp [replaceCharL, hc]]
      rw [replaceSeq2_cons_ne _ _ _ _ hc, ih]

theorem mem_replaceCharL {x c : Char} {r : List Char} :
    ∀ {l : List Char}, x ∈ replaceCharL c r l → x ∈ r ∨ x ∈ l := by
  intro l
  induction l with
  | nil => intro hx; simp [replaceCharL] at hx
  | cons y ys ih =>
    intro hx
    unfold replaceCharL at hx
    split at hx
    · rw [List.mem_append] at hx
      rcases hx with h | h
      · exact Or.inl h
      · rcases ih h with h | h
        · exact Or.inl h
        · exact Or.inr (List.mem_cons_of_mem _ h)
    · rcases List.mem_cons.mp hx with h | h
      · exact Or.inr (List.mem_cons.mpr (Or.inl h))
      · rcases ih h with h | h
        · exact Or.inl h
        · exact Or.inr (List.mem_cons_of_mem _ h)

theorem pctTokens_cons_ne (c : Char) (r : List Char) (hc : ¬c = '%') :
    pctTokens (c :: r) = (pctTokens r).map (Sum.inl c :: ·) := by
  rcases r with _ | ⟨h1, _ | ⟨h2, r2⟩⟩
  · rw [pctTokens.eq_3 c [] (by intro a b l h; simp at h), if_neg hc]
  · rw [pctTokens.eq_3 c [h1] (by intro a b l h; simp at h), if_neg hc]
  · rw [pctTokens.eq_2, if_neg hc]

theorem pctTokens_no_percent (l : List Char) (h : '%' ∉ l) :
    pctTokens l = some (l.map Sum.inl) := by
  induction l with
  | nil => rfl
  | cons c r ih =>
    have hc : c ≠ '%' := fun e => h (by simp [e])
    have hr : '%' ∉ r := fun m => h (List.mem_cons_of_mem _ m)
    rw [pctTokens_cons_ne c r hc, ih hr]
    rfl

theorem utf8CombineF_map_inl (l : List Char) :
    utf8CombineF (l.map (Sum.inl : Char → Sum Char Nat)).length
      (l.map (Sum.inl : Char → Sum Char Nat)) = some l := by
  induction l with
  | nil => rfl
  | cons c r ih =>
    show (utf8CombineF (r.map Sum.inl).length (r.map Sum.inl)).map (c :: ·) =
      some (c :: r)
    rw [ih]
    rfl

theorem utf8Combine_map_inl (l : List Char) :
    utf8Combine (l.map Sum.inl) = some l :=
  utf8CombineF_map_inl l

theorem uriDecode_no_percent (l : List Char) (h : '%' ∉ l) :
    uriDecode l = some l := by
  rw [uriDecode, pctTokens_no_percent l h]
  exact utf8Combine_map_inl l

theorem decode_encode_token (t : String) (h : '%' ∉ t.toList) :
    decodeJsonPointerToken (encodeJsonPointerToken t) = t := by
  unfold encodeJsonPointerToken decodeJsonPointerToken
  have h1 : '%' ∉ replaceCharL '~' ['~', '0'] t.toList := by
    intro m
    rcases mem_replaceCharL m with hm | hm
    · simp at hm
    · exact h hm
  have h2 : '%' ∉ replaceCharL '/' ['~', '1'] (replaceCharL '~' ['~', '0'] t.toList) := by
    intro m
    rcases mem_replaceCharL m with hm | hm
    · simp at hm
    · exact h1 hm
  rw [List.toList_asString, uriDecode_no_percent _ h2]
  simp only [Option.getD_some]
  rw [replaceSeq2_tilde1_replaceCharL _ (tildeOk_replaceCharL_tilde _)]
  rw [replaceSeq2_tilde0_replaceCharL]
  exact String.asString_toList t

/-- Claim C9 (amended): decoding reverses the JSON-Pointer token encoding for
every token whose URI-decoding is trivial, i.e. every token without a `%`
character: `decodeJsonPointerToken (encodeJsonPointerToken t) = t` whenever
`t` contains no `%`.  The unamended claim fails on tokens containing
percent-escape sequences, because `decodeJsonPointerToken` attempts
`decodeURIComponent` first (see the counterexample). -/
theorem C9_pointer_token_roundtrip (t : String) (h : '%' ∉ t.toList) :
    decodeJsonPointerToken (encodeJsonPointerToken t) = t :=
  decode_encode_token t h

/-- Witness for `C9_pointer_token_roundtrip` at the concrete token
`"a~b/c"`. -/
theorem C9_pointer_token_roundtrip_witness :
    decodeJsonPointerToken (encodeJsonPointerToken "a~b/c") = "a~b/c" :=
  C9_pointer_token_roundtrip "a~b/c" (by decide)

/-- Counterexample to claim C9 as stated: for the token `"%41"`,
`decodeJsonPointerToken` URI-decodes the percent escape that
`encodeJsonPointerToken` left untouched, so decoding does not reverse
encoding on this token. -/
theorem C9_pointer_token_counterexample :
    decodeJsonPointerToken (encodeJsonPointerToken "%41") = "A" ∧
      ("A" : String) ≠ "%41" := by
  constructor
  · decide
  · decide

/-! #### Decimal digits and unique-name lemmas -/

theorem digitChar_toNat (d : Nat) (h : d < 10) : (digitChar d).toNat = 48 + d := by
  interval_cases d <;> decide

theorem digitsVal_append_one (l : List Char) (c : Char) :
    digitsVal (l ++ [c]) = digitsVal l * 10 + (c.toNat - 48) := by
  simp [digitsVal, List.foldl_append]

theorem digitsVal_natDigitsRevF (fuel : Nat) :
    ∀ n, n < fuel → digitsVal ((natDigitsRevF fuel n).reverse) = n := by
  induction fuel with
  | zero => intro n h; omega
  | succ fuel ih =>
    intro n h
    by_cases h10 : n < 10
    · rw [natDigitsRevF, if_pos h10]
      simp [digitsVal, digitChar_toNat n h10]
    · rw [natDigitsRevF, if_neg h10]
      have hdiv : n / 10 < n := Nat.div_lt_self (by omega) (by omega)
      rw [List.reverse_cons, digitsVal_append_one, ih (n / 10) (by omega)]
      rw [digitChar_toNat (n % 10) (Nat.mod_lt _ (by omega))]
      omega

theorem natDecimal_inj {a b : Nat} (h : natDecimal a = natDecimal b) : a = b := by
  have h2 := congrArg String.toList h
  simp only [natDecimal, List.toList_asString] at h2
  have va := digitsVal_natDigitsRevF (a + 1) a (by omega)
  have vb := digitsVal_natDigitsRevF (b + 1) b (by omega)
  rw [h2, vb] at va
  omega

theorem suffixedName_inj (base : String) {a b : Nat}
    (h : suffixedName base a = suffixedName base b) : a = b := by
  have h2 := congrArg String.data h
  simp only [suffixedName, String.data_append, List.append_assoc] at h2
  have h3 := List.append_cancel_left (List.append_cancel_left h2)
  exact natDecimal_inj (String.ext h3)

theorem suffixedName_ne_base (base : String) (k : Nat) :
    suffixedName base k ≠ base := by
  intro h
  have h2 := congrArg String.length h
  simp only [suffixedName, String.length_append] at h2
  have : 1 ≤ ("_" : String).length := by decide
  omega

theorem uniqueNameLoop_not_mem (base : String) (N : List String)
    (fuel i : Nat) (u : String) (hu : u ∉ N) :
    uniqueNameLoop base N fuel u i = u := by
  cases fuel with
  | zero => rfl
  | succ fuel => rw [uniqueNameLoop, if_neg hu]

theorem uniqueNameLoop_mem (base : String) (N : List String) :
    ∀ (fuel i : Nat) (u : String) (k : Nat), u ∈ N → i ≤ k →
      suffixedName base k ∉ N →
      (∀ j, i ≤ j → j < k → suffixedName base j ∈ N) →
      k < i + fuel →
      uniqueNameLoop base N fuel u i = suffixedName base k := by
  intro fuel
  induction fuel with
  | zero => intro i u k _ hik _ _ hlt; omega
  | succ fuel ih =>
    intro i u k hu hik hfree hall hlt
    rw [uniqueNameLoop, if_pos hu]
    by_cases hk : k = i
    · subst hk
      exact uniqueNameLoop_not_mem base N fuel (k + 1) _ hfree
    · exact ih (i + 1) _ k (hall i (le_refl i) (by omega)) (by omega) hfree
        (fun j h1 h2 => hall j (by omega) h2) (by omega)

theorem exists_suffix_not_mem (base : String) (N : List String) :
    ∃ m, m ≤ N.length ∧ suffixedName base (m + 2) ∉ N := by
  by_contra h
  push_neg at h
  have hnodup : ((List.range (N.length + 1)).map
      (fun m => suffixedName base (m + 2))).Nodup := by
    refine List.Nodup.map ?_ (List.nodup_range _)
    intro a b hab
    have := suffixedName_inj base hab
    omega
  have hsub : ((List.range (N.length + 1)).map
      (fun m => suffixedName base (m + 2))) ⊆ N := by
    intro x hx
    simp only [List.mem_map, List.mem_range] at hx
    obtain ⟨m, hm, rfl⟩ := hx
    exact h m (by omega)
  have hlen := (List.subperm_of_subset hnodup hsub).length_le
  simp at hlen

theorem exists_least_suffix_not_mem (base : String) (N : List String) :
    ∃ k, 2 ≤ k ∧ k < N.length + 3 ∧ suffixedName base k ∉ N ∧
      ∀ j, 2 ≤ j → j < k → suffixedName base j ∈ N := by
  obtain ⟨m, hm, hfree⟩ := exists_suffix_not_mem base N
  have hex : ∃ m, suffixedName base (m + 2) ∉ N := ⟨m, hfree⟩
  refine ⟨Nat.find hex + 2, by omega, ?_, Nat.find_spec hex, ?_⟩
  · have := Nat.find_min' hex hfree
    omega
  · intro j h2 hjk
    have hmin := @Nat.find_min _ _ hex (j - 2) (by omega)
    rw [not_not] at hmin
    have hj : j - 2 + 2 = j := by omega
    rwa [hj] at hmin

/-- Claim C8 (amended): for every nonempty preferred name `b` and live name
set `N`, `createUniqueSchemaName` returns `b` when `b ∉ N`, and otherwise
`b ++ "_" ++ k` for the least `k ≥ 2` whose candidate is free; the returned
name is appended to the set; and of two registrations preferring the same
free name the second receives the `_2` suffix.  (The unamended claim fails
for the empty preferred name, which JavaScript `baseName || 'Schema'`
replaces by `"Schema"`; see the counterexample.) -/
theorem C8_unique_schema_name (b : String) (N : List String) (hb : b ≠ "") :
    (b ∉ N → createUniqueSchemaName b N = (b, N ++ [b])) ∧
    (b ∈ N → ∃ k, 2 ≤ k ∧ suffixedName b k ∉ N ∧
      (∀ j, 2 ≤ j → j < k → suffixedName b j ∈ N) ∧
      createUniqueSchemaName b N = (suffixedName b k, N ++ [suffixedName b k])) ∧
    (b ∉ N → suffixedName b 2 ∉ N →
      createUniqueSchemaName b (N ++ [b]) =
        (suffixedName b 2, (N ++ [b]) ++ [suffixedName b 2])) := by
  refine ⟨fun hn => ?_, fun hmem => ?_, fun hn h2 => ?_⟩
  · simp [createUniqueSchemaName, hb, uniqueNameLoop_not_mem b N _ _ _ hn, hn]
  · obtain ⟨k, hk2, hklt, hkfree, hall⟩ := exists_least_suffix_not_mem b N
    refine ⟨k, hk2, hkfree, hall, ?_⟩
    have hloop := uniqueNameLoop_mem b N (N.length + 1) 2 b k hmem hk2 hkfree
      hall (by omega)
    simp [createUniqueSchemaName, hb, hloop, hkfree]
  · have hmem : b ∈ N ++ [b] := by simp
    have hfree : suffixedName b 2 ∉ N ++ [b] := by
      simp only [List.mem_append, List.mem_singleton]
      rintro (h | h)
      · exact h2 h
      · exact suffixedName_ne_base b 2 h
    have hloop := uniqueNameLoop_mem b (N ++ [b]) ((N ++ [b]).length + 1) 2 b 2
      hmem (le_refl 2) hfree (fun j hj1 hj2 => by omega) (by simp)
    have hlen : (N ++ [b]).length = N.length + 1 := by simp
    rw [hlen] at hloop
    simp [createUniqueSchemaName, hb, hloop, h2, suffixedName_ne_base b 2]

/-- Witness for `C8_unique_schema_name`: the first registration of `"Pet"`
gets `"Pet"` and a second registration preferring `"Pet"` gets `"Pet_2"`. -/
theorem C8_unique_schema_name_witness :
    createUniqueSchemaName "Pet" [] = ("Pet", ["Pet"]) ∧
    createUniqueSchemaName "Pet" ["Pet"] = ("Pet_2", ["Pet", "Pet_2"]) := by
  have h1 := (C8_unique_schema_name "Pet" [] (by decide)).1 (by decide)
  have h3 := (C8_unique_schema_name "Pet" [] (by decide)).2.2 (by decide) (by decide)
  have he : suffixedName "Pet" 2 = "Pet_2" := by decide
  refine ⟨by simpa using h1, ?_⟩
  rw [he] at h3
  simpa using h3

/-- Counterexample to claim C8 as stated: the empty preferred name is not in
the empty name set, yet the returned name is `"Schema"`, not the preferred
name. -/
theorem C8_unique_schema_name_counterexample :
    ("" ∉ ([] : List String)) ∧
      (createUniqueSchemaName "" []).1 = "Schema" ∧ ("Schema" : String) ≠ "" := by
  refine ⟨by simp, by decide, by decide⟩

/-! #### Serialization round-trip lemmas -/

theorem digitChar_isDigit (d : Nat) (h : d < 10) : (digitChar d).isDigit = true := by
  interval_cases d <;> decide

theorem hexVal_hexDigitChar (d : Nat) (h : d < 16) :
    hexVal (hexDigitChar d) = some d := by
  interval_cases d <;> decide

theorem natDigitsRevF_all_digits (fuel : Nat) :
    ∀ n c, c ∈ natDigitsRevF fuel n → c.isDigit = true := by
  induction fuel with
  | zero => intro n c hc; simp [natDigitsRevF] at hc
  | succ fuel ih =>
    intro n c hc
    by_cases h10 : n < 10
    · rw [natDigitsRevF, if_pos h10] at hc
      simp only [List.mem_singleton] at hc
      exact hc ▸ digitChar_isDigit n h10
    · rw [natDigitsRevF, if_neg h10] at hc
      rcases List.mem_cons.mp hc with h | h
      · exact h ▸ digitChar_isDigit _ (Nat.mod_lt _ (by omega))
      · exact ih _ c h

theorem parseDigitsAux_append (l : List Char) :
    ∀ (acc : Nat) (rest : List Char), (∀ c ∈ l, c.isDigit = true) →
      noDigitHead rest = true →
      parseDigitsAux acc (l ++ rest) =
        (l.foldl (fun a c => a * 10 + (c.toNat - 48)) acc, rest) := by
  induction l with
  | nil =>
    intro acc rest _ hrest
    cases rest with
    | nil => rfl
    | cons c r =>
      have hc : ¬c.isDigit = true := by
        simp only [noDigitHead, Bool.not_eq_true'] at hrest
        simp [hrest]
      simp only [List.nil_append, List.foldl_nil]
      rw [parseDigitsAux, if_neg hc]
  | cons c l ih =>
    intro acc rest hl hrest
    have hc : c.isDigit = true := hl c (List.mem_cons_self c l)
    rw [List.cons_append, parseDigitsAux, if_pos hc,
      ih _ rest (fun x hx => hl x (List.mem_cons_of_mem _ hx)) hrest,
      List.foldl_cons]

theorem parseDigitsAux_natDigits (n : Nat) (rest : List Char)
    (hrest : noDigitHead rest = true) :
    parseDigitsAux 0 ((natDigitsRevF (n + 1) n).reverse ++ rest) = (n, rest) := by
  rw [parseDigitsAux_append _ 0 rest
    (fun c hc => natDigitsRevF_all_digits _ _ c (List.mem_reverse.mp hc)) hrest]
  have hv := digitsVal_natDigitsRevF (n + 1) n (by omega)
  rw [digitsVal] at hv
  rw [hv]

theorem parseStringBodyF_succ (fuel : Nat) (c : Char) (r : List Char) :
    parseStringBodyF (fuel + 1) (c :: r) =
      (if c = '"' then some ([], r)
      else if c = '\\' then
        match parseEscape r with
        | none => none
        | some (e, r2) => (parseStringBodyF fuel r2).map (fun p => (e :: p.1, p.2))
      else (parseStringBodyF fuel r).map (fun p => (c :: p.1, p.2))) := rfl

theorem parseEscape_quote (r : List Char) : parseEscape ('"' :: r) = some ('"', r) := rfl

theorem parseEscape_backslash (r : List Char) :
    parseEscape ('\\' :: r) = some ('\\', r) := rfl

theorem parseEscape_b (r : List Char) : parseEscape ('b' :: r) = some ('\x08', r) := rfl

theorem parseEscape_t (r : List Char) : parseEscape ('t' :: r) = some ('\x09', r) := rfl

theorem parseEscape_n (r : List Char) : parseEscape ('n' :: r) = some ('\x0a', r) := rfl

theorem parseEscape_f (r : List Char) : parseEscape ('f' :: r) = some ('\x0c', r) := rfl

theorem parseEscape_r (r : List Char) : parseEscape ('r' :: r) = some ('\x0d', r) := rfl

theorem parseEscape_u (h1 h2 h3 h4 : Char) (r : List Char) (a b c d : Nat)
    (e1 : hexVal h1 = some a) (e2 : hexVal h2 = some b)
    (e3 : hexVal h3 = some c) (e4 : hexVal h4 = some d) :
    parseEscape ('u' :: h1 :: h2 :: h3 :: h4 :: r) =
      some (Char.ofNat (((a * 16 + b) * 16 + c) * 16 + d), r) := by
  show (match hexVal h1, hexVal h2, hexVal h3, hexVal h4 with
    | some a, some b, some cc, some d =>
      some (Char.ofNat (((a * 16 + b) * 16 + cc) * 16 + d), r)
    | _, _, _, _ => none) = _
  rw [e1, e2, e3, e4]

theorem parseStringBodyF_escape (l : List Char) :
    ∀ (fuel : Nat) (rest : List Char), l.length < fuel →
      parseStringBodyF fuel (escapeChars l ++ '"' :: rest) = some (l, rest) := by
  induction l with
  | nil =>
    intro fuel rest hf
    cases fuel with
    | zero => omega
    | succ fuel =>
      rw [escapeChars, List.nil_append, parseStringBodyF_succ, if_pos rfl]
  | cons c l ih =>
    intro fuel rest hf
    cases fuel with
    | zero => omega
    | succ fuel =>
      have hrec := ih fuel rest (by simp only [List.length_cons] at hf; omega)
      rw [escapeChars, List.append_assoc]
      by_cases h1 : c = '"'
      · subst h1
        simp [jsonEscapeChar, parseStringBodyF_succ, parseEscape_quote, hrec]
      · by_cases h2 : c = '\\'
        · subst h2
          simp [jsonEscapeChar, parseStringBodyF_succ, parseEscape_backslash, hrec]
        · by_cases h3 : c = '\x08'
          · subst h3
            simp [jsonEscapeChar, parseStringBodyF_succ, parseEscape_b, hrec]
          · by_cases h4 : c = '\x09'
            · subst h4
              simp [jsonEscapeChar, parseStringBodyF_succ, parseEscape_t, hrec]
            · by_cases h5 : c = '\x0a'
              · subst h5
                simp [jsonEscapeChar, parseStringBodyF_succ, parseEscape_n, hrec]
              · by_cases h6 : c = '\x0c'
                · subst h6
                  simp [jsonEscapeChar, parseStringBodyF_succ, parseEscape_f, hrec]
                · by_cases h7 : c = '\x0d'
                  · subst h7
                    simp [jsonEscapeChar, parseStringBodyF_succ, parseEscape_r, hrec]
                  · by_cases h8 : c.toNat < 0x20
                    · have hdiv : c.toNat / 16 < 16 := by omega
                      have hmod : c.toNat % 16 < 16 := Nat.mod_lt _ (by omega)
                      have hu := parseEscape_u '0' '0' (hexDigitChar (c.toNat / 16))
                        (hexDigitChar (c.toNat % 16)) (escapeChars l ++ '"' :: rest)
                        0 0 (c.toNat / 16) (c.toNat % 16) rfl rfl
                        (hexVal_hexDigitChar _ hdiv) (hexVal_hexDigitChar _ hmod)
                      have hcode : ((0 * 16 + 0) * 16 + c.toNat / 16) * 16 +
                          c.toNat % 16 = c.toNat := by omega
                      rw [hcode, Char.ofNat_toNat] at hu
                      simp [jsonEscapeChar, h1, h2, h3, h4, h5, h6, h7, h8,
                        parseStringBodyF_succ, hu, hrec]
                    · simp [jsonEscapeChar, h1, h2, h3, h4, h5, h6, h7, h8,
                        parseStringBodyF_succ, hrec]

theorem sizeJ_pos (v : Json) : 1 ≤ sizeJ v := by
  cases v <;> simp [sizeJ] <;> omega

theorem sizeJL_pos (l : List Json) : 1 ≤ sizeJL l := by
  cases l <;> simp [sizeJL] <;> omega

theorem sizeJF_pos (l : List (String × Json)) : 1 ≤ sizeJF l := by
  rcases l with _ | ⟨⟨k, v⟩, r⟩ <;> simp [sizeJF] <;> omega

theorem sizeJ_arr (l : List Json) : sizeJ (Json.arr l) = 1 + sizeJL l := rfl

theorem sizeJ_obj (l : List (String × Json)) :
    sizeJ (Json.obj l) = 1 + sizeJF l := rfl

theorem sizeJL_cons (x : Json) (r : List Json) :
    sizeJL (x :: r) = 1 + sizeJ x + sizeJL r := rfl

theorem sizeJF_cons (p : String × Json) (r : List (String × Json)) :
    sizeJF (p :: r) = 2 + p.1.data.length + sizeJ p.2 + sizeJF r := by
  rcases p with ⟨k, v⟩
  rfl

theorem expectChars_append (pat : List Char) :
    ∀ rest, expectChars pat (pat ++ rest) = some rest := by
  induction pat with
  | nil => intro rest; rfl
  | cons p ps ih =>
    intro rest
    rw [List.cons_append, expectChars]
    simp [ih]

theorem isDigit_ne_lit (c : Char) (h : c.isDigit = true) :
    c ≠ 'n' ∧ c ≠ 't' ∧ c ≠ 'f' ∧ c ≠ '"' ∧ c ≠ '-' ∧ c ≠ '[' ∧ c ≠ '{' ∧
      c ≠ ']' ∧ c ≠ '}' ∧ c ≠ ',' := by
  refine ⟨?_, ?_, ?_, ?_, ?_, ?_, ?_, ?_, ?_, ?_⟩ <;>
    (intro e; rw [e] at h; exact absurd h (by decide))

theorem natDigitsRevF_ne_nil (m : Nat) : natDigitsRevF (m + 1) m ≠ [] := by
  rw [natDigitsRevF]
  split <;> simp

theorem natDigits_head (m : Nat) :
    ∃ d ds, (natDigitsRevF (m + 1) m).reverse = d :: ds ∧ d.isDigit = true := by
  cases hr : (natDigitsRevF (m + 1) m).reverse with
  | nil =>
    exact absurd (by simpa using congrArg List.reverse hr) (natDigitsRevF_ne_nil m)
  | cons d ds =>
    refine ⟨d, ds, rfl, ?_⟩
    have hmem : d ∈ (natDigitsRevF (m + 1) m).reverse := by
      rw [hr]; exact List.mem_cons_self d ds
    exact natDigitsRevF_all_digits _ _ d (List.mem_reverse.mp hmem)

theorem data_asString (s : String) : s.data.asString = s := String.asString_toList s

theorem stringifyJson_head (v : Json) :
    ∃ c cs, stringifyJson v = c :: cs ∧
      (c = 'n' ∨ c = 't' ∨ c = 'f' ∨ c = '"' ∨ c = '-' ∨ c = '[' ∨ c = '{' ∨
        c.isDigit = true) := by
  cases v with
  | null => exact ⟨'n', ['u', 'l', 'l'], by simp [stringifyJson], by simp⟩
  | bool b =>
    cases b with
    | false => exact ⟨'f', ['a', 'l', 's', 'e'], by simp [stringifyJson], by simp⟩
    | true => exact ⟨'t', ['r', 'u', 'e'], by simp [stringifyJson], by simp⟩
  | num n =>
    by_cases hn : n < 0
    · exact ⟨'-', (natDigitsRevF (n.natAbs + 1) n.natAbs).reverse,
        by simp [stringifyJson, intChars, hn], by simp⟩
    · obtain ⟨d, ds, hd, hdig⟩ := natDigits_head n.toNat
      exact ⟨d, ds, by simp [stringifyJson, intChars, hn, hd], by simp [hdig]⟩
  | str s => exact ⟨'"', escapeChars s.data ++ ['"'], by simp [stringifyJson], by simp⟩
  | arr items =>
    exact ⟨'[', stringifyArr items ++ [']'], by simp [stringifyJson], by simp⟩
  | obj fields =>
    exact ⟨'{', stringifyObj fields ++ ['}'], by simp [stringifyJson], by simp⟩

theorem parse_stringify_bound : ∀ n : Nat,
    (∀ (v : Json) (fuel : Nat) (rest : List Char), sizeJ v ≤ n → sizeJ v ≤ fuel →
      noDigitHead rest = true →
      parseJsonF fuel (stringifyJson v ++ rest) = some (v, rest)) ∧
    (∀ (x : Json) (xs : List Json) (fuel : Nat) (rest : List Char),
      sizeJL (x :: xs) ≤ n → sizeJL (x :: xs) ≤ fuel →
      parseElemsF fuel (stringifyArr (x :: xs) ++ ']' :: rest) =
        some (x :: xs, rest)) ∧
    (∀ (k : String) (v : Json) (fs : List (String × Json)) (fuel : Nat)
        (rest : List Char),
      sizeJF ((k, v) :: fs) ≤ n → sizeJF ((k, v) :: fs) ≤ fuel →
      parseFieldsF fuel (stringifyObj ((k, v) :: fs) ++ '}' :: rest) =
        some ((k, v) :: fs, rest)) := by
  intro n
  induction n with
  | zero =>
    refine ⟨?_, ?_, ?_⟩
    · intro v fuel rest hn _ _
      exact absurd hn (by have := sizeJ_pos v; omega)
    · intro x xs fuel rest hn _
      exact absurd hn (by have := sizeJL_pos (x :: xs); omega)
    · intro k v fs fuel rest hn _
      exact absurd hn (by have := sizeJF_pos ((k, v) :: fs); omega)
  | succ n ih =>
    obtain ⟨ihJ, ihE, ihF⟩ := ih
    refine ⟨?_, ?_, ?_⟩
    · intro v fuel rest hn hf hrest
      cases fuel with
      | zero => exact absurd hf (by have := sizeJ_pos v; omega)
      | succ fuel =>
        cases v with
        | null =>
          rw [show stringifyJson Json.null ++ rest =
            'n' :: (['u', 'l', 'l'] ++ rest) from by simp [stringifyJson]]
          rw [parseJsonF, expectChars_append]
          simp
        | bool b =>
          cases b with
          | true =>
            rw [show stringifyJson (Json.bool true) ++ rest =
              't' :: (['r', 'u', 'e'] ++ rest) from by simp [stringifyJson]]
            rw [parseJsonF, expectChars_append]
            simp
          | false =>
            rw [show stringifyJson (Json.bool false) ++ rest =
              'f' :: (['a', 'l', 's', 'e'] ++ rest) from by simp [stringifyJson]]
            rw [parseJsonF, expectChars_append]
            simp
        | num m =>
          by_cases hm : m < 0
          · obtain ⟨d, ds, hd, hdig⟩ := natDigits_head m.natAbs
            rw [show stringifyJson (Json.num m) =
              '-' :: (natDigitsRevF (m.natAbs + 1) m.natAbs).reverse from by
                simp [stringifyJson, intChars, hm]]
            rw [List.cons_append, hd, List.cons_append, parseJsonF]
            have hback : d :: (ds ++ rest) =
                (natDigitsRevF (m.natAbs + 1) m.natAbs).reverse ++ rest := by
              rw [hd]; rfl
            have hnum := parseDigitsAux_natDigits m.natAbs rest hrest
            rw [← hback] at hnum
            have hval : -((m.natAbs : Nat) : Int) = m := by omega
            have hval2 : -|m| = m := by rw [abs_of_neg hm, neg_neg]
            simp [hdig, hnum, hval, hval2]
          · obtain ⟨d, ds, hd, hdig⟩ := natDigits_head m.toNat
            obtain ⟨n1, n2, n3, n4, n5, n6, n7, _, _, _⟩ := isDigit_ne_lit d hdig
            rw [show stringifyJson (Json.num m) =
              (natDigitsRevF (m.toNat + 1) m.toNat).reverse from by
                simp [stringifyJson, intChars, hm]]
            rw [hd, List.cons_append, parseJsonF]
            have hback : d :: (ds ++ rest) =
                (natDigitsRevF (m.toNat + 1) m.toNat).reverse ++ rest := by
              rw [hd]; rfl
            have hnum := parseDigitsAux_natDigits m.toNat rest hrest
            rw [← hback] at hnum
            have hval : ((m.toNat : Nat) : Int) = m := by omega
            simp [n1, n2, n3, n4, n5, n6, n7, hdig, hnum, hval]
        | str s =>
          rw [show stringifyJson (Json.str s) = '"' :: (escapeChars s.data ++ ['"'])
            from by simp [stringifyJson]]
          rw [List.cons_append, List.append_assoc, List.singleton_append, parseJsonF]
          have hklen : s.data.length < fuel := by
            simp only [sizeJ] at hf; omega
          have hesc := parseStringBodyF_escape s.data fuel rest hklen
          simp [hesc, data_asString]
        | arr items =>
          cases items with
          | nil =>
            rw [show stringifyJson (Json.arr []) = ['[', ']'] from by
              simp [stringifyJson, stringifyArr]]
            rw [show (['[', ']'] : List Char) ++ rest = '[' :: ']' :: rest from rfl]
            rw [parseJsonF]
            simp
          | cons x xs =>
            obtain ⟨c, cs, hx, hc⟩ := stringifyJson_head x
            have hcne : ¬c = ']' := by
              rcases hc with h | h | h | h | h | h | h | h
              all_goals first
                | (rw [h]; decide)
                | (intro e; rw [e] at h; exact absurd h (by decide))
            obtain ⟨R, hR⟩ : ∃ R, stringifyArr (x :: xs) = c :: R := by
              cases xs with
              | nil => exact ⟨cs, by simp [stringifyArr, hx]⟩
              | cons y ys =>
                exact ⟨cs ++ ',' :: stringifyArr (y :: ys), by simp [stringifyArr, hx]⟩
            have hbn : sizeJL (x :: xs) ≤ n := by simp only [sizeJ] at hn; omega
            have hsz : sizeJL (x :: xs) ≤ fuel := by simp only [sizeJ] at hf; omega
            have helems := ihE x xs fuel rest hbn hsz
            rw [hR, List.cons_append] at helems
            rw [show stringifyJson (Json.arr (x :: xs)) =
              '[' :: (stringifyArr (x :: xs) ++ [']']) from by simp [stringifyJson]]
            rw [List.cons_append, List.append_assoc, List.singleton_append,
              parseJsonF, hR, List.cons_append]
            simp [hcne, helems]
        | obj fields =>
          cases fields with
          | nil =>
            rw [show stringifyJson (Json.obj []) = ['{', '}'] from by
              simp [stringifyJson, stringifyObj]]
            rw [show (['{', '}'] : List Char) ++ rest = '{' :: '}' :: rest from rfl]
            rw [parseJsonF]
            simp
          | cons f fs =>
            rcases f with ⟨k, v⟩
            obtain ⟨R, hR⟩ : ∃ R, stringifyObj ((k, v) :: fs) = '"' :: R := by
              cases fs with
              | nil =>
                exact ⟨escapeChars k.data ++ '"' :: ':' :: stringifyJson v,
                  by simp [stringifyObj]⟩
              | cons p fs2 =>
                exact ⟨(escapeChars k.data ++ '"' :: ':' :: stringifyJson v) ++
                  ',' :: stringifyObj (p :: fs2), by simp [stringifyObj]⟩
            have hbn : sizeJF ((k, v) :: fs) ≤ n := by
              simp only [sizeJ] at hn; omega
            have hsz : sizeJF ((k, v) :: fs) ≤ fuel := by
              simp only [sizeJ] at hf; omega
            have hflds := ihF k v fs fuel rest hbn hsz
            rw [hR, List.cons_append] at hflds
            rw [show stringifyJson (Json.obj ((k, v) :: fs)) =
              '{' :: (stringifyObj ((k, v) :: fs) ++ ['}']) from by
                simp [stringifyJson]]
            rw [List.cons_append, List.append_assoc, List.singleton_append,
              parseJsonF, hR, List.cons_append]
            simp [hflds]
    · intro x xs fuel rest hn hf
      cases fuel with
      | zero => exact absurd hf (by have := sizeJL_pos (x :: xs); omega)
      | succ fuel =>
        rw [parseElemsF]
        cases xs with
        | nil =>
          have hx := ihJ x fuel (']' :: rest)
            (by have := sizeJL_pos ([] : List Json); simp only [sizeJL] at hn; omega)
            (by have := sizeJL_pos ([] : List Json); simp only [sizeJL] at hf; omega)
            rfl
          rw [show stringifyArr [x] = stringifyJson x from by simp [stringifyArr]]
          simp [hx]
        | cons y ys =>
          have hx := ihJ x fuel (',' :: (stringifyArr (y :: ys) ++ ']' :: rest))
            (by have := sizeJL_pos (y :: ys); simp only [sizeJL] at hn; omega)
            (by have := sizeJL_pos (y :: ys); simp only [sizeJL] at hf; omega) rfl
          have hrec := ihE y ys fuel rest
            (by have := sizeJ_pos x; simp only [sizeJL] at hn ⊢; omega)
            (by have := sizeJ_pos x; simp only [sizeJL] at hf ⊢; omega)
          rw [show stringifyArr (x :: y :: ys) =
            stringifyJson x ++ ',' :: stringifyArr (y :: ys) from by
              simp [stringifyArr]]
          rw [List.append_assoc, List.cons_append]
          simp [hx, hrec]
    · intro k v fs fuel rest hn hf
      cases fuel with
      | zero => exact absurd hf (by have := sizeJF_pos ((k, v) :: fs); omega)
      | succ fuel =>
        cases fs with
        | nil =>
          have hklen : k.data.length < fuel := by
            have := sizeJ_pos v
            simp only [sizeJF] at hf
            omega
          have hkey := parseStringBodyF_escape k.data fuel
            (':' :: (stringifyJson v ++ '}' :: rest)) hklen
          have hv := ihJ v fuel ('}' :: rest)
            (by simp only [sizeJF] at hn; omega)
            (by simp only [sizeJF] at hf; omega) rfl
          rw [show stringifyObj [(k, v)] =
            '"' :: (escapeChars k.data ++ '"' :: ':' :: stringifyJson v) from by
              simp [stringifyObj]]
          simp only [List.cons_append, List.append_assoc]
          rw [parseFieldsF]
          simp [hkey, hv, data_asString]
        | cons p fs2 =>
          rcases p with ⟨k2, v2⟩
          have hklen : k.data.length < fuel := by
            have h1 := sizeJ_pos v
            have h2 := sizeJF_pos ((k2, v2) :: fs2)
            simp only [sizeJF] at hf
            omega
          have hkey := parseStringBodyF_escape k.data fuel
            (':' :: (stringifyJson v ++
              ',' :: (stringifyObj ((k2, v2) :: fs2) ++ '}' :: rest))) hklen
          have hv := ihJ v fuel
            (',' :: (stringifyObj ((k2, v2) :: fs2) ++ '}' :: rest))
            (by have := sizeJF_pos ((k2, v2) :: fs2); simp only [sizeJF] at hn; omega)
            (by have := sizeJF_pos ((k2, v2) :: fs2); simp only [sizeJF] at hf; omega)
            rfl
          have hrec := ihF k2 v2 fs2 fuel rest
            (by have := sizeJ_pos v; simp only [sizeJF] at hn ⊢; omega)
            (by have := sizeJ_pos v; simp only [sizeJF] at hf ⊢; omega)
          rw [show stringifyObj ((k, v) :: (k2, v2) :: fs2) =
            ('"' :: (escapeChars k.data ++ '"' :: ':' :: stringifyJson v)) ++
              ',' :: stringifyObj ((k2, v2) :: fs2) from by simp [stringifyObj]]
          simp only [List.cons_append, List.append_assoc]
          rw [parseFieldsF]
          simp [hkey, hv, hrec, data_asString]

theorem parseJsonF_stringify (v : Json) (fuel : Nat) (rest : List Char)
    (hf : sizeJ v ≤ fuel) (hrest : noDigitHead rest = true) :
    parseJsonF fuel (stringifyJson v ++ rest) = some (v, rest) :=
  (parse_stringify_bound (sizeJ v)).1 v fuel rest le_rfl hf hrest

theorem stringifyJson_inj {a b : Json} (h : stringifyJson a = stringifyJson b) :
    a = b := by
  have ha := parseJsonF_stringify a (sizeJ a + sizeJ b) [] (by omega) rfl
  have hb := parseJsonF_stringify b (sizeJ a + sizeJ b) [] (by omega) rfl
  rw [List.append_nil] at ha hb
  rw [h] at ha
  rw [hb] at ha
  simpa using ha.symm


/-! #### Field sorting and lookup lemmas -/

theorem char_toNat_inj {x y : Char} (h : x.toNat = y.toNat) : x = y := by
  rw [← Char.ofNat_toNat x, ← Char.ofNat_toNat y, h]

theorem charListLe_total : ∀ xs ys : List Char,
    charListLe xs ys = true ∨ charListLe ys xs = true := by
  intro xs
  induction xs with
  | nil => intro ys; left; rfl
  | cons x xs ih =>
    intro ys
    cases ys with
    | nil => right; rfl
    | cons y ys =>
      by_cases hxy : x = y
      · subst hxy
        simpa [charListLe] using ih ys
      · have hyx : ¬y = x := fun h => hxy h.symm
        have hne : x.toNat ≠ y.toNat := fun h => hxy (char_toNat_inj h)
        rcases Nat.lt_or_ge x.toNat y.toNat with h | h
        · left
          simp [charListLe, hxy, h]
        · right
          simp [charListLe, hyx]
          omega

theorem charListLe_trans : ∀ xs ys zs : List Char,
    charListLe xs ys = true → charListLe ys zs = true →
    charListLe xs zs = true := by
  intro xs
  induction xs with
  | nil => intro ys zs _ _; rfl
  | cons x xs ih =>
    intro ys zs h1 h2
    cases ys with
    | nil => simp [charListLe] at h1
    | cons y ys =>
      cases zs with
      | nil => simp [charListLe] at h2
      | cons z zs =>
        by_cases hxy : x = y
        · subst hxy
          by_cases hyz : x = z
          · subst hyz
            simp [charListLe] at h1 h2 ⊢
            exact ih ys zs h1 h2
          · simp [charListLe, hyz] at h2 ⊢
            exact h2
        · by_cases hyz : y = z
          · subst hyz
            simp [charListLe, hxy] at h1 ⊢
            exact h1
          · simp [charListLe, hxy, hyz] at h1 h2
            by_cases hxz : x = z
            · subst hxz
              exact absurd (Nat.lt_trans h1 h2) (lt_irrefl _)
            · simp [charListLe, hxz]
              omega

theorem charListLe_antisymm : ∀ xs ys : List Char,
    charListLe xs ys = true → charListLe ys xs = true → xs = ys := by
  intro xs
  induction xs with
  | nil =>
    intro ys h1 h2
    cases ys with
    | nil => rfl
    | cons y ys => simp [charListLe] at h2
  | cons x xs ih =>
    intro ys h1 h2
    cases ys with
    | nil => simp [charListLe] at h1
    | cons y ys =>
      by_cases hxy : x = y
      · subst hxy
        simp [charListLe] at h1 h2
        rw [ih ys h1 h2]
      · have hyx : ¬y = x := fun h => hxy h.symm
        simp [charListLe, hxy] at h1
        simp [charListLe, hyx] at h2
        exact absurd (Nat.lt_trans h1 h2) (lt_irrefl _)

theorem strLe_total (a b : String) : strLe a b = true ∨ strLe b a = true :=
  charListLe_total a.toList b.toList

theorem strLe_trans {a b c : String} (h1 : strLe a b = true)
    (h2 : strLe b c = true) : strLe a c = true :=
  charListLe_trans _ _ _ h1 h2

theorem strLe_antisymm {a b : String} (h1 : strLe a b = true)
    (h2 : strLe b a = true) : a = b :=
  String.ext (charListLe_antisymm _ _ h1 h2)

theorem insertField_perm {α : Type} (p : String × α) (l : List (String × α)) :
    (insertField p l).Perm (p :: l) := by
  induction l with
  | nil => simp [insertField]
  | cons q r ih =>
    rw [insertField]
    split
    · exact List.Perm.refl _
    · exact (ih.cons q).trans (List.Perm.swap p q r)

theorem mem_insertField {α : Type} (p x : String × α) (l : List (String × α)) :
    x ∈ insertField p l ↔ x = p ∨ x ∈ l := by
  rw [(insertField_perm p l).mem_iff]
  simp

theorem sortFields_perm {α : Type} (l : List (String × α)) :
    (sortFields l).Perm l := by
  induction l with
  | nil => exact List.Perm.refl _
  | cons p r ih => exact (insertField_perm p (sortFields r)).trans (ih.cons p)

theorem insertField_sorted {α : Type} (p : String × α) (l : List (String × α))
    (h : l.Pairwise (fun x y => strLe x.1 y.1 = true)) :
    (insertField p l).Pairwise (fun x y => strLe x.1 y.1 = true) := by
  induction l with
  | nil => simp [insertField]
  | cons q r ih =>
    rw [List.pairwise_cons] at h
    rw [insertField]
    split
    · rename_i hpq
      refine List.pairwise_cons.mpr ⟨?_, List.pairwise_cons.mpr h⟩
      intro x hx
      rcases List.mem_cons.mp hx with rfl | hx
      · exact hpq
      · exact strLe_trans hpq (h.1 x hx)
    · rename_i hpq
      have hqp : strLe q.1 p.1 = true := by
        rcases strLe_total p.1 q.1 with h | h
        · exact absurd h hpq
        · exact h
      refine List.pairwise_cons.mpr ⟨?_, ih h.2⟩
      intro x hx
      rcases (mem_insertField p x r).mp hx with rfl | hx
      · exact hqp
      · exact h.1 x hx

theorem sortFields_sorted {α : Type} (l : List (String × α)) :
    (sortFields l).Pairwise (fun x y => strLe x.1 y.1 = true) := by
  induction l with
  | nil => simp [sortFields]
  | cons p r ih => exact insertField_sorted p (sortFields r) ih

theorem eq_of_perm_of_sorted_keys {α : Type} :
    ∀ (l1 l2 : List (String × α)), l1.Perm l2 →
      l1.Pairwise (fun x y => strLe x.1 y.1 = true) →
      l2.Pairwise (fun x y => strLe x.1 y.1 = true) →
      (l1.map Prod.fst).Nodup → l1 = l2 := by
  intro l1
  induction l1 with
  | nil =>
    intro l2 hp _ _ _
    exact (hp.symm.eq_nil).symm
  | cons p t1 ih =>
    intro l2 hp hs1 hs2 hnd
    cases l2 with
    | nil => exact hp.eq_nil
    | cons q t2 =>
      rw [List.pairwise_cons] at hs1 hs2
      have hpq : p = q := by
        by_contra hne
        have hpmem : p ∈ q :: t2 := hp.mem_iff.mp (List.mem_cons_self p t1)
        have hqmem : q ∈ p :: t1 := hp.mem_iff.mpr (List.mem_cons_self q t2)
        rcases List.mem_cons.mp hpmem with h1 | h1
        · exact hne h1
        rcases List.mem_cons.mp hqmem with h2 | h2
        · exact hne h2.symm
        have ha : strLe q.1 p.1 = true := hs2.1 p h1
        have hb : strLe p.1 q.1 = true := hs1.1 q h2
        have hk : p.1 = q.1 := strLe_antisymm hb ha
        rw [List.map_cons, List.nodup_cons] at hnd
        exact hnd.1 (hk ▸ List.mem_map_of_mem Prod.fst h2)
      subst hpq
      have ht := hp.cons_inv
      rw [List.map_cons, List.nodup_cons] at hnd
      rw [ih t2 ht hs1.2 hs2.2 hnd.2]

theorem sortFields_eq_of_perm {α : Type} {l1 l2 : List (String × α)}
    (hp : l1.Perm l2) (hnd : (l1.map Prod.fst).Nodup) :
    sortFields l1 = sortFields l2 := by
  have h1 := sortFields_perm l1
  have h2 := sortFields_perm l2
  have hnd1 : ((sortFields l1).map Prod.fst).Nodup :=
    (List.Perm.nodup_iff (h1.map Prod.fst)).mpr hnd
  exact eq_of_perm_of_sorted_keys _ _ (h1.trans (hp.trans h2.symm))
    (sortFields_sorted l1) (sortFields_sorted l2) hnd1

theorem lookup_eq_some_of_nodup {α : Type} :
    ∀ (l : List (String × α)) (k : String) (v : α),
      (l.map Prod.fst).Nodup → (k, v) ∈ l → l.lookup k = some v := by
  intro l
  induction l with
  | nil => simp
  | cons p r ih =>
    rcases p with ⟨pk, pv⟩
    intro k v hnd hmem
    rw [List.map_cons, List.nodup_cons] at hnd
    rcases List.mem_cons.mp hmem with he | hmem2
    · rw [(Prod.mk.injEq _ _ _ _).mp he.symm |>.1]
      rw [(Prod.mk.injEq _ _ _ _).mp he.symm |>.2]
      simp [List.lookup]
    · have hne : ¬pk = k := by
        intro he
        refine hnd.1 ?_
        rw [he]
        exact List.mem_map.mpr ⟨(k, v), hmem2, rfl⟩
      rw [List.lookup]
      have hne2 : (k == pk) = false := by
        simp
        intro he
        exact hne he.symm
      rw [hne2]
      exact ih k v hnd.2 hmem2

theorem lookup_sortFields {α : Type} (l : List (String × α)) (k : String)
    (v : α) (hnd : (l.map Prod.fst).Nodup) (hmem : (k, v) ∈ l) :
    (sortFields l).lookup k = some v :=
  lookup_eq_some_of_nodup _ k v
    ((List.Perm.nodup_iff ((sortFields_perm l).map Prod.fst)).mpr hnd)
    (((sortFields_perm l).mem_iff).mpr hmem)

/-! #### Fingerprint normalization lemmas (tree model) -/

theorem normalizeTreeList_eq (l : List Json) :
    normalizeTreeList l = l.map (normalizeTree false) := by
  induction l with
  | nil => rfl
  | cons x r ih => simp [normalizeTreeList, ih]

theorem normalizeTreeFields_eq (root : Bool) (fs : List (String × Json)) :
    normalizeTreeFields root fs =
      (if root then dropDocFields fs else fs).map
        (fun p => (p.1, normalizeTree false p.2)) := by
  induction fs with
  | nil => cases root <;> simp [normalizeTreeFields, dropDocFields]
  | cons p r ih =>
    rcases p with ⟨k, v⟩
    cases root with
    | false =>
      rw [normalizeTreeFields]
      simp [ih]
    | true =>
      rw [normalizeTreeFields]
      by_cases hk : k = "description" ∨ k = "summary"
      · rw [if_pos ⟨rfl, hk⟩, ih]
        simp only [ite_true, dropDocFields, List.filter_cons]
        have hnot : ¬(k ≠ "description" ∧ k ≠ "summary") := by tauto
        simp [hnot]
      · rw [if_neg (by simp [hk]), ih]
        simp only [ite_true, dropDocFields, List.filter_cons]
        have hyes : k ≠ "description" ∧ k ≠ "summary" := by tauto
        simp [hyes, dropDocFields]

theorem normalizeTree_obj (root : Bool) (fs : List (String × Json)) :
    normalizeTree root (Json.obj fs) =
      Json.obj (sortFields (normalizeTreeFields root fs)) := by
  cases root <;> rfl

theorem normalizeTree_true_obj (fs : List (String × Json)) :
    normalizeTree true (Json.obj fs) =
      normalizeTree false (Json.obj (dropDocFields fs)) := by
  rw [normalizeTree_obj, normalizeTree_obj, normalizeTreeFields_eq,
    normalizeTreeFields_eq]
  simp

theorem kpfields_keys : ∀ {fs hs : List (String × Json)}, KPFields fs hs →
    fs.map Prod.fst = hs.map Prod.fst := by
  intro fs
  induction fs with
  | nil =>
    intro hs h
    cases h
    rfl
  | cons p r ih =>
    intro hs h
    cases h with
    | cons hv hf => simp [ih hf]

theorem kpe_norm_bound : ∀ n : Nat,
    (∀ a b, sizeJ a ≤ n → KeyPermEq a b →
      normalizeTree false a = normalizeTree false b) ∧
    (∀ xs ys, sizeJL xs ≤ n → KPList xs ys →
      normalizeTreeList xs = normalizeTreeList ys) ∧
    (∀ fs hs, sizeJF fs ≤ n → KPFields fs hs →
      normalizeTreeFields false fs = normalizeTreeFields false hs) := by
  intro n
  induction n with
  | zero =>
    refine ⟨?_, ?_, ?_⟩
    · intro a b hn _
      exact absurd hn (by have := sizeJ_pos a; omega)
    · intro xs ys hn _
      exact absurd hn (by have := sizeJL_pos xs; omega)
    · intro fs hs hn _
      exact absurd hn (by have := sizeJF_pos fs; omega)
  | succ n ih =>
    refine ⟨?_, ?_, ?_⟩
    · intro a b hn h
      cases h with
      | null => rfl
      | bool b => rfl
      | num m => rfl
      | str s => rfl
      | arr hl =>
        rename_i xs ys
        have := ih.2.1 xs ys (by simp only [sizeJ] at hn; omega) hl
        simp [normalizeTree, this]
      | obj hnd hkf hperm =>
        rename_i fs hs gs
        have hf := ih.2.2 fs hs (by simp only [sizeJ] at hn; omega) hkf
        rw [normalizeTree_obj, normalizeTree_obj, hf]
        have hkeys : (normalizeTreeFields false hs).map Prod.fst =
            hs.map Prod.fst := by
          rw [normalizeTreeFields_eq]
          simp
        have hnd2 : ((normalizeTreeFields false hs).map Prod.fst).Nodup := by
          rw [hkeys, ← kpfields_keys hkf]
          exact hnd
        have hmapperm : (normalizeTreeFields false hs).Perm
            (normalizeTreeFields false gs) := by
          rw [normalizeTreeFields_eq, normalizeTreeFields_eq]
          simpa using hperm.map (fun p => (p.1, normalizeTree false p.2))
        rw [sortFields_eq_of_perm hmapperm hnd2]
    · intro xs ys hn h
      cases h with
      | nil => rfl
      | cons hx hl =>
        rename_i x y xs2 ys2
        have h1 := ih.1 x y (by simp only [sizeJL] at hn; have := sizeJL_pos xs2; omega) hx
        have h2 := ih.2.1 xs2 ys2 (by simp only [sizeJL] at hn; have := sizeJ_pos x; omega) hl
        simp [normalizeTreeList, h1, h2]
    · intro fs hs hn h
      cases h with
      | nil => rfl
      | cons hv hf =>
        rename_i k v w fs2 hs2
        have h1 := ih.1 v w
          (by simp only [sizeJF] at hn; have := sizeJF_pos fs2; omega) hv
        have h2 := ih.2.2 fs2 hs2
          (by simp only [sizeJF] at hn; have := sizeJ_pos v; omega) hf
        rw [normalizeTreeFields, normalizeTreeFields]
        simp [h1, h2]

theorem keyPermEq_normalizeTree {a b : Json} (h : KeyPermEq a b) :
    normalizeTree false a = normalizeTree false b :=
  (kpe_norm_bound (sizeJ a)).1 a b le_rfl h

theorem fingerprint_tree_inj {a b : Json}
    (h : createSchemaFingerprintTree a = createSchemaFingerprintTree b) :
    normalizeTree true a = normalizeTree true b := by
  unfold createSchemaFingerprintTree at h
  have h2 := congrArg String.toList h
  simp only [List.toList_asString] at h2
  exact stringifyJson_inj h2

theorem obj_norm_ne_of_entry_ne (L1 L2 : List (String × Json)) (k : String)
    (u v : Json) (h1 : (L1.map Prod.fst).Nodup) (h2 : (L2.map Prod.fst).Nodup)
    (hm1 : (k, u) ∈ L1) (hm2 : (k, v) ∈ L2)
    (hne : normalizeTree false u ≠ normalizeTree false v) :
    normalizeTree false (Json.obj L1) ≠ normalizeTree false (Json.obj L2) := by
  intro he
  apply hne
  rw [normalizeTree_obj, normalizeTree_obj] at he
  have hinj : sortFields (normalizeTreeFields false L1) =
      sortFields (normalizeTreeFields false L2) := by
    injection he
  have hk1 : (normalizeTreeFields false L1).map Prod.fst = L1.map Prod.fst := by
    rw [normalizeTreeFields_eq]; simp
  have hk2 : (normalizeTreeFields false L2).map Prod.fst = L2.map Prod.fst := by
    rw [normalizeTreeFields_eq]; simp
  have hmm1 : (k, normalizeTree false u) ∈ normalizeTreeFields false L1 := by
    rw [normalizeTreeFields_eq]
    exact List.mem_map.mpr ⟨(k, u), hm1, rfl⟩
  have hmm2 : (k, normalizeTree false v) ∈ normalizeTreeFields false L2 := by
    rw [normalizeTreeFields_eq]
    exact List.mem_map.mpr ⟨(k, v), hm2, rfl⟩
  have e1 := lookup_sortFields (normalizeTreeFields false L1) k
    (normalizeTree false u) (by rw [hk1]; exact h1) hmm1
  have e2 := lookup_sortFields (normalizeTreeFields false L2) k
    (normalizeTree false v) (by rw [hk2]; exact h2) hmm2
  rw [hinj, e2] at e1
  exact (Option.some.injEq _ _).mp e1.symm

theorem normalizeTree_plug_ne : ∀ (c : JCtx), ctxOk c → ∀ x y : Json,
    normalizeTree false x ≠ normalizeTree false y →
    normalizeTree false (plug c x) ≠ normalizeTree false (plug c y) := by
  intro c
  induction c with
  | hole => intro _ x y h; exact h
  | arrC b c a ih =>
    intro hok x y hne
    have h2 := ih hok x y hne
    intro he
    apply h2
    simp only [plug, normalizeTree, normalizeTreeList_eq] at he
    have hinj : (b ++ plug c x :: a).map (normalizeTree false) =
        (b ++ plug c y :: a).map (normalizeTree false) := by
      injection he
    simp only [List.map_append, List.map_cons] at hinj
    have := List.append_cancel_left hinj
    exact (List.cons.injEq _ _ _ _).mp this |>.1
  | objC b k c a ih =>
    intro hok x y hne
    obtain ⟨hnd, hok2⟩ := hok
    have h2 := ih hok2 x y hne
    simp only [plug]
    have hkeys : ∀ z : Json, ((b ++ (k, plug c z) :: a).map Prod.fst).Nodup := by
      intro z
      simpa using hnd
    exact obj_norm_ne_of_entry_ne _ _ k (plug c x) (plug c y)
      (hkeys x) (hkeys y) (by simp) (by simp) h2

theorem mem_dropDocFields {α : Type} (k : String) (v : α)
    (l : List (String × α)) (hk1 : k ≠ "description") (hk2 : k ≠ "summary")
    (hm : (k, v) ∈ l) : (k, v) ∈ dropDocFields l := by
  rw [dropDocFields, List.mem_filter]
  exact ⟨hm, by simp [hk1, hk2]⟩

theorem dropDocFields_keys_nodup {α : Type} (l : List (String × α))
    (h : (l.map Prod.fst).Nodup) : ((dropDocFields l).map Prod.fst).Nodup := by
  have hsub : List.Sublist ((dropDocFields l).map Prod.fst)
      (l.map Prod.fst) := (List.filter_sublist l).map Prod.fst
  exact h.sublist hsub

theorem normalizeTree_true_plug_ne (b : List (String × Json)) (k : String)
    (c : JCtx) (a : List (String × Json))
    (hok : ctxOk (JCtx.objC b k c a)) (hk1 : k ≠ "description")
    (hk2 : k ≠ "summary") {x y : Json}
    (hne : normalizeTree false x ≠ normalizeTree false y) :
    normalizeTree true (plug (JCtx.objC b k c a) x) ≠
      normalizeTree true (plug (JCtx.objC b k c a) y) := by
  obtain ⟨hnd, hok2⟩ := hok
  have h2 := normalizeTree_plug_ne c hok2 x y hne
  simp only [plug, normalizeTree_true_obj]
  have hkeys : ∀ z : Json, ((b ++ (k, plug c z) :: a).map Prod.fst).Nodup := by
    intro z
    simpa using hnd
  exact obj_norm_ne_of_entry_ne _ _ k (plug c x) (plug c y)
    (dropDocFields_keys_nodup _ (hkeys x)) (dropDocFields_keys_nodup _ (hkeys y))
    (mem_dropDocFields k _ _ hk1 hk2 (by simp))
    (mem_dropDocFields k _ _ hk1 hk2 (by simp)) h2

/-- Claim C5 (amended): (a) if two record schemas are equal up to the
ordering of keys in any nested record and up to the presence or values of
root-level `description`/`summary` members, their fingerprints are equal;
(b) if two schemas differ precisely in the value of a nested `description`
or `summary` string at a position that is not inside a root-level
`description`/`summary` member (which the root filter removes), their
fingerprints differ; (c) the back edge of a reference cycle contributes the
literal string `"[Circular]"` to the fingerprint (heap model, on a record
whose `self` member refers back to the record itself).  The unamended (b)
fails when the differing nested doc string sits inside the root's own
`description`/`summary` member; see the counterexample. -/
theorem C5_fingerprint_equivalence :
    (∀ fsA fsB : List (String × Json),
      KeyPermEq (Json.obj (dropDocFields fsA)) (Json.obj (dropDocFields fsB)) →
      createSchemaFingerprintTree (Json.obj fsA) =
        createSchemaFingerprintTree (Json.obj fsB)) ∧
    (∀ (b : List (String × Json)) (k : String) (c : JCtx)
        (a fsb fsa : List (String × Json)) (dk d1 d2 : String),
      ctxOk (JCtx.objC b k c a) →
      (dk = "description" ∨ dk = "summary") →
      k ≠ "description" → k ≠ "summary" →
      ((fsb ++ (dk, Json.str d1) :: fsa).map Prod.fst).Nodup →
      d1 ≠ d2 →
      createSchemaFingerprintTree
          (plug (JCtx.objC b k c a)
            (Json.obj (fsb ++ (dk, Json.str d1) :: fsa))) ≠
        createSchemaFingerprintTree
          (plug (JCtx.objC b k c a)
            (Json.obj (fsb ++ (dk, Json.str d2) :: fsa)))) ∧
    createSchemaFingerprint
        [JObj.record [("self", JVal.ref 0), ("type", JVal.str "object")]] 3 0 =
      some "\x7b\"self\":\"[Circular]\",\"type\":\"object\"\x7d" := by
  refine ⟨?_, ?_, ?_⟩
  · intro fsA fsB h
    unfold createSchemaFingerprintTree
    rw [normalizeTree_true_obj, normalizeTree_true_obj,
      keyPermEq_normalizeTree h]
  · intro b k c a fsb fsa dk d1 d2 hok hdk hk1 hk2 hnd hne he
    have hn := fingerprint_tree_inj he
    have hinner :
        normalizeTree false (Json.obj (fsb ++ (dk, Json.str d1) :: fsa)) ≠
          normalizeTree false (Json.obj (fsb ++ (dk, Json.str d2) :: fsa)) := by
      refine obj_norm_ne_of_entry_ne _ _ dk (Json.str d1) (Json.str d2) hnd
        (by simpa using hnd) (by simp) (by simp) ?_
      simp [normalizeTree, hne]
    exact normalizeTree_true_plug_ne b k c a hok hk1 hk2 hinner hn
  · decide

/-- Witness for `C5_fingerprint_equivalence`: a root doc string plus swapped
keys leave the fingerprint unchanged, while two different nested doc
strings (not under a root doc member) change it. -/
theorem C5_fingerprint_equivalence_witness :
    createSchemaFingerprintTree
        (Json.obj [("a", Json.num 1), ("b", Json.num 2),
          ("description", Json.str "x")]) =
      createSchemaFingerprintTree
        (Json.obj [("b", Json.num 2), ("a", Json.num 1)]) ∧
    createSchemaFingerprintTree
        (Json.obj [("wrap",
          Json.obj [("description", Json.str "a"), ("t", Json.null)])]) ≠
      createSchemaFingerprintTree
        (Json.obj [("wrap",
          Json.obj [("description", Json.str "b"), ("t", Json.null)])]) := by
  constructor
  · refine C5_fingerprint_equivalence.1 _ _ ?_
    have e1 : dropDocFields [("a", Json.num 1), ("b", Json.num 2),
        ("description", Json.str "x")] =
        [("a", Json.num 1), ("b", Json.num 2)] := rfl
    have e2 : dropDocFields [("b", Json.num 2), ("a", Json.num 1)] =
        [("b", Json.num 2), ("a", Json.num 1)] := rfl
    rw [e1, e2]
    exact KeyPermEq.obj (by decide)
      (KPFields.cons (KeyPermEq.num 1)
        (KPFields.cons (KeyPermEq.num 2) KPFields.nil))
      (List.Perm.swap ("b", Json.num 2) ("a", Json.num 1) [])
  · have h2 := C5_fingerprint_equivalence.2.1 [] "wrap" JCtx.hole []
      [] [("t", Json.null)] "description" "a" "b"
      ⟨by decide, trivial⟩ (Or.inl rfl) (by decide) (by decide) (by decide)
      (by decide)
    simpa [plug] using h2

/-- Counterexample to claim C5 as stated: the two schemas differ only in a
nested `description` string — the one inside the record that is the value
of the root-level `description` member — yet their fingerprints are equal,
because the root filter removes the whole root `description` member.  So a
nested doc-string difference does not always change the fingerprint. -/
theorem C5_fingerprint_equivalence_counterexample :
    createSchemaFingerprintTree
        (Json.obj [("description", Json.obj [("description", Json.str "a")]),
          ("t", Json.null)]) =
      createSchemaFingerprintTree
        (Json.obj [("description", Json.obj [("description", Json.str "b")]),
          ("t", Json.null)]) ∧
    ("a" : String) ≠ "b" :=
  ⟨by decide, by decide⟩

/-! #### Heap fingerprint lemmas -/

theorem normVal_zero_val (h : Heap) (seen : List Nat) (root : Bool)
    (v : JVal) (u : Json) (hv : normVal h 0 seen root v = some u) :
    ∀ f2 : Nat, normVal h f2 seen root v = some u := by
  intro f2
  cases v with
  | null => simpa [normVal] using hv
  | bool b => simpa [normVal] using hv
  | num n => simpa [normVal] using hv
  | str s => simpa [normVal] using hv
  | ref a =>
    rw [normVal] at hv
    by_cases ha : a ∈ seen
    · rw [if_pos ha] at hv
      cases f2 with
      | zero => rw [normVal, if_pos ha]; exact hv
      | succ f2 => rw [normVal, if_pos ha]; exact hv
    · rw [if_neg ha] at hv
      exact absurd hv (by simp)

theorem normVal_mono_bound (h : Heap) : ∀ n : Nat,
    (∀ f seen root v u, f ≤ n → normVal h f seen root v = some u →
      ∀ f2, f ≤ f2 → normVal h f2 seen root v = some u) ∧
    (∀ f seen l us, f ≤ n → normValList h f seen l = some us →
      ∀ f2, f ≤ f2 → normValList h f2 seen l = some us) ∧
    (∀ f seen fs ufs, f ≤ n → normValFields h f seen fs = some ufs →
      ∀ f2, f ≤ f2 → normValFields h f2 seen fs = some ufs) := by
  intro n
  induction n with
  | zero =>
    refine ⟨?_, ?_, ?_⟩
    · intro f seen root v u hf hv f2 _
      have hf0 : f = 0 := by omega
      subst hf0
      exact normVal_zero_val h seen root v u hv f2
    · intro f seen l us hf hv f2 _
      have hf0 : f = 0 := by omega
      subst hf0
      cases l with
      | nil => simpa [normValList] using hv
      | cons x r => exact absurd hv (by simp [normValList])
    · intro f seen fs ufs hf hv f2 _
      have hf0 : f = 0 := by omega
      subst hf0
      cases fs with
      | nil => simpa [normValFields] using hv
      | cons p r => exact absurd hv (by rcases p with ⟨k, w⟩; simp [normValFields])
  | succ n ih =>
    refine ⟨?_, ?_, ?_⟩
    · intro f seen root v u hf hv f2 hf2
      cases f with
      | zero => exact normVal_zero_val h seen root v u hv f2
      | succ f0 =>
        cases v with
        | null => simpa [normVal] using hv
        | bool b => simpa [normVal] using hv
        | num m => simpa [normVal] using hv
        | str s => simpa [normVal] using hv
        | ref a =>
          obtain ⟨f3, rfl⟩ : ∃ f3, f2 = f3 + 1 := ⟨f2 - 1, by omega⟩
          rw [normVal] at hv
          rw [normVal]
          by_cases ha : a ∈ seen
          · rw [if_pos ha] at hv ⊢
            exact hv
          · rw [if_neg ha] at hv ⊢
            cases hget : h.get? a with
            | none =>
              rw [hget] at hv
              exact absurd hv (by simp)
            | some o =>
              rw [hget] at hv
              cases o with
              | arr items =>
                rcases Option.map_eq_some'.mp hv with ⟨us, hus, rfl⟩
                show Option.map Json.arr (normValList h f3 (a :: seen) items) =
                  some (Json.arr us)
                rw [ih.2.1 f0 (a :: seen) items us (by omega) hus f3 (by omega)]
                rfl
              | record fields =>
                rcases Option.map_eq_some'.mp hv with ⟨ufs, hufs, rfl⟩
                show Option.map Json.obj (normValFields h f3 (a :: seen)
                  (sortFields (if root then dropDocFields fields else fields))) =
                  some (Json.obj ufs)
                rw [ih.2.2 f0 (a :: seen) _ ufs (by omega) hufs f3 (by omega)]
                rfl
    · intro f seen l us hf hv f2 hf2
      cases l with
      | nil => simpa [normValList] using hv
      | cons x r =>
        cases f with
        | zero => exact absurd hv (by simp [normValList])
        | succ f0 =>
          obtain ⟨f3, rfl⟩ : ∃ f3, f2 = f3 + 1 := ⟨f2 - 1, by omega⟩
          rw [normValList] at hv
          rw [normValList]
          cases hx : normVal h f0 seen false x with
          | none => rw [hx] at hv; exact absurd hv (by simp)
          | some j =>
            cases hr : normValList h f0 seen r with
            | none => rw [hx, hr] at hv; exact absurd hv (by simp)
            | some js =>
              rw [hx, hr] at hv
              rw [ih.1 f0 seen false x j (by omega) hx f3 (by omega),
                ih.2.1 f0 seen r js (by omega) hr f3 (by omega)]
              exact hv
    · intro f seen fs ufs hf hv f2 hf2
      cases fs with
      | nil => simpa [normValFields] using hv
      | cons p r =>
        rcases p with ⟨k, w⟩
        cases f with
        | zero => exact absurd hv (by simp [normValFields])
        | succ f0 =>
          obtain ⟨f3, rfl⟩ : ∃ f3, f2 = f3 + 1 := ⟨f2 - 1, by omega⟩
          rw [normValFields] at hv
          rw [normValFields]
          cases hx : normVal h f0 seen false w with
          | none => rw [hx] at hv; exact absurd hv (by simp)
          | some j =>
            cases hr : normValFields h f0 seen r with
            | none => rw [hx, hr] at hv; exact absurd hv (by simp)
            | some js =>
              rw [hx, hr] at hv
              rw [ih.1 f0 seen false w j (by omega) hx f3 (by omega),
                ih.2.2 f0 seen r js (by omega) hr f3 (by omega)]
              exact hv

theorem normVal_mono (h : Heap) (f seen root v u) (f2 : Nat)
    (hv : normVal h f seen root v = some u) (hle : f ≤ f2) :
    normVal h f2 seen root v = some u :=
  (normVal_mono_bound h f).1 f seen root v u le_rfl hv f2 hle

theorem forall₂_keys_filter {β γ : Type}
    (R : (String × β) → (String × γ) → Prop)
    (hk : ∀ p q, R p q → p.1 = q.1) (Pr : String → Bool) :
    ∀ {l : List (String × β)} {m : List (String × γ)}, List.Forall₂ R l m →
      List.Forall₂ R (l.filter (fun p => Pr p.1)) (m.filter (fun q => Pr q.1)) := by
  intro l m hlm
  induction hlm with
  | nil => exact List.Forall₂.nil
  | cons hpq hrest ih =>
    rename_i p q l2 m2
    rw [List.filter_cons, List.filter_cons, hk p q hpq]
    by_cases hp : Pr q.1 = true
    · rw [if_pos hp, if_pos hp]
      exact List.Forall₂.cons hpq ih
    · rw [if_neg hp, if_neg hp]
      exact ih

theorem forall₂_insertField {β γ : Type}
    (R : (String × β) → (String × γ) → Prop)
    (hk : ∀ p q, R p q → p.1 = q.1) (p : String × β) (q : String × γ)
    (hpq : R p q) :
    ∀ {l : List (String × β)} {m : List (String × γ)}, List.Forall₂ R l m →
      List.Forall₂ R (insertField p l) (insertField q m) := by
  intro l m hlm
  induction hlm with
  | nil => exact List.Forall₂.cons hpq List.Forall₂.nil
  | cons hxy hrest ih =>
    rename_i x y l2 m2
    rw [insertField, insertField, hk p q hpq, hk x y hxy]
    by_cases hc : strLe q.1 y.1 = true
    · rw [if_pos hc, if_pos hc]
      exact List.Forall₂.cons hpq (List.Forall₂.cons hxy hrest)
    · rw [if_neg hc, if_neg hc]
      exact List.Forall₂.cons hxy ih

theorem forall₂_sortFields {β γ : Type}
    (R : (String × β) → (String × γ) → Prop)
    (hk : ∀ p q, R p q → p.1 = q.1) :
    ∀ {l : List (String × β)} {m : List (String × γ)}, List.Forall₂ R l m →
      List.Forall₂ R (sortFields l) (sortFields m) := by
  intro l m hlm
  induction hlm with
  | nil => exact List.Forall₂.nil
  | cons hpq hrest ih =>
    rw [sortFields, sortFields]
    exact forall₂_insertField R hk _ _ hpq ih

theorem map_snd_insertField {β γ : Type} (g : β → γ) (p : String × β) :
    ∀ l : List (String × β),
      (insertField p l).map (fun q => (q.1, g q.2)) =
        insertField (p.1, g p.2) (l.map (fun q => (q.1, g q.2))) := by
  intro l
  induction l with
  | nil => rfl
  | cons x r ih =>
    rw [insertField]
    by_cases hc : strLe p.1 x.1 = true
    · rw [if_pos hc]
      rw [List.map_cons, List.map_cons, insertField]
      rw [if_pos hc]
    · rw [if_neg hc]
      rw [List.map_cons, List.map_cons, insertField]
      rw [if_neg hc, ← ih]

theorem map_snd_sortFields {β γ : Type} (g : β → γ) :
    ∀ l : List (String × β),
      (sortFields l).map (fun q => (q.1, g q.2)) =
        sortFields (l.map (fun q => (q.1, g q.2))) := by
  intro l
  induction l with
  | nil => rfl
  | cons p r ih =>
    rw [sortFields, List.map_cons, sortFields, map_snd_insertField, ih]

theorem reifyFields_corr (h : Heap) : ∀ (f : Nat) (seen : List Nat)
    (fs : List (String × JVal)) (tfs : List (String × Json)),
    reifyFields h f seen fs = some tfs →
    List.Forall₂ (fun (p : String × JVal) (q : String × Json) =>
      p.1 = q.1 ∧ ∃ f2, f2 ≤ f ∧ reifyVal h f2 seen p.2 = some q.2) fs tfs := by
  intro f
  induction f with
  | zero =>
    intro seen fs tfs hr
    cases fs with
    | nil =>
      have : tfs = [] := by simpa [reifyFields] using hr.symm
      subst this
      exact List.Forall₂.nil
    | cons p r =>
      rcases p with ⟨k, w⟩
      exact absurd hr (by simp [reifyFields])
  | succ f0 ih =>
    intro seen fs tfs hr
    cases fs with
    | nil =>
      have : tfs = [] := by simpa [reifyFields] using hr.symm
      subst this
      exact List.Forall₂.nil
    | cons p r =>
      rcases p with ⟨k, w⟩
      rw [reifyFields] at hr
      cases hx : reifyVal h f0 seen w with
      | none => rw [hx] at hr; exact absurd hr (by simp)
      | some j =>
        cases hrest : reifyFields h f0 seen r with
        | none => rw [hx, hrest] at hr; exact absurd hr (by simp)
        | some js =>
          rw [hx, hrest] at hr
          have : (k, j) :: js = tfs := by simpa using hr
          subst this
          refine List.Forall₂.cons ⟨rfl, f0, by omega, hx⟩ ?_
          refine (ih seen r js hrest).imp ?_
          intro p q hpq
          obtain ⟨hk2, f2, hf2, hr2⟩ := hpq
          exact ⟨hk2, f2, by omega, hr2⟩

theorem reify_scalar_norm (h : Heap) (f : Nat) (seen : List Nat) (root : Bool)
    (v : JVal) (t : Json) (hnotref : ∀ a, v ≠ JVal.ref a)
    (hr : reifyVal h f seen v = some t) :
    ∀ g2, normVal h g2 seen root v = some (normalizeTree root t) := by
  intro g2
  cases v with
  | null =>
    have : t = Json.null := by simpa [reifyVal] using hr.symm
    subst this
    simp [normVal, normalizeTree]
  | bool b =>
    have : t = Json.bool b := by simpa [reifyVal] using hr.symm
    subst this
    simp [normVal, normalizeTree]
  | num m =>
    have : t = Json.num m := by simpa [reifyVal] using hr.symm
    subst this
    simp [normVal, normalizeTree]
  | str s2 =>
    have : t = Json.str s2 := by simpa [reifyVal] using hr.symm
    subst this
    simp [normVal, normalizeTree]
  | ref a => exact absurd rfl (hnotref a)

theorem corr_fields_norm (h : Heap) (n : Nat)
    (HV : ∀ f seen root v t, f ≤ n → reifyVal h f seen v = some t →
      ∃ g, ∀ g2, g ≤ g2 → normVal h g2 seen root v = some (normalizeTree root t)) :
    ∀ (seen : List Nat) (fs : List (String × JVal))
      (tfs : List (String × Json)),
      List.Forall₂ (fun p q => p.1 = q.1 ∧
        ∃ f2, f2 ≤ n ∧ reifyVal h f2 seen p.2 = some q.2) fs tfs →
      ∃ g, ∀ g2, g ≤ g2 → normValFields h g2 seen fs =
        some (tfs.map (fun q => (q.1, normalizeTree false q.2))) := by
  intro seen fs tfs hcorr
  induction hcorr with
  | nil => exact ⟨0, fun g2 _ => by simp [normValFields]⟩
  | cons hpq hrest ihc =>
    rename_i p q fs2 tfs2
    obtain ⟨hkeq, f2, hf2, hr2⟩ := hpq
    obtain ⟨gv, hgv⟩ := HV f2 seen false p.2 q.2 hf2 hr2
    obtain ⟨g1, hg1⟩ := ihc
    refine ⟨gv + g1 + 1, fun g2 hg2 => ?_⟩
    obtain ⟨g3, rfl⟩ : ∃ g3, g2 = g3 + 1 := ⟨g2 - 1, by omega⟩
    rcases p with ⟨k, w⟩
    rw [normValFields, hgv g3 (by omega), hg1 g3 (by omega)]
    have hk3 : k = q.1 := hkeq
    rw [hk3]
    rfl

theorem reify_normVal_bound (h : Heap) : ∀ n : Nat,
    (∀ f seen root v t, f ≤ n → reifyVal h f seen v = some t →
      ∃ g, ∀ g2, g ≤ g2 →
        normVal h g2 seen root v = some (normalizeTree root t)) ∧
    (∀ f seen l ts, f ≤ n → reifyList h f seen l = some ts →
      ∃ g, ∀ g2, g ≤ g2 → normValList h g2 seen l =
        some (ts.map (normalizeTree false))) ∧
    (∀ (seen : List Nat) (fs : List (String × JVal))
        (tfs : List (String × Json)),
      List.Forall₂ (fun p q => p.1 = q.1 ∧
        ∃ f2, f2 ≤ n ∧ reifyVal h f2 seen p.2 = some q.2) fs tfs →
      ∃ g, ∀ g2, g ≤ g2 → normValFields h g2 seen fs =
        some (tfs.map (fun q => (q.1, normalizeTree false q.2)))) := by
  intro n
  induction n with
  | zero =>
    have hval : ∀ f seen root v t, f ≤ 0 → reifyVal h f seen v = some t →
        ∃ g, ∀ g2, g ≤ g2 →
          normVal h g2 seen root v = some (normalizeTree root t) := by
      intro f seen root v t hf hr
      have hf0 : f = 0 := by omega
      subst hf0
      refine ⟨0, fun g2 _ => reify_scalar_norm h 0 seen root v t ?_ hr g2⟩
      intro a hv
      rw [hv] at hr
      simp [reifyVal] at hr
    refine ⟨hval, ?_, corr_fields_norm h 0 hval⟩
    intro f seen l ts hf hr
    have hf0 : f = 0 := by omega
    subst hf0
    cases l with
    | nil =>
      have : ts = [] := by simpa [reifyList] using hr.symm
      subst this
      exact ⟨0, fun g2 _ => by simp [normValList]⟩
    | cons x r => exact absurd hr (by simp [reifyList])
  | succ n ih =>
    have hval : ∀ f seen root v t, f ≤ n + 1 → reifyVal h f seen v = some t →
        ∃ g, ∀ g2, g ≤ g2 →
          normVal h g2 seen root v = some (normalizeTree root t) := by
      intro f seen root v t hf hr
      cases f with
      | zero =>
        refine ⟨0, fun g2 _ => reify_scalar_norm h 0 seen root v t ?_ hr g2⟩
        intro a hv
        rw [hv] at hr
        simp [reifyVal] at hr
      | succ f0 =>
        cases v with
        | null =>
          exact ⟨0, fun g2 _ => reify_scalar_norm h (f0 + 1) seen root _ t
            (fun a hv => JVal.noConfusion hv) hr g2⟩
        | bool b =>
          exact ⟨0, fun g2 _ => reify_scalar_norm h (f0 + 1) seen root _ t
            (fun a hv => JVal.noConfusion hv) hr g2⟩
        | num m =>
          exact ⟨0, fun g2 _ => reify_scalar_norm h (f0 + 1) seen root _ t
            (fun a hv => JVal.noConfusion hv) hr g2⟩
        | str s2 =>
          exact ⟨0, fun g2 _ => reify_scalar_norm h (f0 + 1) seen root _ t
            (fun a hv => JVal.noConfusion hv) hr g2⟩
        | ref a =>
          rw [reifyVal] at hr
          by_cases ha : a ∈ seen
          · rw [if_pos ha] at hr
            exact absurd hr (by simp)
          · rw [if_neg ha] at hr
            cases hget : h.get? a with
            | none =>
              rw [hget] at hr
              exact absurd hr (by simp)
            | some o =>
              rw [hget] at hr
              cases o with
              | arr items =>
                rcases Option.map_eq_some'.mp hr with ⟨ts, hts, rfl⟩
                obtain ⟨g1, hg1⟩ := ih.2.1 f0 (a :: seen) items ts (by omega) hts
                refine ⟨g1 + 1, fun g2 hg2 => ?_⟩
                obtain ⟨g3, rfl⟩ : ∃ g3, g2 = g3 + 1 := ⟨g2 - 1, by omega⟩
                rw [normVal, if_neg ha, hget]
                show Option.map Json.arr (normValList h g3 (a :: seen) items) =
                  some (normalizeTree root (Json.arr ts))
                rw [hg1 g3 (by omega)]
                simp [normalizeTree, normalizeTreeList_eq]
              | record fields =>
                rcases Option.map_eq_some'.mp hr with ⟨tfs, htfs, rfl⟩
                have hcorr : List.Forall₂ (fun p q => p.1 = q.1 ∧
                    ∃ f2, f2 ≤ n ∧ reifyVal h f2 (a :: seen) p.2 = some q.2)
                    fields tfs := by
                  refine (reifyFields_corr h f0 (a :: seen) fields tfs htfs).imp ?_
                  intro p q hpq
                  obtain ⟨hk2, f2, hf2, hr2⟩ := hpq
                  exact ⟨hk2, f2, by omega, hr2⟩
                have hcorr2 : List.Forall₂ (fun p q => p.1 = q.1 ∧
                    ∃ f2, f2 ≤ n ∧ reifyVal h f2 (a :: seen) p.2 = some q.2)
                    (if root then dropDocFields fields else fields)
                    (if root then dropDocFields tfs else tfs) := by
                  cases root with
                  | false => exact hcorr
                  | true =>
                    exact forall₂_keys_filter _ (fun p q hpq => hpq.1)
                      (fun k => decide (k ≠ "description" ∧ k ≠ "summary")) hcorr
                have hcorr3 := forall₂_sortFields _ (fun p q hpq => hpq.1) hcorr2
                obtain ⟨g1, hg1⟩ := ih.2.2 (a :: seen) _ _ hcorr3
                refine ⟨g1 + 1, fun g2 hg2 => ?_⟩
                obtain ⟨g3, rfl⟩ : ∃ g3, g2 = g3 + 1 := ⟨g2 - 1, by omega⟩
                rw [normVal, if_neg ha, hget]
                show Option.map Json.obj (normValFields h g3 (a :: seen)
                    (sortFields (if root then dropDocFields fields else fields))) =
                  some (normalizeTree root (Json.obj tfs))
                rw [hg1 g3 (by omega), map_snd_sortFields,
                  normalizeTree_obj, normalizeTreeFields_eq]
                rfl
    refine ⟨hval, ?_, corr_fields_norm h (n + 1) hval⟩
    intro f seen l ts hf hr
    cases l with
    | nil =>
      have : ts = [] := by
        cases f <;> simpa [reifyList] using hr.symm
      subst this
      exact ⟨0, fun g2 _ => by simp [normValList]⟩
    | cons x r =>
      cases f with
      | zero => exact absurd hr (by simp [reifyList])
      | succ f0 =>
        rw [reifyList] at hr
        cases hx : reifyVal h f0 seen x with
        | none => rw [hx] at hr; exact absurd hr (by simp)
        | some j =>
          cases hrest : reifyList h f0 seen r with
          | none => rw [hx, hrest] at hr; exact absurd hr (by simp)
          | some js =>
            rw [hx, hrest] at hr
            have : j :: js = ts := by simpa using hr
            subst this
            obtain ⟨g1, hg1⟩ := ih.1 f0 seen false x j (by omega) hx
            obtain ⟨g2l, hg2l⟩ := ih.2.1 f0 seen r js (by omega) hrest
            refine ⟨g1 + g2l + 1, fun G hG => ?_⟩
            obtain ⟨g3, rfl⟩ : ∃ g3, G = g3 + 1 := ⟨G - 1, by omega⟩
            rw [normValList, hg1 g3 (by omega), hg2l g3 (by omega)]
            rfl

theorem reify_normVal (h : Heap) (f : Nat) (seen : List Nat) (root : Bool)
    (v : JVal) (t : Json) (hr : reifyVal h f seen v = some t) :
    ∃ g, ∀ g2, g ≤ g2 →
      normVal h g2 seen root v = some (normalizeTree root t) :=
  (reify_normVal_bound h f).1 f seen root v t le_rfl hr

theorem normVal_reify_det (h : Heap) (f g : Nat) (seen : List Nat)
    (root : Bool) (v : JVal) (t u : Json)
    (hr : reifyVal h f seen v = some t)
    (hn : normVal h g seen root v = some u) : u = normalizeTree root t := by
  obtain ⟨g1, hg1⟩ := reify_normVal h f seen root v t hr
  have h1 := normVal_mono h g seen root v u (max g g1) hn (le_max_left g g1)
  have h2 := hg1 (max g g1) (le_max_right g g1)
  rw [h1] at h2
  exact Option.some.inj h2

/-- Claim C10: `normalizeForFingerprint` emits the `"[Circular]"` sentinel
only for true back edges, and sharing does not affect the fingerprint:
(i) a reference to an address on the current traversal path normalizes to
the sentinel; (ii) a value that is acyclic relative to the current path —
its readback `reifyVal` succeeds, which in particular holds at every
non-ancestor occurrence of an object shared by identity — is fully
expanded: it normalizes to the normalization of its readback tree, so both
occurrences of a shared subtree are expanded exactly like duplicated
copies; (iii) consequently two heaps whose roots read back to the same
tree — e.g. one sharing a subtree by reference and one duplicating it —
have equal fingerprints whenever both are defined. -/
theorem C10_circular_only_back_edges :
    (∀ (h : Heap) (fuel : Nat) (seen : List Nat) (root : Bool) (a : Nat),
      a ∈ seen →
      normVal h fuel seen root (JVal.ref a) = some (Json.str "[Circular]")) ∧
    (∀ (h : Heap) (f : Nat) (seen : List Nat) (root : Bool) (v : JVal)
        (t : Json), reifyVal h f seen v = some t →
      ∃ g, ∀ g2, g ≤ g2 →
        normVal h g2 seen root v = some (normalizeTree root t)) ∧
    (∀ (h1 h2 : Heap) (f1 f2 r1 r2 : Nat) (t : Json) (g1 g2 : Nat)
        (s1 s2 : String),
      reifyVal h1 f1 [] (JVal.ref r1) = some t →
      reifyVal h2 f2 [] (JVal.ref r2) = some t →
      createSchemaFingerprint h1 g1 r1 = some s1 →
      createSchemaFingerprint h2 g2 r2 = some s2 →
      s1 = s2) := by
  refine ⟨?_, ?_, ?_⟩
  · intro h fuel seen root a ha
    cases fuel with
    | zero => rw [normVal, if_pos ha]
    | succ fuel => rw [normVal, if_pos ha]
  · intro h f seen root v t hr
    exact reify_normVal h f seen root v t hr
  · intro h1 h2 f1 f2 r1 r2 t g1 g2 s1 s2 hr1 hr2 hs1 hs2
    unfold createSchemaFingerprint at hs1 hs2
    rcases Option.map_eq_some'.mp hs1 with ⟨u1, hu1, rfl⟩
    rcases Option.map_eq_some'.mp hs2 with ⟨u2, hu2, rfl⟩
    rw [normVal_reify_det h1 f1 g1 [] true (JVal.ref r1) t u1 hr1 hu1,
      normVal_reify_det h2 f2 g2 [] true (JVal.ref r2) t u2 hr2 hu2]

/-- Witness for `C10_circular_only_back_edges`: a self-referential address
on the path yields the sentinel, and a heap whose root shares one record at
two fields has the same fingerprint as a heap in which that record is
duplicated. -/
theorem C10_circular_only_back_edges_witness :
    normVal [JObj.record [("self", JVal.ref 0)]] 5 [0] false (JVal.ref 0) =
      some (Json.str "[Circular]") ∧
    createSchemaFingerprint
        [JObj.record [("a", JVal.ref 1), ("b", JVal.ref 1)],
          JObj.record [("x", JVal.str "1")]] 10 0 =
      createSchemaFingerprint
        [JObj.record [("a", JVal.ref 1), ("b", JVal.ref 2)],
          JObj.record [("x", JVal.str "1")],
          JObj.record [("x", JVal.str "1")]] 10 0 := by
  constructor
  · exact C10_circular_only_back_edges.1 _ 5 [0] false 0 (by decide)
  · have h1 : reifyVal
        [JObj.record [("a", JVal.ref 1), ("b", JVal.ref 1)],
          JObj.record [("x", JVal.str "1")]] 5 [] (JVal.ref 0) =
        some (Json.obj [("a", Json.obj [("x", Json.str "1")]),
          ("b", Json.obj [("x", Json.str "1")])]) := rfl
    have h2 : reifyVal
        [JObj.record [("a", JVal.ref 1), ("b", JVal.ref 2)],
          JObj.record [("x", JVal.str "1")],
          JObj.record [("x", JVal.str "1")]] 5 [] (JVal.ref 0) =
        some (Json.obj [("a", Json.obj [("x", Json.str "1")]),
          ("b", Json.obj [("x", Json.str "1")])]) := rfl
    have e1 : createSchemaFingerprint
        [JObj.record [("a", JVal.ref 1), ("b", JVal.ref 1)],
          JObj.record [("x", JVal.str "1")]] 10 0 =
        some "\x7b\"a\":\x7b\"x\":\"1\"\x7d,\"b\":\x7b\"x\":\"1\"\x7d\x7d" := rfl
    have e2 : createSchemaFingerprint
        [JObj.record [("a", JVal.ref 1), ("b", JVal.ref 2)],
          JObj.record [("x", JVal.str "1")],
          JObj.record [("x", JVal.str "1")]] 10 0 =
        some "\x7b\"a\":\x7b\"x\":\"1\"\x7d,\"b\":\x7b\"x\":\"1\"\x7d\x7d" := rfl
    have hs := C10_circular_only_back_edges.2.2 _ _ 5 5 0 0 _ 10 10 _ _
      h1 h2 e1 e2
    rw [e1, e2]

/-! #### Registry lemmas -/

theorem uniqueNameLoop_shape (base : String) (N : List String) :
    ∀ (fuel i : Nat) (u : String), u = base ∨ (∃ k, u = suffixedName base k) →
      uniqueNameLoop base N fuel u i = base ∨
        ∃ k, uniqueNameLoop base N fuel u i = suffixedName base k := by
  intro fuel
  induction fuel with
  | zero => intro i u hu; exact hu
  | succ fuel ih =>
    intro i u hu
    rw [uniqueNameLoop]
    by_cases hm : u ∈ N
    · rw [if_pos hm]
      exact ih (i + 1) _ (Or.inr ⟨i, rfl⟩)
    · rw [if_neg hm]
      exact hu

theorem uniqueNameLoop_result_not_mem (base : String) (N : List String) :
    ∀ (fuel i : Nat) (u : String), u ∈ N → 2 ≤ i →
      (∀ j, 2 ≤ j → j < i → suffixedName base j ∈ N) →
      N.length + 3 ≤ i + fuel →
      uniqueNameLoop base N fuel u i ∉ N := by
  intro fuel
  induction fuel with
  | zero =>
    intro i u hu hi hall hlen
    exfalso
    obtain ⟨k, hk2, hklt, hkfree, _⟩ := exists_least_suffix_not_mem base N
    exact hkfree (hall k hk2 (by omega))
  | succ fuel ih =>
    intro i u hu hi hall hlen
    rw [uniqueNameLoop, if_pos hu]
    by_cases hm : suffixedName base i ∈ N
    · refine ih (i + 1) _ hm (by omega) ?_ (by omega)
      intro j hj1 hj2
      by_cases hji : j = i
      · subst hji; exact hm
      · exact hall j hj1 (by omega)
    · rw [uniqueNameLoop_not_mem base N fuel (i + 1) _ hm]
      exact hm

theorem createUniqueSchemaName_spec (b : String) (N : List String) :
    (createUniqueSchemaName b N).1 ∉ N ∧
    (createUniqueSchemaName b N).2 = N ++ [(createUniqueSchemaName b N).1] ∧
    ((createUniqueSchemaName b N).1 = (if b = "" then "Schema" else b) ∨
      ∃ k, (createUniqueSchemaName b N).1 =
        suffixedName (if b = "" then "Schema" else b) k) := by
  by_cases hm : (if b = "" then "Schema" else b) ∈ N
  · have hnotmem := uniqueNameLoop_result_not_mem (if b = "" then "Schema" else b)
      N (N.length + 1) 2 _ hm (le_refl 2) (fun j h1 h2 => by omega) (by omega)
    have hshape := uniqueNameLoop_shape (if b = "" then "Schema" else b) N
      (N.length + 1) 2 _ (Or.inl rfl)
    refine ⟨?_, ?_, ?_⟩
    · simpa [createUniqueSchemaName] using hnotmem
    · simp only [createUniqueSchemaName]
      rw [if_neg hnotmem]
    · simpa [createUniqueSchemaName] using hshape
  · have hloop := uniqueNameLoop_not_mem (if b = "" then "Schema" else b) N
      (N.length + 1) 2 _ hm
    refine ⟨?_, ?_, ?_⟩
    · simp only [createUniqueSchemaName]
      rw [hloop]
      exact hm
    · simp only [createUniqueSchemaName]
      rw [hloop, if_neg hm]
    · simp only [createUniqueSchemaName]
      rw [hloop]
      exact Or.inl rfl

theorem percent_not_mem_natDecimal (k : Nat) : '%' ∉ (natDecimal k).toList := by
  intro hm
  rw [natDecimal, List.toList_asString] at hm
  have := natDigitsRevF_all_digits (k + 1) k '%' (List.mem_reverse.mp hm)
  exact absurd this (by decide)

theorem percent_not_mem_suffixedName (b : String) (hb : '%' ∉ b.toList)
    (k : Nat) : '%' ∉ (suffixedName b k).toList := by
  intro hm
  rw [suffixedName] at hm
  have hm2 : '%' ∈ (b ++ "_" ++ natDecimal k).data := hm
  rw [String.data_append, String.data_append] at hm2
  rcases List.mem_append.mp hm2 with h2 | h2
  · rcases List.mem_append.mp h2 with h3 | h3
    · exact hb h3
    · exact absurd h3 (by decide)
  · exact percent_not_mem_natDecimal k h2

theorem createUniqueSchemaName_percent_free (b : String) (N : List String)
    (hb : '%' ∉ b.toList) : '%' ∉ (createUniqueSchemaName b N).1.toList := by
  obtain ⟨_, _, hshape⟩ := createUniqueSchemaName_spec b N
  have hsb : '%' ∉ (if b = "" then "Schema" else b).toList := by
    by_cases hbe : b = ""
    · rw [if_pos hbe]; decide
    · rw [if_neg hbe]; exact hb
  rcases hshape with he | ⟨k, he⟩
  · rw [he]; exact hsb
  · rw [he]; exact percent_not_mem_suffixedName _ hsb k

theorem not_mem_replaceCharL_self (c : Char) (r : List Char) (hc : c ∉ r) :
    ∀ l, c ∉ replaceCharL c r l := by
  intro l
  induction l with
  | nil => simp [replaceCharL]
  | cons x xs ih =>
    rw [replaceCharL]
    split
    · intro hm
      rcases List.mem_append.mp hm with h2 | h2
      · exact hc h2
      · exact ih h2
    · rename_i hx
      intro hm
      rcases List.mem_cons.mp hm with he | h2
      · exact hx he.symm
      · exact ih h2

theorem encode_no_slash (t : String) :
    '/' ∉ (encodeJsonPointerToken t).toList := by
  rw [encodeJsonPointerToken, List.toList_asString]
  exact not_mem_replaceCharL_self '/' ['~', '1'] (by decide) _

theorem splitOnChar_no_sep (c : Char) : ∀ l : List Char, c ∉ l →
    splitOnChar c l = [l] := by
  intro l
  induction l with
  | nil => intro _; rfl
  | cons x xs ih =>
    intro hm
    have hx : ¬x = c := fun he => hm (he ▸ List.mem_cons_self x xs)
    rw [splitOnChar, ih (fun h2 => hm (List.mem_cons_of_mem x h2))]
    simp [hx]

theorem splitOnChar_ne_nil (c : Char) : ∀ l : List Char,
    splitOnChar c l ≠ [] := by
  intro l
  cases l with
  | nil => simp [splitOnChar]
  | cons x xs =>
    rw [splitOnChar]
    cases hs : splitOnChar c xs with
    | nil => simp
    | cons g gs => by_cases hxc : x = c <;> simp [hxc]

theorem splitOnChar_append (c : Char) : ∀ (l1 l2 : List Char), c ∉ l1 →
    splitOnChar c (l1 ++ c :: l2) = l1 :: splitOnChar c l2 := by
  intro l1
  induction l1 with
  | nil =>
    intro l2 _
    rw [List.nil_append, splitOnChar]
    cases hs : splitOnChar c l2 with
    | nil => exact absurd hs (splitOnChar_ne_nil c l2)
    | cons g gs => simp
  | cons x xs ih =>
    intro l2 hm
    have hx : ¬x = c := fun he => hm (he ▸ List.mem_cons_self x xs)
    rw [List.cons_append, splitOnChar,
      ih l2 (fun h2 => hm (List.mem_cons_of_mem x h2))]
    simp [hx]

theorem getFieldL_mem_keys {fs : List (String × JVal)} {k : String} {v : JVal}
    (h : getFieldL fs k = some v) : k ∈ fs.map Prod.fst := by
  rw [getFieldL] at h
  rcases Option.map_eq_some'.mp h with ⟨p, hp, rfl⟩
  have hmem := List.mem_of_find?_eq_some hp
  have hpred := List.find?_some hp
  have hk : p.1 = k := by simpa using hpred
  exact hk ▸ List.mem_map_of_mem Prod.fst hmem

theorem getFieldL_append_of_some {fs : List (String × JVal)} {k : String}
    {v : JVal} (h : getFieldL fs k = some v) (l2 : List (String × JVal)) :
    getFieldL (fs ++ l2) k = some v := by
  rw [getFieldL] at h ⊢
  rcases Option.map_eq_some'.mp h with ⟨p, hp, rfl⟩
  rw [List.find?_append, hp]
  rfl

theorem getFieldL_append_fresh {fs : List (String × JVal)} {k : String}
    (h : k ∉ fs.map Prod.fst) (v : JVal) :
    getFieldL (fs ++ [(k, v)]) k = some v := by
  rw [getFieldL, List.find?_append]
  have hnone : fs.find? (fun p => p.1 == k) = none := by
    rw [List.find?_eq_none]
    intro p hp hpred
    have : p.1 = k := by simpa using hpred
    exact h (this ▸ List.mem_map_of_mem Prod.fst hp)
  rw [hnone]
  simp [List.find?]

theorem getFieldL_of_nodup :
    ∀ (fs : List (String × JVal)) (k : String) (v : JVal),
      (fs.map Prod.fst).Nodup → (k, v) ∈ fs → getFieldL fs k = some v := by
  intro fs
  induction fs with
  | nil => simp
  | cons p r ih =>
    rcases p with ⟨pk, pv⟩
    intro k v hnd hmem
    rw [List.map_cons, List.nodup_cons] at hnd
    rcases List.mem_cons.mp hmem with he | hmem2
    · rw [(Prod.mk.injEq _ _ _ _).mp he.symm |>.1,
        (Prod.mk.injEq _ _ _ _).mp he.symm |>.2]
      simp [getFieldL, List.find?]
    · have hne : ¬pk = k := by
        intro he
        refine hnd.1 ?_
        rw [he]
        exact List.mem_map.mpr ⟨(k, v), hmem2, rfl⟩
      rw [getFieldL, List.find?]
      have : ((pk, pv).1 == k) = false := by
        simp
        intro he
        exact hne he
      rw [this]
      exact ih k v hnd.2 hmem2

theorem lookupAddr_append_fresh {m : List (Nat × String)} {a : Nat}
    (h : lookupAddr m a = none) (p : String) :
    lookupAddr (m ++ [(a, p)]) a = some p := by
  rw [lookupAddr] at h ⊢
  rw [List.find?_append]
  have : m.find? (fun q => q.1 == a) = none := by
    cases hf : m.find? (fun q => q.1 == a) with
    | none => rfl
    | some q => rw [hf] at h; exact absurd h (by simp)
  rw [this]
  simp [List.find?]

theorem heapGetField_inv {h : Heap} {a : Nat} {k : String} {v : JVal}
    (he : heapGetField h a k = some v) :
    ∃ fs, h.get? a = some (JObj.record fs) ∧ getFieldL fs k = some v := by
  rw [heapGetField] at he
  cases hg : h.get? a with
  | none => rw [hg] at he; exact absurd he (by simp)
  | some o =>
    rw [hg] at he
    cases o with
    | arr items => exact absurd he (by simp)
    | record fs => exact ⟨fs, rfl, he⟩

theorem heapGetField_eq {h : Heap} {a : Nat} {fs}
    (hg : h.get? a = some (JObj.record fs)) (k : String) :
    heapGetField h a k = getFieldL fs k := by
  rw [heapGetField, hg]

theorem recordKeys_eq {h : Heap} {a : Nat} {fs}
    (hg : h.get? a = some (JObj.record fs)) :
    recordKeys h a = fs.map Prod.fst := by
  rw [recordKeys, hg]

theorem heapGetField_setField_ne {h : Heap} {a : Nat} (k : String) (v : JVal)
    {x : Nat} (k2 : String) (hne : x ≠ a) :
    heapGetField (heapSetField h a k v) x k2 = heapGetField h x k2 := by
  rw [heapSetField]
  cases hg : h.get? a with
  | none => rfl
  | some o =>
    cases o with
    | arr items => rfl
    | record fs =>
      rw [heapGetField, heapGetField,
        List.get?_set_ne _ _ (Ne.symm hne)]

theorem heapSetField_get_self {h : Heap} {a : Nat} {fs}
    (hg : h.get? a = some (JObj.record fs)) (k : String) (v : JVal) :
    (heapSetField h a k v).get? a = some (JObj.record (setFieldL fs k v)) := by
  rw [heapSetField, hg]
  have hlt : a < h.length := by
    by_contra hge
    rw [List.get?_eq_none.mpr (by omega)] at hg
    exact absurd hg (by simp)
  exact List.get?_set_eq_of_lt _ hlt

theorem getFieldL_eq_none {fs : List (String × JVal)} {k : String}
    (h : k ∉ fs.map Prod.fst) : getFieldL fs k = none := by
  have hnone : fs.find? (fun p => p.1 == k) = none := by
    rw [List.find?_eq_none]
    intro p hp hpred
    have : p.1 = k := by simpa using hpred
    exact h (this ▸ List.mem_map_of_mem Prod.fst hp)
  rw [getFieldL, hnone]
  rfl

theorem setFieldL_fresh {fs : List (String × JVal)} {k : String}
    (h : k ∉ fs.map Prod.fst) (v : JVal) :
    setFieldL fs k v = fs ++ [(k, v)] := by
  rw [setFieldL, getFieldL_eq_none h]
  rfl

theorem resolveTokens_step_record {h : Heap} {a : Nat} {fs}
    (hg : h.get? a = some (JObj.record fs)) {tok : String} {v2 : JVal}
    (hf : getFieldL fs tok = some v2) (rest : List String) :
    resolveTokens h (tok :: rest) (JVal.ref a) = resolveTokens h rest v2 := by
  rw [resolveTokens, hg]
  show (match getFieldL fs tok with
    | some v3 => resolveTokens h rest v3
    | none => none) = resolveTokens h rest v2
  rw [hf]

theorem resolve_component_pointer {h : Heap} {rootA cA sA : Nat}
    (hc : heapGetField h rootA "components" = some (JVal.ref cA))
    (hs : heapGetField h cA "schemas" = some (JVal.ref sA))
    {name : String} (hp : '%' ∉ name.toList) {v : JVal}
    (hv : heapGetField h sA name = some v) :
    resolveLocalPointer h rootA
      ("#/components/schemas/" ++ encodeJsonPointerToken name) = some v := by
  obtain ⟨rootFs, hgr, hfr⟩ := heapGetField_inv hc
  obtain ⟨cFs, hgc, hfc⟩ := heapGetField_inv hs
  obtain ⟨sFs, hgs, hfs⟩ := heapGetField_inv hv
  rw [resolveLocalPointer]
  rw [if_neg ?hne]
  case hne =>
    intro he
    have hlen := congrArg String.length he
    rw [String.length_append] at hlen
    have h21 : ("#/components/schemas/" : String).length = 21 := by decide
    have h1 : ("#" : String).length = 1 := by decide
    omega
  have hdata : ("#/components/schemas/" ++ encodeJsonPointerToken name).toList =
      '#' :: '/' :: ("components".toList ++ '/' ::
        ("schemas".toList ++ '/' :: (encodeJsonPointerToken name).toList)) := by
    show ("#/components/schemas/" ++ encodeJsonPointerToken name).data = _
    rw [String.data_append]
    have hlit : ("#/components/schemas/" : String).data =
        '#' :: '/' :: ("components".toList ++ '/' ::
          ("schemas".toList ++ ['/'])) := by decide
    rw [hlit]
    simp
  rw [hdata]
  show resolveTokens h
    ((splitOnChar '/' ("components".toList ++ '/' ::
      ("schemas".toList ++ '/' :: (encodeJsonPointerToken name).toList))).map
      (fun tks => decodeJsonPointerToken tks.asString)) (JVal.ref rootA) =
    some v
  rw [splitOnChar_append '/' _ _ (by decide),
    splitOnChar_append '/' _ _ (by decide),
    splitOnChar_no_sep '/' _ (encode_no_slash name)]
  rw [List.map_cons, List.map_cons, List.map_cons, List.map_nil]
  have hd1 : decodeJsonPointerToken ("components".toList.asString) =
      "components" := by decide
  have hd2 : decodeJsonPointerToken ("schemas".toList.asString) =
      "schemas" := by decide
  have hd3 : decodeJsonPointerToken
      ((encodeJsonPointerToken name).toList.asString) = name := by
    show decodeJsonPointerToken
      ((encodeJsonPointerToken name).data.asString) = name
    rw [data_asString]
    exact decode_encode_token name hp
  rw [hd1, hd2, hd3]
  rw [resolveTokens_step_record hgr hfr, resolveTokens_step_record hgc hfc,
    resolveTokens_step_record hgs hfs]
  rfl

theorem createSchemaRegistry_inv {h : Heap} {rootA : Nat} {h' : Heap}
    {reg : SchemaRegistry}
    (he : createSchemaRegistry h rootA = some (h', reg)) :
    ∃ sFs, h'.get? reg.componentSchemasAddr = some (JObj.record sFs) ∧
      reg.schemaNames = sFs.map Prod.fst ∧
      reg.schemaPointersByValue = sFs.filterMap (fun p =>
        match p.2 with
        | JVal.ref a =>
          some (a, "#/components/schemas/" ++ encodeJsonPointerToken p.1)
        | _ => none) := by
  rw [createSchemaRegistry] at he
  cases h1 : ensureFieldRecord h rootA "components" with
  | none => rw [h1] at he; exact absurd he (by simp)
  | some p1 =>
    rw [h1] at he
    obtain ⟨h1', cA⟩ := p1
    dsimp only at he
    cases h2 : ensureFieldRecord h1' cA "schemas" with
    | none => rw [h2] at he; exact absurd he (by simp)
    | some p2 =>
      rw [h2] at he
      obtain ⟨h2', sA⟩ := p2
      dsimp only at he
      cases h3 : h2'.get? sA with
      | none => rw [h3] at he; exact absurd he (by simp)
      | some o =>
        rw [h3] at he
        cases o with
        | arr items => exact absurd he (by simp)
        | record sFs =>
          have he2 := Option.some.inj he
          have hh : h2' = h' := congrArg Prod.fst he2
          have hreg := congrArg Prod.snd he2
          subst hh
          subst hreg
          exact ⟨sFs, h3, rfl, rfl⟩

theorem regInv_init {h h' : Heap} {reg : SchemaRegistry} {rootA cA : Nat}
    (he : createSchemaRegistry h rootA = some (h', reg))
    (hd1 : rootA ≠ reg.componentSchemasAddr)
    (hd2 : cA ≠ reg.componentSchemasAddr)
    (hc : heapGetField h' rootA "components" = some (JVal.ref cA))
    (hs : heapGetField h' cA "schemas" =
      some (JVal.ref reg.componentSchemasAddr))
    (hnd : (recordKeys h' reg.componentSchemasAddr).Nodup)
    (hpf : ∀ n ∈ reg.schemaNames, '%' ∉ n.toList) :
    RegInv h' rootA reg := by
  obtain ⟨sFs, hgs, hnames, hmap⟩ := createSchemaRegistry_inv he
  refine ⟨⟨cA, hd1, hd2, hc, hs⟩, ⟨sFs, hgs⟩, hpf, ?_, ?_⟩
  · intro k hk
    rw [recordKeys_eq hgs] at hk
    rw [hnames]
    exact hk
  · intro ap hap
    rw [hmap] at hap
    rcases List.mem_filterMap.mp hap with ⟨p, hpmem, hpe⟩
    cases hv : p.2 with
    | ref a2 =>
      rw [hv] at hpe
      have hape : ap =
          (a2, "#/components/schemas/" ++ encodeJsonPointerToken p.1) :=
        (Option.some.inj hpe).symm
      refine ⟨p.1, ?_, ?_, ?_⟩
      · apply hpf
        rw [hnames]
        exact List.mem_map_of_mem Prod.fst hpmem
      · rw [hape]
      · rw [hape, heapGetField_eq hgs]
        refine getFieldL_of_nodup sFs p.1 (JVal.ref a2) ?_ ?_
        · rw [← recordKeys_eq hgs]
          exact hnd
        · rw [← hv]
          exact hpmem
    | null => rw [hv] at hpe; exact absurd hpe (by simp)
    | bool b => rw [hv] at hpe; exact absurd hpe (by simp)
    | num n => rw [hv] at hpe; exact absurd hpe (by simp)
    | str s2 => rw [hv] at hpe; exact absurd hpe (by simp)

theorem regInv_step {h h' : Heap} {reg reg' : SchemaRegistry} {rootA addr : Nat}
    {name p : String} (hinv : RegInv h rootA reg) (hpf : '%' ∉ name.toList)
    (he : registerSchemaInComponents h reg addr name = (h', reg', p)) :
    RegInv h' rootA reg' := by
  obtain ⟨⟨cA, hd1, hd2, hc, hs⟩, ⟨sFs, hgs⟩, hnamesPF, hkeys, hptrs⟩ := hinv
  rw [registerSchemaInComponents] at he
  cases hl : lookupAddr reg.schemaPointersByValue addr with
  | some p0 =>
    rw [hl] at he
    have hh : h = h' := congrArg Prod.fst he
    have hr : reg = reg' := congrArg (fun t => t.2.1) he
    subst hh
    subst hr
    exact ⟨⟨cA, hd1, hd2, hc, hs⟩, ⟨sFs, hgs⟩, hnamesPF, hkeys, hptrs⟩
  | none =>
    rw [hl] at he
    obtain ⟨hufree, hnames2, _⟩ := createUniqueSchemaName_spec name reg.schemaNames
    have hh : h' = heapSetField h reg.componentSchemasAddr
        (createUniqueSchemaName name reg.schemaNames).1 (JVal.ref addr) :=
      (congrArg Prod.fst he).symm
    have hr : reg' = ⟨(createUniqueSchemaName name reg.schemaNames).2,
        reg.schemaPointersByValue ++ [(addr, "#/components/schemas/" ++
          encodeJsonPointerToken (createUniqueSchemaName name reg.schemaNames).1)],
        reg.componentSchemasAddr⟩ := (congrArg (fun t => t.2.1) he).symm
    subst hh
    subst hr
    have hupf : '%' ∉ (createUniqueSchemaName name reg.schemaNames).1.toList :=
      createUniqueSchemaName_percent_free name _ hpf
    have hukey : (createUniqueSchemaName name reg.schemaNames).1 ∉
        sFs.map Prod.fst := by
      intro hmem
      exact hufree (hkeys _ ((recordKeys_eq hgs).symm ▸ hmem))
    have hget2 := heapSetField_get_self hgs
      (createUniqueSchemaName name reg.schemaNames).1 (JVal.ref addr)
    rw [setFieldL_fresh hukey] at hget2
    refine ⟨⟨cA, hd1, hd2, ?_, ?_⟩, ⟨_, hget2⟩, ?_, ?_, ?_⟩
    · rw [heapGetField_setField_ne _ _ _ hd1]
      exact hc
    · rw [heapGetField_setField_ne _ _ _ hd2]
      exact hs
    · intro n hn
      rw [hnames2] at hn
      rcases List.mem_append.mp hn with h2 | h2
      · exact hnamesPF n h2
      · rw [List.mem_singleton.mp h2]
        exact hupf
    · intro k hk
      rw [recordKeys_eq hget2, List.map_append] at hk
      rw [hnames2]
      rcases List.mem_append.mp hk with h2 | h2
      · exact List.mem_append_left _ (hkeys k ((recordKeys_eq hgs).symm ▸ h2))
      · exact List.mem_append_right _ (by simpa using h2)
    · intro ap hap
      rcases List.mem_append.mp hap with h2 | h2
      · obtain ⟨name0, hn0pf, hn0e, hn0f⟩ := hptrs ap h2
        refine ⟨name0, hn0pf, hn0e, ?_⟩
        rw [heapGetField_eq hget2]
        exact getFieldL_append_of_some
          ((heapGetField_eq hgs name0) ▸ hn0f) _
      · rw [List.mem_singleton.mp h2]
        refine ⟨(createUniqueSchemaName name reg.schemaNames).1, hupf, rfl, ?_⟩
        rw [heapGetField_eq hget2]
        exact getFieldL_append_fresh hukey _

/-- Claim C4 (amended): for every sequence of `registerSchemaInComponents`
calls with `'%'`-free preferred names on a registry created by
`createSchemaRegistry` over a well-formed document whose pre-existing
component names are `'%'`-free, the registry invariant holds: every object
in `schemaPointersByValue` is reachable via `resolveLocalPointer` at
exactly its recorded component pointer; every key of `componentSchemas` is
a member of `schemaNames`; and registering the same object (by identity) a
second time returns the same pointer and leaves the heap and the registry
unchanged.  Unamended, a component name containing `'%'` breaks the first
bullet, because `resolveLocalPointer` URI-decodes tokens that
`encodeJsonPointerToken` never percent-encodes; see the counterexample. -/
theorem C4_registry_invariant (rootA : Nat) (h : Heap) (reg : SchemaRegistry)
    (hr : RegReach rootA h reg) :
    (∀ addr p, (addr, p) ∈ reg.schemaPointersByValue →
      resolveLocalPointer h rootA p = some (JVal.ref addr)) ∧
    (∀ k, k ∈ recordKeys h reg.componentSchemasAddr → k ∈ reg.schemaNames) ∧
    (∀ (addr : Nat) (n p : String) (h2 : Heap) (reg2 : SchemaRegistry),
      registerSchemaInComponents h reg addr n = (h2, reg2, p) →
      ∀ n2, registerSchemaInComponents h2 reg2 addr n2 = (h2, reg2, p)) := by
  have hinv : RegInv h rootA reg := by
    induction hr with
    | init he hd1 hd2 hc hs hnd hpf =>
      exact regInv_init he hd1 hd2 hc hs hnd hpf
    | step hreach hpf he ih => exact regInv_step ih hpf he
  obtain ⟨⟨cA, hd1, hd2, hc, hs⟩, _, _, hkeys, hptrs⟩ := hinv
  refine ⟨?_, hkeys, ?_⟩
  · intro addr p hap
    obtain ⟨name, hnpf2, hpe, hfield⟩ := hptrs (addr, p) hap
    have hpe2 : p = "#/components/schemas/" ++ encodeJsonPointerToken name :=
      hpe
    rw [hpe2]
    exact resolve_component_pointer hc hs hnpf2 hfield
  · intro addr n p2 h2 reg2 he n2
    rw [registerSchemaInComponents] at he
    cases hl : lookupAddr reg.schemaPointersByValue addr with
    | some p0 =>
      rw [hl] at he
      have hh : h = h2 := congrArg Prod.fst he
      have hrg : reg = reg2 := congrArg (fun t => t.2.1) he
      have hp : p0 = p2 := congrArg (fun t => t.2.2) he
      subst hh
      subst hrg
      subst hp
      rw [registerSchemaInComponents, hl]
    | none =>
      rw [hl] at he
      have hh : h2 = heapSetField h reg.componentSchemasAddr
          (createUniqueSchemaName n reg.schemaNames).1 (JVal.ref addr) :=
        (congrArg Prod.fst he).symm
      have hrg : reg2 = ⟨(createUniqueSchemaName n reg.schemaNames).2,
          reg.schemaPointersByValue ++ [(addr, "#/components/schemas/" ++
            encodeJsonPointerToken (createUniqueSchemaName n reg.schemaNames).1)],
          reg.componentSchemasAddr⟩ := (congrArg (fun t => t.2.1) he).symm
      have hp2 : p2 = "#/components/schemas/" ++
          encodeJsonPointerToken (createUniqueSchemaName n reg.schemaNames).1 :=
        (congrArg (fun t => t.2.2) he).symm
      subst hh
      subst hrg
      subst hp2
      rw [registerSchemaInComponents]
      dsimp only
      rw [lookupAddr_append_fresh hl]

/-- Witness for `C4_registry_invariant`: a register call on a fresh
registry makes its schema resolvable at `#/components/schemas/Pet`, the
stored key is a live name, and re-registering the same object is a no-op
returning the same pointer. -/
theorem C4_registry_invariant_witness :
    resolveLocalPointer
        [JObj.record [("components", JVal.ref 2)],
          JObj.record [("type", JVal.str "string")],
          JObj.record [("schemas", JVal.ref 3)],
          JObj.record [("Pet", JVal.ref 1)]] 0
        "#/components/schemas/Pet" = some (JVal.ref 1) ∧
    "Pet" ∈ (⟨["Pet"], [(1, "#/components/schemas/Pet")], 3⟩ :
      SchemaRegistry).schemaNames ∧
    registerSchemaInComponents
        [JObj.record [("components", JVal.ref 2)],
          JObj.record [("type", JVal.str "string")],
          JObj.record [("schemas", JVal.ref 3)],
          JObj.record [("Pet", JVal.ref 1)]]
        ⟨["Pet"], [(1, "#/components/schemas/Pet")], 3⟩ 1 "Other" =
      ([JObj.record [("components", JVal.ref 2)],
          JObj.record [("type", JVal.str "string")],
          JObj.record [("schemas", JVal.ref 3)],
          JObj.record [("Pet", JVal.ref 1)]],
        ⟨["Pet"], [(1, "#/components/schemas/Pet")], 3⟩,
        "#/components/schemas/Pet") := by
  have hinit : createSchemaRegistry
      [JObj.record [], JObj.record [("type", JVal.str "string")]] 0 =
      some ([JObj.record [("components", JVal.ref 2)],
          JObj.record [("type", JVal.str "string")],
          JObj.record [("schemas", JVal.ref 3)],
          JObj.record []],
        ⟨[], [], 3⟩) := rfl
  have hstep : registerSchemaInComponents
      [JObj.record [("components", JVal.ref 2)],
        JObj.record [("type", JVal.str "string")],
        JObj.record [("schemas", JVal.ref 3)],
        JObj.record []] ⟨[], [], 3⟩ 1 "Pet" =
      ([JObj.record [("components", JVal.ref 2)],
          JObj.record [("type", JVal.str "string")],
          JObj.record [("schemas", JVal.ref 3)],
          JObj.record [("Pet", JVal.ref 1)]],
        ⟨["Pet"], [(1, "#/components/schemas/Pet")], 3⟩,
        "#/components/schemas/Pet") := rfl
  have hreach := RegReach.step (@RegReach.init 0 _ _ _ 2 hinit (by decide)
    (by decide) rfl rfl (by decide) (fun n hn => absurd hn (by simp)))
    (by decide) hstep
  have hmain := C4_registry_invariant 0 _ _ hreach
  refine ⟨hmain.1 1 "#/components/schemas/Pet" (by simp), ?_, ?_⟩
  · exact hmain.2.1 "Pet" (by decide)
  · exact hmain.2.2 1 "X" "#/components/schemas/Pet" _ _ rfl "Other"

/-- Counterexample to claim C4 as stated: a registry created over a
document that stores a component under the name `"%41"` records the
pointer `#/components/schemas/%41` for it, but resolving that pointer
URI-decodes the token to `"A"` and finds nothing, so the object is not
reachable at its recorded pointer. -/
theorem C4_registry_invariant_counterexample :
    createSchemaRegistry
        [JObj.record [("components", JVal.ref 1)],
          JObj.record [("schemas", JVal.ref 2)],
          JObj.record [("%41", JVal.ref 3)],
          JObj.record [("type", JVal.str "string")]] 0 =
      some ([JObj.record [("components", JVal.ref 1)],
          JObj.record [("schemas", JVal.ref 2)],
          JObj.record [("%41", JVal.ref 3)],
          JObj.record [("type", JVal.str "string")]],
        ⟨["%41"], [(3, "#/components/schemas/%41")], 2⟩) ∧
    (3, "#/components/schemas/%41") ∈
      (⟨["%41"], [(3, "#/components/schemas/%41")], 2⟩ :
        SchemaRegistry).schemaPointersByValue ∧
    resolveLocalPointer
        [JObj.record [("components", JVal.ref 1)],
          JObj.record [("schemas", JVal.ref 2)],
          JObj.record [("%41", JVal.ref 3)],
          JObj.record [("type", JVal.str "string")]] 0
        "#/components/schemas/%41" = none :=
  ⟨rfl, by simp, rfl⟩

/-! #### External resolver lemmas -/

theorem resolveByIdentity_some {r : ExternalResolver} {addr : Nat}
    {name : String} {c : Nat}
    (h1 : lookupAddr r.nameByValue addr = some name) (h2 : name ≠ "")
    (h3 : lookupStr r.canonicalByName name = some c) :
    resolveByIdentity r addr = some (name, c) := by
  rw [resolveByIdentity, h1]
  show (if name = "" then none
    else match lookupStr r.canonicalByName name with
    | some c2 => some (name, c2)
    | none => none) = some (name, c)
  rw [if_neg h2, h3]

/-- Claim C6 (amended): `resolveExternalSchemaCandidate` returns the
candidate recorded by object identity when `nameByValue` maps the schema to
a nonempty name that `canonicalByName` also holds (the lockstep
`addExternalNameCandidate` maintains); otherwise — in particular whenever
`nameByValue` does not contain the schema — it returns a candidate exactly
when one single canonical schema carries the schema's fingerprint in
`canonicalByFingerprint`, and `undefined` when zero or two-or-more do;
`resolveExternalComponentCandidate` likewise returns `undefined` unless its
index holds exactly one entry for the schema's fingerprint.  Unamended, an
empty recorded name is falsy in JavaScript, so the identity branch is
skipped even though `nameByValue` contains the schema; see the
counterexample. -/
theorem C6_candidate_resolution :
    (∀ (h : Heap) (fuel : Nat) (r : ExternalResolver) (addr : Nat)
        (name : String) (c : Nat),
      lookupAddr r.nameByValue addr = some name → name ≠ "" →
      lookupStr r.canonicalByName name = some c →
      resolveExternalSchemaCandidate h fuel r addr = some (some (name, c))) ∧
    (∀ (h : Heap) (fuel : Nat) (r : ExternalResolver) (addr : Nat)
        (fp : String),
      lookupAddr r.nameByValue addr = none →
      createSchemaFingerprint h fuel addr = some fp →
      (lookupStr r.canonicalByFingerprint fp = none →
        resolveExternalSchemaCandidate h fuel r addr = some none) ∧
      (∀ cands, lookupStr r.canonicalByFingerprint fp = some cands →
        cands.length ≠ 1 →
        resolveExternalSchemaCandidate h fuel r addr = some none) ∧
      (∀ c, lookupStr r.canonicalByFingerprint fp = some [c] →
        resolveExternalSchemaCandidate h fuel r addr = some (some c))) ∧
    (∀ (h : Heap) (fuel : Nat) (index : List (String × List (String × Nat)))
        (addr : Nat) (fp : String),
      createSchemaFingerprint h fuel addr = some fp →
      (lookupStr index fp = none →
        resolveExternalComponentCandidate h fuel index addr = some none) ∧
      (∀ ms, lookupStr index fp = some ms → ms.length ≠ 1 →
        resolveExternalComponentCandidate h fuel index addr = some none) ∧
      (∀ c, lookupStr index fp = some [c] →
        resolveExternalComponentCandidate h fuel index addr =
          some (some c))) := by
  refine ⟨?_, ?_, ?_⟩
  · intro h fuel r addr name c h1 h2 h3
    rw [resolveExternalSchemaCandidate, resolveByIdentity_some h1 h2 h3]
  · intro h fuel r addr fp h1 h2
    have hid : resolveByIdentity r addr = none := by
      rw [resolveByIdentity, h1]
    have hred : resolveExternalSchemaCandidate h fuel r addr =
        (match lookupStr r.canonicalByFingerprint fp with
          | none => some none
          | some cands =>
            match cands with
            | [c] => some (some c)
            | _ => some none) := by
      rw [resolveExternalSchemaCandidate, hid, h2]
    refine ⟨?_, ?_, ?_⟩
    · intro hz
      rw [hred, hz]
    · intro cands hc hlen
      rw [hred, hc]
      show (match cands with
        | [c] => some (some c)
        | _ => some none) = some none
      cases cands with
      | nil => rfl
      | cons a l =>
        cases l with
        | nil => simp at hlen
        | cons b l2 => rfl
    · intro c hc
      rw [hred, hc]
  · intro h fuel index addr fp h2
    have hred : resolveExternalComponentCandidate h fuel index addr =
        (match lookupStr index fp with
          | none => some none
          | some ms =>
            match ms with
            | [c] => some (some c)
            | _ => some none) := by
      rw [resolveExternalComponentCandidate, h2]
    refine ⟨?_, ?_, ?_⟩
    · intro hz
      rw [hred, hz]
    · intro ms hc hlen
      rw [hred, hc]
      show (match ms with
        | [c] => some (some c)
        | _ => some none) = some none
      cases ms with
      | nil => rfl
      | cons a l =>
        cases l with
        | nil => simp at hlen
        | cons b l2 => rfl
    · intro c hc
      rw [hred, hc]

/-- Witness for `C6_candidate_resolution` on a one-record heap: an identity
hit, a unique fingerprint hit for an unknown object, and the
component-index clauses at the same fingerprint. -/
theorem C6_candidate_resolution_witness :
    resolveExternalSchemaCandidate [JObj.record [("type", JVal.str "string")]]
        5 ⟨[(0, "Pet")], [("Pet", 7)], []⟩ 0 = some (some ("Pet", 7)) ∧
    resolveExternalSchemaCandidate [JObj.record [("type", JVal.str "string")]]
        5 ⟨[], [],
          [("\x7b\"type\":\"string\"\x7d", [("Pet", 7)])]⟩ 0 =
      some (some ("Pet", 7)) ∧
    resolveExternalSchemaCandidate [JObj.record [("type", JVal.str "string")]]
        5 ⟨[], [],
          [("\x7b\"type\":\"string\"\x7d", [("Pet", 7), ("Animal", 8)])]⟩ 0 =
      some none ∧
    resolveExternalComponentCandidate
        [JObj.record [("type", JVal.str "string")]] 5 [] 0 = some none := by
  refine ⟨?_, ?_, ?_, ?_⟩
  · exact C6_candidate_resolution.1 [JObj.record [("type", JVal.str "string")]]
      5 ⟨[(0, "Pet")], [("Pet", 7)], []⟩ 0 "Pet" 7 rfl (by decide) rfl
  · exact (C6_candidate_resolution.2.1
      [JObj.record [("type", JVal.str "string")]] 5
      ⟨[], [], [("\x7b\"type\":\"string\"\x7d", [("Pet", 7)])]⟩ 0
      "\x7b\"type\":\"string\"\x7d" rfl rfl).2.2 ("Pet", 7) rfl
  · exact (C6_candidate_resolution.2.1
      [JObj.record [("type", JVal.str "string")]] 5
      ⟨[], [], [("\x7b\"type\":\"string\"\x7d",
        [("Pet", 7), ("Animal", 8)])]⟩ 0
      "\x7b\"type\":\"string\"\x7d" rfl rfl).2.1
      [("Pet", 7), ("Animal", 8)] rfl (by decide)
  · exact (C6_candidate_resolution.2.2
      [JObj.record [("type", JVal.str "string")]] 5 [] 0
      "\x7b\"type\":\"string\"\x7d" rfl).1 rfl

/-- Counterexample to claim C6 as stated: `nameByValue` contains the
schema, but under the empty name, which is falsy in JavaScript; the
identity branch is skipped and — with no fingerprint candidates — the
result is `undefined`, not an identity candidate. -/
theorem C6_candidate_resolution_counterexample :
    lookupAddr [(0, "")] 0 = some "" ∧
    resolveExternalSchemaCandidate [JObj.record [("type", JVal.str "string")]]
        5 ⟨[(0, "")], [("", 1)], []⟩ 0 = some none :=
  ⟨rfl, rfl⟩


/-! ### The inline-external fixpoint loop (claim C7) -/

theorem walk_str {σ : Type} (vis : WalkVisitor σ) (f : Nat) (s : σ)
    (h : Heap) (x : String) (ptr : String) (ctx : Bool) (seen : List Nat)
    (slot : Slot) : walk vis f s h (JVal.str x) ptr ctx seen slot = (s, h) := by
  cases f <;> rfl

theorem walkFields_nil {σ : Type} (vis : WalkVisitor σ) (f : Nat) (s : σ)
    (h : Heap) (ptr : String) (ctx : Bool) (seen : List Nat) (pa : Nat) :
    walkFields vis f s h [] ptr ctx seen pa = (s, h) := by
  cases f <;> rfl

theorem inline_vis_noCtx (res : ExternalResolver)
    (index : List (String × List (String × Nat))) (f : Nat)
    (st : Option (SchemaRegistry × Bool)) (h : Heap) (a : Nat)
    (ptr : String) (slot : Slot) :
    inlineVisitor res index f st h a ptr false slot = (st, h) := by
  rcases st with _ | ⟨reg, ch⟩ <;> rfl

theorem inline_vis_compRoot (res : ExternalResolver)
    (index : List (String × List (String × Nat))) (f : Nat)
    (reg : SchemaRegistry) (ch : Bool) (h : Heap) (a : Nat)
    (ptr : String) (slot : Slot)
    (hp : isComponentSchemaRootPointer ptr = true) :
    inlineVisitor res index f (some (reg, ch)) h a ptr true slot =
      (some (reg, ch), h) := by
  show (if !true || isComponentSchemaRootPointer ptr || slot == Slot.root
      then _ else _) = _
  rw [hp]
  rfl

theorem fp_refRecord (h : Heap) (a : Nat) (p : String)
    (hget : h.get? a = some (JObj.record [("$ref", JVal.str p)])) :
    createSchemaFingerprint h 10 a =
      some ((stringifyJson (Json.obj [("$ref", Json.str p)])).asString) := by
  show (normVal h 10 [] true (JVal.ref a)).map _ = _
  rw [show (10 : Nat) = 9 + 1 from rfl]
  rw [show normVal h (9 + 1) [] true (JVal.ref a) =
      (if a ∈ ([] : List Nat) then some (Json.str "[Circular]")
       else
        match h.get? a with
        | none => none
        | some (JObj.arr items) =>
          (normValList h 9 (a :: []) items).map Json.arr
        | some (JObj.record fields) =>
          (normValFields h 9 (a :: [])
            (sortFields (if true then dropDocFields fields else fields))).map
            Json.obj) from rfl]
  rw [hget]
  simp only [List.not_mem_nil, if_false, if_true]
  rw [show sortFields (dropDocFields [("$ref", JVal.str p)]) =
      [("$ref", JVal.str p)] from rfl]
  rw [show normValFields h 9 [a] [("$ref", JVal.str p)] =
      some [("$ref", Json.str p)] from rfl]
  rfl

theorem osc_vis_act (b : Bool) (h : Heap) (aN : Nat) (haN : 5 ≤ aN)
    (hg0 : h.get? 0 = some (JObj.record (oscRootFields aN)))
    (hv : h.get? aN = some (JObj.record [("$ref", JVal.str (oscPtr b))])) :
    inlineVisitor oscRes oscIndex 10 (some (oscReg, false)) h aN
      "#/properties" true (Slot.fld 0 "properties") =
      (some (oscReg, true),
        (h ++ [JObj.record [("$ref", JVal.str (oscPtr (!b)))]]).set 0
          (JObj.record (oscRootFields h.length))) := by
  have h3 : ((3 : Nat) == aN) = false := by
    simp only [beq_eq_false_iff_ne]; omega
  have h4 : ((4 : Nat) == aN) = false := by
    simp only [beq_eq_false_iff_ne]; omega
  have h0lt : 0 < h.length := by
    cases hl : h with
    | nil => rw [hl] at hg0; simp at hg0
    | cons x xs => simp
  have happ : ∀ x : JObj, (h ++ [x]).get? 0 =
      some (JObj.record (oscRootFields aN)) := by
    intro x; rw [List.get?_append h0lt]; exact hg0
  simp only [inlineVisitor]
  rw [hv]
  simp only [resolveExternalSchemaCandidate, resolveByIdentity]
  simp only [oscRes, lookupAddr, List.find?, h3, h4]
  rw [if_neg (by decide)]
  simp only [Option.map]
  cases b
  · rw [fp_refRecord h aN (oscPtr false) hv,
      show ((stringifyJson (Json.obj [("$ref", Json.str (oscPtr false))])).asString)
        = oscFpB from by decide]
    dsimp only
    rw [show lookupStr [(oscFpA, [("B", 4)]), (oscFpB, [("A", 3)])] oscFpB =
        some [("A", 3)] from rfl]
    dsimp only
    rw [show registerSchemaInComponents h oscReg 3 "A" = (h, oscReg, oscPtrA)
        from rfl]
    dsimp only
    rw [hv]
    dsimp only
    rw [show isEquivalentRefReplacement [("$ref", JVal.str (oscPtr false))]
        (buildReplacementFields [("$ref", JVal.str (oscPtr false))] oscPtrA) =
        false from by decide]
    simp only [Bool.false_eq_true, if_false]
    show (some (oscReg, true), setSlot _ (Slot.fld 0 "properties")
      (JVal.ref h.length)) = _
    simp only [setSlot, heapSetField]
    rw [happ]
    rfl
  · rw [fp_refRecord h aN (oscPtr true) hv,
      show ((stringifyJson (Json.obj [("$ref", Json.str (oscPtr true))])).asString)
        = oscFpA from by decide]
    dsimp only
    rw [show lookupStr [(oscFpA, [("B", 4)]), (oscFpB, [("A", 3)])] oscFpA =
        some [("B", 4)] from rfl]
    dsimp only
    rw [show registerSchemaInComponents h oscReg 4 "B" = (h, oscReg, oscPtrB)
        from rfl]
    dsimp only
    rw [hv]
    dsimp only
    rw [show isEquivalentRefReplacement [("$ref", JVal.str (oscPtr true))]
        (buildReplacementFields [("$ref", JVal.str (oscPtr true))] oscPtrB) =
        false from by decide]
    simp only [Bool.false_eq_true, if_false]
    show (some (oscReg, true), setSlot _ (Slot.fld 0 "properties")
      (JVal.ref h.length)) = _
    simp only [setSlot, heapSetField]
    rw [happ]
    rfl




theorem normVal_record_nonroot (h : Heap) (f : Nat) (seen : List Nat)
    (a : Nat) (fields : List (String × JVal)) (hmem : a ∉ seen)
    (hget : h.get? a = some (JObj.record fields)) :
    normVal h (f + 1) seen false (JVal.ref a) =
      (normValFields h f (a :: seen) (sortFields fields)).map Json.obj := by
  rw [show normVal h (f + 1) seen false (JVal.ref a) =
      (if a ∈ seen then some (Json.str "[Circular]")
       else match h.get? a with
       | none => none
       | some (JObj.arr items) =>
         (normValList h f (a :: seen) items).map Json.arr
       | some (JObj.record fields) =>
         (normValFields h f (a :: seen) (sortFields fields)).map Json.obj)
      from rfl]
  rw [if_neg hmem, hget]

theorem fp_oscCs (h : Heap)
    (hg2 : h.get? 2 = some (JObj.record [("A", JVal.ref 3), ("B", JVal.ref 4)]))
    (hg3 : h.get? 3 = some (JObj.record [("$ref", JVal.str oscPtrB)]))
    (hg4 : h.get? 4 = some (JObj.record [("$ref", JVal.str oscPtrA)])) :
    createSchemaFingerprint h 10 2 = some oscFpCS := by
  have e3 : normVal h 8 [2] false (JVal.ref 3) =
      some (Json.obj [("$ref", Json.str oscPtrB)]) := by
    rw [show (8 : Nat) = 7 + 1 from rfl,
      normVal_record_nonroot h 7 [2] 3 _ (by decide) hg3]
    rfl
  have e4 : normVal h 7 [2] false (JVal.ref 4) =
      some (Json.obj [("$ref", Json.str oscPtrA)]) := by
    rw [show (7 : Nat) = 6 + 1 from rfl,
      normVal_record_nonroot h 6 [2] 4 _ (by decide) hg4]
    rfl
  show (normVal h 10 [] true (JVal.ref 2)).map _ = _
  rw [show normVal h 10 [] true (JVal.ref 2) =
      (match h.get? 2 with
       | none => none
       | some (JObj.arr items) =>
         (normValList h 9 [2] items).map Json.arr
       | some (JObj.record fields) =>
         (normValFields h 9 [2]
           (sortFields (dropDocFields fields))).map Json.obj) from rfl]
  rw [hg2]
  dsimp only
  rw [show sortFields (dropDocFields
      [("A", JVal.ref 3), ("B", JVal.ref 4)]) =
      [("A", JVal.ref 3), ("B", JVal.ref 4)] from rfl]
  rw [show normValFields h 9 [2] [("A", JVal.ref 3), ("B", JVal.ref 4)] =
      (match normVal h 8 [2] false (JVal.ref 3),
          normValFields h 8 [2] [("B", JVal.ref 4)] with
       | some j, some js => some (("A", j) :: js)
       | _, _ => none) from rfl]
  rw [show normValFields h 8 [2] [("B", JVal.ref 4)] =
      (match normVal h 7 [2] false (JVal.ref 4),
          normValFields h 7 [2] [] with
       | some j, some js => some (("B", j) :: js)
       | _, _ => none) from rfl]
  rw [e3, e4]
  rfl

theorem osc_vis_cs (c : Bool) (h : Heap)
    (hg2 : h.get? 2 = some (JObj.record [("A", JVal.ref 3), ("B", JVal.ref 4)]))
    (hg3 : h.get? 3 = some (JObj.record [("$ref", JVal.str oscPtrB)]))
    (hg4 : h.get? 4 = some (JObj.record [("$ref", JVal.str oscPtrA)])) :
    inlineVisitor oscRes oscIndex 10 (some (oscReg, c)) h 2
      "#/components/schemas" true (Slot.fld 1 "schemas") =
      (some (oscReg, c), h) := by
  simp only [inlineVisitor]
  rw [if_neg (by decide), hg2]
  simp only [resolveExternalSchemaCandidate]
  rw [show resolveByIdentity oscRes 2 = none from rfl]
  dsimp only
  rw [fp_oscCs h hg2 hg3 hg4]
  dsimp only
  rw [show lookupStr oscRes.canonicalByFingerprint oscFpCS = none from rfl]
  dsimp only
  simp only [resolveExternalComponentCandidate]
  rw [fp_oscCs h hg2 hg3 hg4]
  dsimp only
  rw [show lookupStr oscIndex oscFpCS = none from rfl]




theorem osc_walk_objA (f : Nat) (c : Bool) (h : Heap)
    (hg3 : h.get? 3 = some (JObj.record [("$ref", JVal.str oscPtrB)])) :
    walk (inlineVisitor oscRes oscIndex 10) (f + 3) (some (oscReg, c)) h
      (JVal.ref 3) "#/components/schemas/A" true [2, 1, 0] (Slot.fld 2 "A") =
      (some (oscReg, c), h) := by
  simp only [walk]
  rw [inline_vis_compRoot oscRes oscIndex 10 oscReg c h 3
    "#/components/schemas/A" (Slot.fld 2 "A") (by decide)]
  dsimp only
  rw [if_neg (by decide), hg3]
  dsimp only
  simp only [walkFields, walk_str, walkFields_nil]

theorem osc_walk_objB (f : Nat) (c : Bool) (h : Heap)
    (hg4 : h.get? 4 = some (JObj.record [("$ref", JVal.str oscPtrA)])) :
    walk (inlineVisitor oscRes oscIndex 10) (f + 3) (some (oscReg, c)) h
      (JVal.ref 4) "#/components/schemas/B" true [2, 1, 0] (Slot.fld 2 "B") =
      (some (oscReg, c), h) := by
  simp only [walk]
  rw [inline_vis_compRoot oscRes oscIndex 10 oscReg c h 4
    "#/components/schemas/B" (Slot.fld 2 "B") (by decide)]
  dsimp only
  rw [if_neg (by decide), hg4]
  dsimp only
  simp only [walkFields, walk_str, walkFields_nil]

theorem osc_walk_cs (f : Nat) (c : Bool) (h : Heap)
    (hg2 : h.get? 2 = some (JObj.record [("A", JVal.ref 3), ("B", JVal.ref 4)]))
    (hg3 : h.get? 3 = some (JObj.record [("$ref", JVal.str oscPtrB)]))
    (hg4 : h.get? 4 = some (JObj.record [("$ref", JVal.str oscPtrA)])) :
    walk (inlineVisitor oscRes oscIndex 10) (f + 7) (some (oscReg, c)) h
      (JVal.ref 2) "#/components/schemas" true [1, 0] (Slot.fld 1 "schemas") =
      (some (oscReg, c), h) := by
  simp only [walk]
  rw [osc_vis_cs c h hg2 hg3 hg4]
  dsimp only
  rw [if_neg (by decide), hg2]
  dsimp only
  simp only [walkFields]
  rw [show ("#/components/schemas" ++ "/" ++ encodeJsonPointerToken "A" :
        String) = "#/components/schemas/A" from by decide,
    show (true || schemaContextKeys.contains "A") = true from rfl,
    show ("#/components/schemas" ++ "/" ++ encodeJsonPointerToken "B" :
        String) = "#/components/schemas/B" from by decide,
    show (true || schemaContextKeys.contains "B") = true from rfl,
    show (f + 5 : Nat) = (f + 2) + 3 from rfl]
  rw [osc_walk_objA (f + 2) c h hg3]
  dsimp only
  rw [show (f + 4 : Nat) = (f + 1) + 3 from rfl]
  rw [osc_walk_objB (f + 1) c h hg4]


theorem osc_walk_components (f : Nat) (c : Bool) (h : Heap)
    (hg1 : h.get? 1 = some (JObj.record [("schemas", JVal.ref 2)]))
    (hg2 : h.get? 2 = some (JObj.record [("A", JVal.ref 3), ("B", JVal.ref 4)]))
    (hg3 : h.get? 3 = some (JObj.record [("$ref", JVal.str oscPtrB)]))
    (hg4 : h.get? 4 = some (JObj.record [("$ref", JVal.str oscPtrA)])) :
    walk (inlineVisitor oscRes oscIndex 10) (f + 9) (some (oscReg, c)) h
      (JVal.ref 1) "#/components" false [0] (Slot.fld 0 "components") =
      (some (oscReg, c), h) := by
  simp only [walk]
  rw [inline_vis_noCtx]
  dsimp only
  rw [if_neg (by decide), hg1]
  dsimp only
  simp only [walkFields]
  rw [show ("#/components" ++ "/" ++ encodeJsonPointerToken "schemas" :
        String) = "#/components/schemas" from by decide,
    show (false || schemaContextKeys.contains "schemas") = true from by decide,
    show (f + 7 : Nat) = f + 7 from rfl]
  rw [osc_walk_cs f c h hg2 hg3 hg4]

theorem osc_walk_vnode (f : Nat) (b : Bool) (h : Heap) (aN : Nat)
    (haN : 5 ≤ aN)
    (hg0 : h.get? 0 = some (JObj.record (oscRootFields aN)))
    (hv : h.get? aN = some (JObj.record [("$ref", JVal.str (oscPtr b))])) :
    walk (inlineVisitor oscRes oscIndex 10) (f + 2) (some (oscReg, false)) h
      (JVal.ref aN) "#/properties" true [0] (Slot.fld 0 "properties") =
      (some (oscReg, true), oscNext b h) := by
  have haNlt : aN < h.length := by
    by_contra hc
    push_neg at hc
    rw [List.get?_eq_none.2 hc] at hv
    exact Option.noConfusion hv
  have hget' : (oscNext b h).get? aN =
      some (JObj.record [("$ref", JVal.str (oscPtr b))]) := by
    show ((h ++ [_]).set 0 _).get? aN = _
    rw [List.get?_set_ne _ _ (by omega), List.get?_append haNlt]
    exact hv
  simp only [walk]
  rw [osc_vis_act b h aN haN hg0 hv]
  dsimp only
  rw [if_neg (by simp; omega)]
  rw [show ((h ++ [JObj.record [("$ref", JVal.str (oscPtr (!b)))]]).set 0
      (JObj.record (oscRootFields h.length))) = oscNext b h from rfl]
  rw [hget']
  dsimp only
  simp only [walkFields, walk_str, walkFields_nil]


theorem osc_walk_root (b : Bool) (h : Heap) (aN : Nat) (haN : 5 ≤ aN)
    (hg0 : h.get? 0 = some (JObj.record (oscRootFields aN)))
    (hg1 : h.get? 1 = some (JObj.record [("schemas", JVal.ref 2)]))
    (hg2 : h.get? 2 = some (JObj.record [("A", JVal.ref 3), ("B", JVal.ref 4)]))
    (hg3 : h.get? 3 = some (JObj.record [("$ref", JVal.str oscPtrB)]))
    (hg4 : h.get? 4 = some (JObj.record [("$ref", JVal.str oscPtrA)]))
    (hv : h.get? aN = some (JObj.record [("$ref", JVal.str (oscPtr b))])) :
    walk (inlineVisitor oscRes oscIndex 10) 14 (some (oscReg, false)) h
      (JVal.ref 0) "#" false [] Slot.root =
      (some (oscReg, true), oscNext b h) := by
  rw [show (14 : Nat) = 13 + 1 from rfl]
  simp only [walk]
  rw [inline_vis_noCtx]
  dsimp only
  rw [if_neg (by decide), hg0]
  dsimp only
  simp only [oscRootFields, walkFields, walk_str]
  rw [show ("#" ++ "/" ++ encodeJsonPointerToken "components" : String) =
      "#/components" from by decide,
    show (false || schemaContextKeys.contains "components") = false from by
      decide,
    show (11 : Nat) = 2 + 9 from rfl]
  rw [osc_walk_components 2 false h hg1 hg2 hg3 hg4]
  dsimp only
  rw [show ("#" ++ "/" ++ encodeJsonPointerToken "properties" : String) =
      "#/properties" from by decide,
    show (false || schemaContextKeys.contains "properties") = true from by
      decide,
    show (10 : Nat) = 8 + 2 from rfl]
  rw [osc_walk_vnode 8 b h aN haN hg0 hv]


theorem osc_buildIndex (h : Heap)
    (hg2 : h.get? 2 = some (JObj.record [("A", JVal.ref 3), ("B", JVal.ref 4)]))
    (hg3 : h.get? 3 = some (JObj.record [("$ref", JVal.str oscPtrB)]))
    (hg4 : h.get? 4 = some (JObj.record [("$ref", JVal.str oscPtrA)])) :
    buildExternalComponentFingerprintIndex h 10 oscReg
      oscRes.canonicalByName = some oscIndex := by
  show (match h.get? 2 with
    | some (JObj.record fs) =>
      buildIndexFields h 10 oscRes.canonicalByName fs []
    | _ => some []) = _
  rw [hg2]
  dsimp only
  simp only [buildIndexFields]
  rw [show lookupStr oscRes.canonicalByName "A" = some 3 from rfl]
  dsimp only
  rw [hg3]
  dsimp only
  rw [fp_refRecord h 3 oscPtrB hg3,
    show ((stringifyJson (Json.obj [("$ref", Json.str oscPtrB)])).asString) =
      oscFpB from by decide]
  dsimp only
  rw [show lookupStr oscRes.canonicalByName "B" = some 4 from rfl]
  dsimp only
  rw [hg4]
  dsimp only
  rw [fp_refRecord h 4 oscPtrA hg4,
    show ((stringifyJson (Json.obj [("$ref", Json.str oscPtrA)])).asString) =
      oscFpA from by decide]
  dsimp only
  rfl


theorem set_append_left {α : Type} (l1 l2 : List α) (n : Nat) (a : α)
    (hlt : n < l1.length) : (l1 ++ l2).set n a = l1.set n a ++ l2 := by
  induction l1 generalizing n with
  | nil => simp at hlt
  | cons x xs ih =>
    cases n with
    | zero => rfl
    | succ m =>
      show x :: (xs ++ l2).set m a = x :: (xs.set m a ++ l2)
      rw [ih m (by simpa using hlt)]

theorem osc_step (b : Bool) (reg : SchemaRegistry) (h : Heap)
    (hq : OscInv b reg h) :
    rewriteInlineIteration 10 14 0 oscRes reg h =
      some (oscReg, oscNext b h, true) ∧ OscInv (!b) oscReg (oscNext b h) := by
  obtain ⟨hreg, aN, g, haN, hh, hv⟩ := hq
  subst hreg
  have hlen0 : oscHeap0.length = 6 := rfl
  have hA : (oscHeap0.set 0 (JObj.record (oscRootFields aN))).length = 6 := by
    rw [List.length_set]; rfl
  have hlen : h.length = 6 + g.length := by
    rw [hh, List.length_append, hA]
  have hget : ∀ i : Nat, i < 6 → i ≠ 0 →
      h.get? i = oscHeap0.get? i := by
    intro i hi hne
    rw [hh, List.get?_append (by rw [hA]; exact hi), List.get?_set_ne _ _
      (fun hc => hne hc.symm)]
  have hg0 : h.get? 0 = some (JObj.record (oscRootFields aN)) := by
    rw [hh, List.get?_append (by rw [hA]; omega)]
    exact List.get?_set_eq_of_lt _ (by rw [hlen0]; omega)
  have hg1 : h.get? 1 = some (JObj.record [("schemas", JVal.ref 2)]) :=
    hget 1 (by omega) (by omega)
  have hg2 : h.get? 2 = some (JObj.record
      [("A", JVal.ref 3), ("B", JVal.ref 4)]) :=
    hget 2 (by omega) (by omega)
  have hg3 : h.get? 3 = some (JObj.record [("$ref", JVal.str oscPtrB)]) :=
    hget 3 (by omega) (by omega)
  have hg4 : h.get? 4 = some (JObj.record [("$ref", JVal.str oscPtrA)]) :=
    hget 4 (by omega) (by omega)
  constructor
  · show (match buildExternalComponentFingerprintIndex h 10 oscReg
        oscRes.canonicalByName with
      | none => none
      | some index =>
        match walk (inlineVisitor oscRes index 10) 14
            (some (oscReg, false)) h (JVal.ref 0) "#" false [] Slot.root with
        | (some (reg', ch), h') => some (reg', h', ch)
        | (none, _) => none) = _
    rw [osc_buildIndex h hg2 hg3 hg4]
    dsimp only
    rw [osc_walk_root b h aN haN hg0 hg1 hg2 hg3 hg4 hv]
  · refine ⟨rfl, h.length, g ++ [JObj.record
      [("$ref", JVal.str (oscPtr (!b)))]], by omega, ?_, ?_⟩
    · show (h ++ [JObj.record [("$ref", JVal.str (oscPtr (!b)))]]).set 0
        (JObj.record (oscRootFields h.length)) = _
      rw [hh]
      rw [List.append_assoc]
      rw [set_append_left _ _ 0 _ (by rw [hA]; omega)]
      rw [List.set_set]
    · show ((h ++ [JObj.record [("$ref", JVal.str (oscPtr (!b)))]]).set 0
        (JObj.record (oscRootFields h.length))).get? h.length = _
      rw [List.get?_set_ne _ _ (by omega), List.get?_concat_length]


theorem osc_loop : ∀ (n : Nat) (b : Bool) (reg : SchemaRegistry) (h : Heap),
    OscInv b reg h →
    ∃ h', rewriteInlineExternalSchemasToComponentRefs 10 14 0 oscRes n
      reg h = some (oscReg, h', false)
  | 0, _, reg, h, hq => ⟨h, by rw [hq.1]; rfl⟩
  | n + 1, b, reg, h, hq => by
    obtain ⟨hstep, hinv⟩ := osc_step b reg h hq
    obtain ⟨h', hres⟩ := osc_loop n (!b) oscReg (oscNext b h) hinv
    refine ⟨h', ?_⟩
    show (match rewriteInlineIteration 10 14 0 oscRes reg h with
      | none => none
      | some (reg1, h1, ch) =>
        if ch then rewriteInlineExternalSchemasToComponentRefs 10 14 0 oscRes
          n reg1 h1 else some (reg1, h1, true)) = _
    rw [hstep]
    dsimp only
    rw [if_pos rfl]
    exact hres

theorem osc_init : OscInv true oscReg oscHeap0 :=
  ⟨rfl, 5, [], by omega, by decide, rfl⟩


/-- C7: amended.  (i) A record that already has exactly the ref replacement
shape for the selected candidate — same `$ref` as the registered component
pointer, the same optional string `summary` and `description`, and no other
key — is never replaced: the visitor keeps the heap of the registration step
and leaves the traversal's changed flag untouched.  (ii) As soon as one full
traversal performs no replacement, the `while (changed)` loop of
`rewriteInlineExternalSchemasToComponentRefs` stops.  (iii) But the loop
need not terminate: on a document whose resolver maps the fingerprint of
each of two `{ $ref }`-shaped component schemas to the other, every
traversal performs a replacement, at every iteration count. -/
theorem C7_ref_replacement_fixpoint :
    (∀ (res : ExternalResolver) (index : List (String × List (String × Nat)))
      (fpF : Nat) (reg reg1 : SchemaRegistry) (ch : Bool) (h h1 : Heap)
      (a : Nat) (ptr : String) (slot : Slot) (name cp : String)
      (sAddr : Nat) (fs0 fs1 : List (String × JVal)),
      h.get? a = some (JObj.record fs0) →
      resolveExternalSchemaCandidate h fpF res a = some (some (name, sAddr)) →
      registerSchemaInComponents h reg sAddr name = (h1, reg1, cp) →
      h1.get? a = some (JObj.record fs1) →
      isEquivalentRefReplacement fs1 (buildReplacementFields fs1 cp) = true →
      isComponentSchemaRootPointer ptr = false →
      slot ≠ Slot.root →
      inlineVisitor res index fpF (some (reg, ch)) h a ptr true slot =
        (some (reg1, ch), h1)) ∧
    (∀ (fpF wF rootA : Nat) (res : ExternalResolver) (n : Nat)
      (reg reg1 : SchemaRegistry) (h h1 : Heap),
      rewriteInlineIteration fpF wF rootA res reg h = some (reg1, h1, false) →
      rewriteInlineExternalSchemasToComponentRefs fpF wF rootA res (n + 1)
        reg h = some (reg1, h1, true)) ∧
    (∀ n : Nat, ∃ h', rewriteInlineExternalSchemasToComponentRefs 10 14 0
      oscRes n oscReg oscHeap0 = some (oscReg, h', false)) := by
  refine ⟨?_, ?_, ?_⟩
  · intro res index fpF reg reg1 ch h h1 a ptr slot name cp sAddr fs0 fs1
      hrec hcand hregeq hrec1 hskip hptr hslot
    simp only [inlineVisitor]
    rw [if_neg (by simp [hptr, hslot])]
    rw [hrec]
    dsimp only
    rw [hcand]
    dsimp only
    rw [hregeq]
    dsimp only
    rw [hrec1]
    dsimp only
    rw [hskip]
    rw [if_pos rfl]
  · intro fpF wF rootA res n reg reg1 h h1 hiter
    show (match rewriteInlineIteration fpF wF rootA res reg h with
      | none => none
      | some (reg2, h2, ch) =>
        if ch then rewriteInlineExternalSchemasToComponentRefs fpF wF rootA
          res n reg2 h2 else some (reg2, h2, true)) = _
    rw [hiter]
    dsimp only
    rw [if_neg (by simp)]
  · intro n
    exact osc_loop n true oscReg oscHeap0 osc_init



/-- Witness for C7: the skip guarantee at a record already in replacement
shape, and the loop stopping after a traversal with no replacement. -/
theorem C7_ref_replacement_fixpoint_witness :
    inlineVisitor skipRes [] 6 (some (skipReg, false)) skipHeap 0 "#/x" true
      (Slot.fld 7 "k") = (some (skipReg, false), skipHeap) ∧
    rewriteInlineExternalSchemasToComponentRefs 6 3 0 ⟨[], [], []⟩ 4 quietReg
      quietHeap = some (quietReg, quietHeap, true) := by
  constructor
  · exact C7_ref_replacement_fixpoint.1 skipRes [] 6 skipReg skipReg false
      skipHeap skipHeap 0 "#/x" (Slot.fld 7 "k") "S"
      "#/components/schemas/S" 5 [("$ref", JVal.str "#/components/schemas/S")]
      [("$ref", JVal.str "#/components/schemas/S")] rfl rfl rfl rfl (by decide)
      (by decide) (by decide)
  · exact C7_ref_replacement_fixpoint.2.1 6 3 0 ⟨[], [], []⟩ 3 quietReg
      quietReg quietHeap quietHeap rfl

set_option maxHeartbeats 1600000 in
/-- Counterexample to C7 as stated: on the oscillation document the
source's `while (changed)` loop never reaches a traversal without a
replacement — the first and second traversals both perform a replacement,
and after five iterations the loop is still unfinished (final flag
`false`); the general statement at every iteration count is conjunct
(iii) of the claim theorem. -/
theorem C7_ref_replacement_fixpoint_counterexample :
    (rewriteInlineIteration 10 14 0 oscRes oscReg oscHeap0).map
      (fun r => r.2.2) = some true ∧
    ((rewriteInlineIteration 10 14 0 oscRes oscReg oscHeap0).bind
      (fun r => (rewriteInlineIteration 10 14 0 oscRes r.1 r.2.1).map
        (fun s => s.2.2))) = some true ∧
    (rewriteInlineExternalSchemasToComponentRefs 10 14 0 oscRes 1 oscReg
      oscHeap0).map (fun r => r.2.2) = some false ∧
    (rewriteInlineExternalSchemasToComponentRefs 10 14 0 oscRes 5 oscReg
      oscHeap0).map (fun r => r.2.2) = some false :=
  ⟨by decide, by decide, by decide, by decide⟩



/-! ### String provenance toolkit and the generic walk invariant -/

theorem mem_objStrs_record {fs : List (String × JVal)} {s : String} :
    s ∈ objStrs (JObj.record fs) ↔ ∃ p ∈ fs, s ∈ valStrs p.2 := by
  simp only [objStrs, List.mem_join, List.mem_map]
  constructor
  · rintro ⟨l, ⟨p, hp, hl⟩, hs⟩
    exact ⟨p, hp, hl ▸ hs⟩
  · rintro ⟨p, hp, hs⟩
    exact ⟨valStrs p.2, ⟨p, hp, rfl⟩, hs⟩

theorem mem_objStrs_arr {its : List JVal} {s : String} :
    s ∈ objStrs (JObj.arr its) ↔ ∃ v ∈ its, s ∈ valStrs v := by
  simp [objStrs, List.mem_join]

theorem strIn_append_elim {h ext : Heap} {s : String}
    (hs : StrIn (h ++ ext) s) : StrIn h s ∨ ∃ ob ∈ ext, s ∈ objStrs ob := by
  obtain ⟨ob, hob, hsx⟩ := hs
  rcases List.mem_append.mp hob with h1 | h1
  · exact Or.inl ⟨ob, h1, hsx⟩
  · exact Or.inr ⟨ob, h1, hsx⟩

theorem strIn_of_get {h : Heap} {a : Nat} {ob : JObj} {s : String}
    (hg : h.get? a = some ob) (hs : s ∈ objStrs ob) : StrIn h s :=
  ⟨ob, List.get?_mem hg, hs⟩

theorem strIn_set_elim {h : Heap} {a : Nat} {ob : JObj} {s : String}
    (hs : StrIn (h.set a ob) s) : StrIn h s ∨ s ∈ objStrs ob := by
  obtain ⟨o1, ho1, hsx⟩ := hs
  rcases List.mem_or_eq_of_mem_set ho1 with h1 | h1
  · exact Or.inl ⟨o1, h1, hsx⟩
  · exact Or.inr (h1 ▸ hsx)

theorem objStrs_setFieldL {fs : List (String × JVal)} {k : String}
    {v : JVal} {s : String}
    (hs : s ∈ objStrs (JObj.record (setFieldL fs k v))) :
    s ∈ objStrs (JObj.record fs) ∨ s ∈ valStrs v := by
  rw [mem_objStrs_record] at hs
  obtain ⟨p, hp, hv⟩ := hs
  rw [setFieldL] at hp
  by_cases hg : (getFieldL fs k).isSome
  · rw [if_pos hg] at hp
    obtain ⟨q, hq, he⟩ := List.mem_map.mp hp
    by_cases hk : q.1 = k
    · rw [if_pos hk] at he
      subst he
      exact Or.inr hv
    · rw [if_neg hk] at he
      subst he
      exact Or.inl (mem_objStrs_record.mpr ⟨q, hq, hv⟩)
  · rw [if_neg hg] at hp
    rcases List.mem_append.mp hp with h1 | h1
    · exact Or.inl (mem_objStrs_record.mpr ⟨p, h1, hv⟩)
    · rw [List.mem_singleton] at h1
      subst h1
      exact Or.inr hv

theorem bound_refl (h : Heap) : Bound h h := fun _ _ hs => hs

theorem bound_trans {h0 h1 h2 : Heap} (h01 : Bound h0 h1)
    (h12 : Bound h1 h2) : Bound h0 h2 :=
  fun s hd hs => h01 s hd (h12 s hd hs)

theorem bound_heapSetField {h0 h : Heap} {a : Nat} {k : String} {v : JVal}
    (hb : Bound h0 h)
    (hv : ∀ s, s ∈ valStrs v → jsStartsWith s "#/paths/" = true →
      StrIn h0 s) :
    Bound h0 (heapSetField h a k v) := by
  intro s hd hs
  rw [heapSetField] at hs
  cases hg : h.get? a with
  | none => rw [hg] at hs; exact hb s hd hs
  | some ob =>
    rw [hg] at hs
    cases ob with
    | arr its => exact hb s hd hs
    | record fs =>
      rcases strIn_set_elim hs with h1 | h1
      · exact hb s hd h1
      · rcases objStrs_setFieldL h1 with h2 | h2
        · exact hb s hd (strIn_of_get hg h2)
        · exact hv s h2 hd

theorem bound_append {h0 h : Heap} {ext : List JObj} (hb : Bound h0 h)
    (he : ∀ ob ∈ ext, ∀ s ∈ objStrs ob,
      jsStartsWith s "#/paths/" = true → StrIn h0 s) :
    Bound h0 (h ++ ext) := by
  intro s hd hs
  rcases strIn_append_elim hs with h1 | ⟨ob, hob, hsx⟩
  · exact hb s hd h1
  · exact he ob hob s hsx hd

theorem objStrs_arrSet {its : List JVal} {i n : Nat} {s : String}
    (hs : s ∈ objStrs (JObj.arr (its.set i (JVal.ref n)))) :
    s ∈ objStrs (JObj.arr its) := by
  rw [mem_objStrs_arr] at hs ⊢
  obtain ⟨v, hv, hsx⟩ := hs
  rcases List.mem_or_eq_of_mem_set hv with h1 | h1
  · exact ⟨v, h1, hsx⟩
  · subst h1; exact absurd hsx (List.not_mem_nil s)

theorem bound_setSlot {h0 h : Heap} {slot : Slot} {n : Nat}
    (hb : Bound h0 h) : Bound h0 (setSlot h slot (JVal.ref n)) := by
  cases slot with
  | root => exact hb
  | fld pa k =>
    exact bound_heapSetField hb (fun s hs => absurd hs (List.not_mem_nil s))
  | idx pa i =>
    intro s hd hs
    rw [setSlot] at hs
    cases hg : h.get? pa with
    | none => rw [hg] at hs; exact hb s hd hs
    | some ob =>
      rw [hg] at hs
      cases ob with
      | record fs => exact hb s hd hs
      | arr its =>
        rcases strIn_set_elim hs with h1 | h1
        · exact hb s hd h1
        · exact hb s hd (strIn_of_get hg (objStrs_arrSet h1))

theorem foldl_inv {α β : Type} (P : β → Prop) (f : β → α → β)
    (hstep : ∀ b a, P b → P (f b a)) :
    ∀ (l : List α) (b : β), P b → P (l.foldl f b)
  | [], _, hb => hb
  | a :: l, b, hb => foldl_inv P f hstep l (f b a) (hstep b a hb)

theorem ctxSteps_trans {σ : Type} {vis : WalkVisitor σ} {h1 h2 h3 : Heap}
    (hab : CtxSteps vis h1 h2) (hbc : CtxSteps vis h2 h3) :
    CtxSteps vis h1 h3 := by
  induction hbc with
  | refl => exact hab
  | tail st a ptr slot hb ih => exact CtxSteps.tail st a ptr slot ih

theorem walkQ {σ : Type} (Q : σ → Heap → Prop) (vis : WalkVisitor σ)
    (hvis : ∀ st h a ptr ctx slot, Q st h →
      Q (vis st h a ptr ctx slot).1 (vis st h a ptr ctx slot).2) :
    ∀ fuel : Nat,
      (∀ st h val ptr ctx seen slot, Q st h →
        Q (walk vis fuel st h val ptr ctx seen slot).1
          (walk vis fuel st h val ptr ctx seen slot).2) ∧
      (∀ st h items i ptr ctx seen pa, Q st h →
        Q (walkItems vis fuel st h items i ptr ctx seen pa).1
          (walkItems vis fuel st h items i ptr ctx seen pa).2) ∧
      (∀ st h fs ptr ctx seen pa, Q st h →
        Q (walkFields vis fuel st h fs ptr ctx seen pa).1
          (walkFields vis fuel st h fs ptr ctx seen pa).2) := by
  intro fuel
  induction fuel with
  | zero =>
    refine ⟨?_, ?_, ?_⟩
    · intro st h val ptr ctx seen slot hQ
      exact hQ
    · intro st h items i ptr ctx seen pa hQ
      exact hQ
    · intro st h fs ptr ctx seen pa hQ
      exact hQ
  | succ n ih =>
    refine ⟨?_, ?_, ?_⟩
    · intro st h val ptr ctx seen slot hQ
      cases val with
      | null => exact hQ
      | bool b => exact hQ
      | num m => exact hQ
      | str s => exact hQ
      | ref a =>
        rcases hv : vis st h a ptr ctx slot with ⟨s1, h1⟩
        have hQ1 : Q s1 h1 := by
          have hx := hvis st h a ptr ctx slot hQ
          rwa [hv] at hx
        simp only [walk]
        rw [hv]
        dsimp only
        by_cases hseen : a ∈ seen
        · rw [if_pos hseen]
          exact hQ1
        · rw [if_neg hseen]
          cases hg : h1.get? a with
          | none => exact hQ1
          | some ob =>
            cases ob with
            | arr items => exact ih.2.1 s1 h1 items 0 ptr ctx (a :: seen) a hQ1
            | record fs => exact ih.2.2 s1 h1 fs ptr ctx (a :: seen) a hQ1
    · intro st h items i ptr ctx seen pa hQ
      cases items with
      | nil => exact hQ
      | cons v rest =>
        rcases hw : walk vis n st h v
            (ptr ++ "/" ++ encodeJsonPointerToken (natDecimal i)) ctx seen
            (Slot.idx pa i) with ⟨s1, h1⟩
        have hQ1 : Q s1 h1 := by
          have hx := ih.1 st h v
            (ptr ++ "/" ++ encodeJsonPointerToken (natDecimal i)) ctx seen
            (Slot.idx pa i) hQ
          rwa [hw] at hx
        simp only [walkItems]
        rw [hw]
        dsimp only
        exact ih.2.1 s1 h1 rest (i + 1) ptr ctx seen pa hQ1
    · intro st h fs ptr ctx seen pa hQ
      cases fs with
      | nil => exact hQ
      | cons p rest =>
        rcases p with ⟨k, v⟩
        rcases hw : walk vis n st h v (ptr ++ "/" ++ encodeJsonPointerToken k)
            (ctx || schemaContextKeys.contains k) seen (Slot.fld pa k) with
          ⟨s1, h1⟩
        have hQ1 : Q s1 h1 := by
          have hx := ih.1 st h v (ptr ++ "/" ++ encodeJsonPointerToken k)
            (ctx || schemaContextKeys.contains k) seen (Slot.fld pa k) hQ
          rwa [hw] at hx
        simp only [walkFields]
        rw [hw]
        dsimp only
        exact ih.2.2 s1 h1 rest ptr ctx seen pa hQ1

theorem walk_preserves {σ : Type} (Q : σ → Heap → Prop) (vis : WalkVisitor σ)
    (hvis : ∀ st h a ptr ctx slot, Q st h →
      Q (vis st h a ptr ctx slot).1 (vis st h a ptr ctx slot).2)
    (fuel : Nat) (st : σ) (h : Heap) (val : JVal) (ptr : String) (ctx : Bool)
    (seen : List Nat) (slot : Slot) (hQ : Q st h) :
    Q (walk vis fuel st h val ptr ctx seen slot).1
      (walk vis fuel st h val ptr ctx seen slot).2 :=
  (walkQ Q vis hvis fuel).1 st h val ptr ctx seen slot hQ


/-! ### The local-ref pass (claim C2) -/

theorem isPrefixL_append_self : ∀ (l t : List Char),
    isPrefixL l (l ++ t) = true
  | [], _ => rfl
  | a :: as, t => by simp [isPrefixL, isPrefixL_append_self as t]

theorem isPrefixL_exists : ∀ (p l : List Char), isPrefixL p l = true →
    ∃ t, l = p ++ t
  | [], l, _ => ⟨l, rfl⟩
  | a :: as, [], h => by simp [isPrefixL] at h
  | a :: as, b :: bs, h => by
    simp only [isPrefixL, Bool.and_eq_true, beq_iff_eq] at h
    obtain ⟨t, ht⟩ := isPrefixL_exists as bs h.2
    exact ⟨t, by rw [h.1, ht]; rfl⟩

theorem comp_pointer_not_paths (cp : String)
    (h : jsStartsWith cp "#/components/schemas/" = true) :
    jsStartsWith cp "#/paths/" = false := by
  obtain ⟨t, ht⟩ := isPrefixL_exists _ _ h
  show isPrefixL "#/paths/".toList cp.toList = false
  rw [ht]
  simp [isPrefixL]

theorem register_pointer_prefix {h h' : Heap} {reg reg' : SchemaRegistry}
    {sa : Nat} {pn cp : String}
    (hreg : registerSchemaInComponents h reg sa pn = (h', reg', cp))
    (hptrs : ∀ p ∈ reg.schemaPointersByValue,
      jsStartsWith p.2 "#/components/schemas/" = true) :
    jsStartsWith cp "#/components/schemas/" = true ∧
    (∀ p ∈ reg'.schemaPointersByValue,
      jsStartsWith p.2 "#/components/schemas/" = true) := by
  rw [registerSchemaInComponents] at hreg
  cases hl : lookupAddr reg.schemaPointersByValue sa with
  | some p =>
    rw [hl] at hreg
    injection hreg with h1 h23
    injection h23 with h2 h3
    subst h2
    subst h3
    obtain ⟨q, hq, hqp⟩ := Option.map_eq_some'.1 hl
    refine ⟨?_, hptrs⟩
    rw [← hqp]
    exact hptrs q (List.mem_of_find?_eq_some hq)
  | none =>
    rw [hl] at hreg
    dsimp only at hreg
    injection hreg with h1 h23
    injection h23 with h2 h3
    subst h2
    subst h3
    have hpre : ∀ x : String, jsStartsWith
        ("#/components/schemas/" ++ x) "#/components/schemas/" = true := by
      intro x
      show isPrefixL _ ("#/components/schemas/" ++ x).toList = true
      show isPrefixL _ ("#/components/schemas/" ++ x).data = true
      rw [String.data_append]
      exact isPrefixL_append_self _ _
    refine ⟨hpre _, ?_⟩
    intro p hp
    rcases List.mem_append.1 hp with hold | hnew
    · exact hptrs p hold
    · rcases List.mem_singleton.1 hnew with rfl
      exact hpre _


theorem valStrs_comp_ok {h0 : Heap} {cp : String}
    (hcp : jsStartsWith cp "#/components/schemas/" = true) :
    ∀ s, s ∈ valStrs (JVal.str cp) → jsStartsWith s "#/paths/" = true →
      StrIn h0 s := by
  intro s hs hd
  simp only [valStrs, List.mem_singleton] at hs
  subst hs
  rw [comp_pointer_not_paths s hcp] at hd
  exact Bool.noConfusion hd

theorem valStrs_ref_ok {h0 : Heap} {n : Nat} :
    ∀ s, s ∈ valStrs (JVal.ref n) → jsStartsWith s "#/paths/" = true →
      StrIn h0 s :=
  fun s hs => absurd hs (List.not_mem_nil s)

theorem getFieldL_strs {fs : List (String × JVal)} {k : String} {v : JVal}
    (hg : getFieldL fs k = some v) :
    ∀ s ∈ valStrs v, s ∈ objStrs (JObj.record fs) := by
  rw [getFieldL] at hg
  obtain ⟨p, hp, hpv⟩ := Option.map_eq_some'.mp hg
  intro s hs
  exact mem_objStrs_record.mpr ⟨p, List.mem_of_find?_eq_some hp, hpv ▸ hs⟩

theorem buildReplacement_strs {fs : List (String × JVal)} {cp s : String}
    (hs : s ∈ objStrs (JObj.record (buildReplacementFields fs cp))) :
    s = cp ∨ s ∈ objStrs (JObj.record fs) := by
  rw [mem_objStrs_record] at hs
  obtain ⟨p, hp, hv⟩ := hs
  rw [buildReplacementFields] at hp
  rcases List.mem_append.mp hp with h1 | h1
  · rcases List.mem_append.mp h1 with h2 | h2
    · rw [List.mem_singleton] at h2
      subst h2
      simp only [valStrs, List.mem_singleton] at hv
      exact Or.inl hv
    · cases hg : getFieldL fs "summary" with
      | none =>
        rw [hg] at h2
        exact absurd h2 (List.not_mem_nil p)
      | some w =>
        rw [hg] at h2
        cases w with
        | str s' =>
          rw [List.mem_singleton] at h2
          subst h2
          exact Or.inr (getFieldL_strs hg s hv)
        | null => exact absurd h2 (List.not_mem_nil p)
        | bool b => exact absurd h2 (List.not_mem_nil p)
        | num m => exact absurd h2 (List.not_mem_nil p)
        | ref n => exact absurd h2 (List.not_mem_nil p)
  · cases hg : getFieldL fs "description" with
    | none =>
      rw [hg] at h1
      exact absurd h1 (List.not_mem_nil p)
    | some w =>
      rw [hg] at h1
      cases w with
      | str s' =>
        rw [List.mem_singleton] at h1
        subst h1
        exact Or.inr (getFieldL_strs hg s hv)
      | null => exact absurd h1 (List.not_mem_nil p)
      | bool b => exact absurd h1 (List.not_mem_nil p)
      | num m => exact absurd h1 (List.not_mem_nil p)
      | ref n => exact absurd h1 (List.not_mem_nil p)

theorem bound_append_replacement {h0 h1 : Heap} {fs : List (String × JVal)}
    {a : Nat} {cp : String} (hb : Bound h0 h1)
    (hget : h1.get? a = some (JObj.record fs))
    (hcp : jsStartsWith cp "#/components/schemas/" = true) :
    Bound h0 (h1 ++ [JObj.record (buildReplacementFields fs cp)]) := by
  refine bound_append hb ?_
  intro ob hob s hs hd
  rw [List.mem_singleton] at hob
  subst hob
  rcases buildReplacement_strs hs with h2 | h2
  · subst h2
    rw [comp_pointer_not_paths s hcp] at hd
    exact Bool.noConfusion hd
  · exact hb s hd (strIn_of_get hget h2)

theorem bound_register {h0 h h' : Heap} {reg reg' : SchemaRegistry}
    {sa : Nat} {pn cp : String}
    (he : registerSchemaInComponents h reg sa pn = (h', reg', cp))
    (hb : Bound h0 h) (hr : RegPtrs reg) :
    Bound h0 h' ∧ RegPtrs reg' ∧
      jsStartsWith cp "#/components/schemas/" = true := by
  have hpp := register_pointer_prefix he hr
  refine ⟨?_, hpp.2, hpp.1⟩
  rw [registerSchemaInComponents] at he
  cases hl : lookupAddr reg.schemaPointersByValue sa with
  | some p =>
    rw [hl] at he
    cases he
    exact hb
  | none =>
    rw [hl] at he
    dsimp only at he
    cases he
    exact bound_heapSetField hb valStrs_ref_ok

theorem refRecord_strs {cp s : String}
    (hs : s ∈ objStrs (JObj.record [("$ref", JVal.str cp)])) : s = cp := by
  rw [mem_objStrs_record] at hs
  obtain ⟨p, hp, hv⟩ := hs
  rw [List.mem_singleton] at hp
  subst hp
  simp only [valStrs, List.mem_singleton] at hv
  exact hv

theorem lookupAddr_prefix {m : List (Nat × String)} {a : Nat} {cp : String}
    (hm : ∀ p ∈ m, jsStartsWith p.2 "#/components/schemas/" = true)
    (hl : lookupAddr m a = some cp) :
    jsStartsWith cp "#/components/schemas/" = true := by
  rw [lookupAddr] at hl
  obtain ⟨p, hp, hpv⟩ := Option.map_eq_some'.mp hl
  exact hpv ▸ hm p (List.mem_of_find?_eq_some hp)

theorem bound_state_keep {h0 h h' : Heap} {reg : SchemaRegistry}
    {st' : Option SchemaRegistry} (hb : Bound h0 h) (hreg : RegPtrs reg)
    (hv : ((some reg : Option SchemaRegistry), h) = (st', h')) :
    Bound h0 h' ∧ (∀ r, st' = some r → RegPtrs r) := by
  cases hv
  exact ⟨hb, fun r hre => by cases hre; exact hreg⟩

theorem bound_state_none {h0 h h' : Heap} {st' : Option SchemaRegistry}
    (hb : Bound h0 h)
    (hv : ((none : Option SchemaRegistry), h) = (st', h')) :
    Bound h0 h' ∧ (∀ r, st' = some r → RegPtrs r) := by
  cases hv
  exact ⟨hb, fun r hre => Option.noConfusion hre⟩

theorem rewriteLocal_register_tail {h0 h h1 h' : Heap}
    {reg reg1 : SchemaRegistry} {sa a : Nat} {pn s cp : String}
    {st' : Option SchemaRegistry}
    (hrg : registerSchemaInComponents h reg sa pn = (h1, reg1, cp))
    (hb : Bound h0 h) (hreg : RegPtrs reg)
    (hv : (if s ≠ cp then
        ((some reg1 : Option SchemaRegistry),
          heapSetField h1 a "$ref" (JVal.str cp))
      else (some reg1, h1)) = (st', h')) :
    Bound h0 h' ∧ (∀ r, st' = some r → RegPtrs r) := by
  obtain ⟨hb1, hr1, hcp⟩ := bound_register hrg hb hreg
  by_cases hne : s ≠ cp
  · rw [if_pos hne] at hv
    cases hv
    exact ⟨bound_heapSetField hb1 (valStrs_comp_ok hcp),
      fun r hre => by cases hre; exact hr1⟩
  · rw [if_neg hne] at hv
    cases hv
    exact ⟨hb1, fun r hre => by cases hre; exact hr1⟩

theorem rewriteLocalVisitor_bound (h0 : Heap) (rootA : Nat)
    (res : ExternalResolver) (fpF : Nat) :
    ∀ (st : Option SchemaRegistry) (h : Heap) (a : Nat) (ptr : String)
      (ctx : Bool) (slot : Slot),
      (Bound h0 h ∧ ∀ r, st = some r → RegPtrs r) →
      (Bound h0 (rewriteLocalVisitor rootA res fpF st h a ptr ctx slot).2 ∧
       ∀ r, (rewriteLocalVisitor rootA res fpF st h a ptr ctx slot).1 =
         some r → RegPtrs r) := by
  intro st h a ptr ctx slot hQ
  obtain ⟨hb, hst⟩ := hQ
  cases st with
  | none => exact ⟨hb, fun r hre => Option.noConfusion hre⟩
  | some reg =>
    have hreg := hst reg rfl
    rcases hv : rewriteLocalVisitor rootA res fpF (some reg) h a ptr ctx
      slot with ⟨st', h'⟩
    simp only [rewriteLocalVisitor] at hv
    cases ctx with
    | false =>
      rw [if_pos (show (!false) = true from rfl)] at hv
      exact bound_state_keep hb hreg hv
    | true =>
      rw [if_neg (show ¬(!true) = true from by decide)] at hv
      cases hg : h.get? a with
      | none =>
        rw [hg] at hv
        exact bound_state_keep hb hreg hv
      | some ob =>
        rw [hg] at hv
        cases ob with
        | arr its => exact bound_state_keep hb hreg hv
        | record fs =>
          dsimp only at hv
          cases hf : getFieldL fs "$ref" with
          | none =>
            rw [hf] at hv
            exact bound_state_keep hb hreg hv
          | some w =>
            rw [hf] at hv
            cases w with
            | null => exact bound_state_keep hb hreg hv
            | bool b => exact bound_state_keep hb hreg hv
            | num m => exact bound_state_keep hb hreg hv
            | ref n => exact bound_state_keep hb hreg hv
            | str s =>
              dsimp only at hv
              by_cases hpre : (jsStartsWith s "#/" &&
                  !jsStartsWith s "#/components/schemas/") = true
              · rw [if_pos hpre] at hv
                cases hr : resolveLocalPointer h rootA s with
                | none =>
                  rw [hr] at hv
                  exact bound_state_keep hb hreg hv
                | some w2 =>
                  rw [hr] at hv
                  cases w2 with
                  | null => exact bound_state_keep hb hreg hv
                  | bool b => exact bound_state_keep hb hreg hv
                  | num m => exact bound_state_keep hb hreg hv
                  | str s2 => exact bound_state_keep hb hreg hv
                  | ref ra =>
                    dsimp only at hv
                    cases hg2 : h.get? ra with
                    | none =>
                      rw [hg2] at hv
                      exact bound_state_keep hb hreg hv
                    | some ob2 =>
                      rw [hg2] at hv
                      cases ob2 with
                      | arr its2 => exact bound_state_keep hb hreg hv
                      | record fs2 =>
                        dsimp only at hv
                        cases hc : resolveExternalSchemaCandidate h fpF res
                          ra with
                        | none =>
                          rw [hc] at hv
                          exact bound_state_none hb hv
                        | some m =>
                          rw [hc] at hv
                          cases m with
                          | none =>
                            dsimp only at hv
                            rcases hrg : registerSchemaInComponents h reg ra
                              (createSchemaNameFromPointer s) with
                              ⟨h1, reg1, cp⟩
                            rw [hrg] at hv
                            exact rewriteLocal_register_tail hrg hb hreg hv
                          | some nc =>
                            rcases nc with ⟨n, c⟩
                            dsimp only at hv
                            rcases hrg : registerSchemaInComponents h reg c
                              (if n = "" then createSchemaNameFromPointer s
                               else n) with ⟨h1, reg1, cp⟩
                            rw [hrg] at hv
                            exact rewriteLocal_register_tail hrg hb hreg hv
              · rw [if_neg hpre] at hv
                exact bound_state_keep hb hreg hv

theorem inlineVisitor_bound (h0 : Heap) (res : ExternalResolver)
    (index : List (String × List (String × Nat))) (fpF : Nat) :
    ∀ (st : Option (SchemaRegistry × Bool)) (h : Heap) (a : Nat)
      (ptr : String) (ctx : Bool) (slot : Slot),
      (Bound h0 h ∧ ∀ r c, st = some (r, c) → RegPtrs r) →
      (Bound h0 (inlineVisitor res index fpF st h a ptr ctx slot).2 ∧
       ∀ r c, (inlineVisitor res index fpF st h a ptr ctx slot).1 =
         some (r, c) → RegPtrs r) := by
  intro st h a ptr ctx slot hQ
  obtain ⟨hb, hst⟩ := hQ
  cases st with
  | none => exact ⟨hb, fun r c hre => Option.noConfusion hre⟩
  | some p =>
    rcases p with ⟨reg, ch⟩
    have hreg := hst reg ch rfl
    rcases hv : inlineVisitor res index fpF (some (reg, ch)) h a ptr ctx
      slot with ⟨st', h'⟩
    simp only [inlineVisitor] at hv
    by_cases hguard :
        (!ctx || isComponentSchemaRootPointer ptr || slot == Slot.root) =
          true
    · rw [if_pos hguard] at hv
      cases hv
      exact ⟨hb, fun r c hre => by cases hre; exact hreg⟩
    · rw [if_neg hguard] at hv
      cases hg : h.get? a with
      | none =>
        rw [hg] at hv
        cases hv
        exact ⟨hb, fun r c hre => by cases hre; exact hreg⟩
      | some ob =>
        rw [hg] at hv
        cases ob with
        | arr its =>
          cases hv
          exact ⟨hb, fun r c hre => by cases hre; exact hreg⟩
        | record fs =>
          dsimp only at hv
          cases hc : resolveExternalSchemaCandidate h fpF res a with
          | none =>
            rw [hc] at hv
            cases hv
            exact ⟨hb, fun r c hre => Option.noConfusion hre⟩
          | some ms =>
            rw [hc] at hv
            cases ms with
            | some cand =>
              rcases cand with ⟨name, schemaAddr⟩
              dsimp only at hv
              rcases hrg : registerSchemaInComponents h reg schemaAddr
                name with ⟨h1, reg1, cp⟩
              rw [hrg] at hv
              obtain ⟨hb1, hr1, hcp⟩ := bound_register hrg hb hreg
              cases hg1 : h1.get? a with
              | none =>
                rw [hg1] at hv
                cases hv
                exact ⟨hb1, fun r c hre => by cases hre; exact hr1⟩
              | some ob1 =>
                rw [hg1] at hv
                cases ob1 with
                | arr its1 =>
                  cases hv
                  exact ⟨hb1, fun r c hre => by cases hre; exact hr1⟩
                | record fs1 =>
                  dsimp only at hv
                  by_cases heq : isEquivalentRefReplacement fs1
                      (buildReplacementFields fs1 cp) = true
                  · rw [if_pos heq] at hv
                    cases hv
                    exact ⟨hb1, fun r c hre => by cases hre; exact hr1⟩
                  · rw [if_neg heq] at hv
                    cases hv
                    exact ⟨bound_setSlot
                      (bound_append_replacement hb1 hg1 hcp),
                      fun r c hre => by cases hre; exact hr1⟩
            | none =>
              dsimp only at hv
              cases hcc : resolveExternalComponentCandidate h fpF index a
                with
              | none =>
                rw [hcc] at hv
                cases hv
                exact ⟨hb, fun r c hre => Option.noConfusion hre⟩
              | some selected =>
                rw [hcc] at hv
                cases selected with
                | none =>
                  cases hv
                  exact ⟨hb, fun r c hre => by cases hre; exact hreg⟩
                | some cand =>
                  rcases cand with ⟨name, schemaAddr⟩
                  dsimp only at hv
                  rcases hrg : registerSchemaInComponents h reg schemaAddr
                    name with ⟨h1, reg1, cp⟩
                  rw [hrg] at hv
                  obtain ⟨hb1, hr1, hcp⟩ := bound_register hrg hb hreg
                  cases hg1 : h1.get? a with
                  | none =>
                    rw [hg1] at hv
                    cases hv
                    exact ⟨hb1, fun r c hre => by cases hre; exact hr1⟩
                  | some ob1 =>
                    rw [hg1] at hv
                    cases ob1 with
                    | arr its1 =>
                      cases hv
                      exact ⟨hb1, fun r c hre => by cases hre; exact hr1⟩
                    | record fs1 =>
                      dsimp only at hv
                      by_cases heq : isEquivalentRefReplacement fs1
                          (buildReplacementFields fs1 cp) = true
                      · rw [if_pos heq] at hv
                        cases hv
                        exact ⟨hb1, fun r c hre => by cases hre; exact hr1⟩
                      · rw [if_neg heq] at hv
                        cases hv
                        exact ⟨bound_setSlot
                          (bound_append_replacement hb1 hg1 hcp),
                          fun r c hre => by cases hre; exact hr1⟩

theorem replaceHoistedVisitor_bound (h0 : Heap) (reg : SchemaRegistry)
    (hreg : RegPtrs reg) :
    ∀ (st : Unit) (h : Heap) (a : Nat) (ptr : String) (ctx : Bool)
      (slot : Slot), Bound h0 h →
      Bound h0 (replaceHoistedVisitor reg st h a ptr ctx slot).2 := by
  intro st h a ptr ctx slot hb
  rcases hv : replaceHoistedVisitor reg st h a ptr ctx slot with ⟨u, h'⟩
  simp only [replaceHoistedVisitor] at hv
  by_cases hgd : (!ctx || slot == Slot.root) = true
  · rw [if_pos hgd] at hv
    cases hv
    exact hb
  · rw [if_neg hgd] at hv
    cases hl : lookupAddr reg.schemaPointersByValue a with
    | none =>
      rw [hl] at hv
      cases hv
      exact hb
    | some cp =>
      rw [hl] at hv
      dsimp only at hv
      by_cases hcond : (ptr = cp || isComponentSchemaRootPointer ptr) = true
      · rw [if_pos hcond] at hv
        cases hv
        exact hb
      · rw [if_neg hcond] at hv
        cases hv
        have hcp := lookupAddr_prefix hreg hl
        refine bound_setSlot (bound_append hb ?_)
        intro ob hob s hs hd
        rw [List.mem_singleton] at hob
        subst hob
        have hscp := refRecord_strs hs
        subst hscp
        rw [comp_pointer_not_paths s hcp] at hd
        exact Bool.noConfusion hd

theorem collectVisitor_heap (ext : List (Nat × String)) :
    ∀ (st : List (Nat × String)) (h : Heap) (a : Nat) (ptr : String)
      (ctx : Bool) (slot : Slot),
      (collectVisitor ext st h a ptr ctx slot).2 = h := by
  intro st h a ptr ctx slot
  simp only [collectVisitor]
  repeat' split
  all_goals rfl

theorem discriminatorCollectVisitor_heap :
    ∀ (st : List MappingRewrite) (h : Heap) (a : Nat) (ptr : String)
      (ctx : Bool) (slot : Slot),
      (discriminatorCollectVisitor st h a ptr ctx slot).2 = h := by
  intro st h a ptr ctx slot
  simp only [discriminatorCollectVisitor]
  repeat' split
  all_goals rfl

theorem comp_prefix_append (x : String) :
    jsStartsWith ("#/components/schemas/" ++ x) "#/components/schemas/" =
      true := by
  show isPrefixL "#/components/schemas/".data
    ("#/components/schemas/" ++ x).data = true
  rw [String.data_append]
  exact isPrefixL_append_self _ _

theorem rewriteLocal_pass_bound {h0 : Heap} {fpF wF rootA : Nat}
    {res : ExternalResolver} {reg reg' : SchemaRegistry} {h h' : Heap}
    (he : rewriteLocalSchemaRefsToComponents fpF wF rootA res reg h =
      some (reg', h'))
    (hb : Bound h0 h) (hreg : RegPtrs reg) : Bound h0 h' ∧ RegPtrs reg' := by
  rcases hw : walk (rewriteLocalVisitor rootA res fpF) wF (some reg) h
    (JVal.ref rootA) "#" false [] Slot.root with ⟨stw, hw'⟩
  have hQ := walk_preserves
    (fun st hh => Bound h0 hh ∧ ∀ r, st = some r → RegPtrs r)
    (rewriteLocalVisitor rootA res fpF)
    (rewriteLocalVisitor_bound h0 rootA res fpF) wF (some reg) h
    (JVal.ref rootA) "#" false [] Slot.root
    ⟨hb, fun r hre => by cases hre; exact hreg⟩
  rw [hw] at hQ
  simp only [rewriteLocalSchemaRefsToComponents] at he
  rw [hw] at he
  cases stw with
  | none => exact Option.noConfusion he
  | some r =>
    dsimp only at he
    cases he
    exact ⟨hQ.1, hQ.2 _ rfl⟩

theorem inline_iter_bound {h0 : Heap} {fpF wF rootA : Nat}
    {res : ExternalResolver} {reg reg' : SchemaRegistry} {h h' : Heap}
    {ch : Bool}
    (he : rewriteInlineIteration fpF wF rootA res reg h =
      some (reg', h', ch))
    (hb : Bound h0 h) (hreg : RegPtrs reg) : Bound h0 h' ∧ RegPtrs reg' := by
  simp only [rewriteInlineIteration] at he
  cases hbi : buildExternalComponentFingerprintIndex h fpF reg
    res.canonicalByName with
  | none =>
    rw [hbi] at he
    exact Option.noConfusion he
  | some index =>
    rw [hbi] at he
    dsimp only at he
    rcases hw : walk (inlineVisitor res index fpF) wF (some (reg, false)) h
      (JVal.ref rootA) "#" false [] Slot.root with ⟨stw, hw'⟩
    have hQ := walk_preserves
      (fun st hh => Bound h0 hh ∧ ∀ r c, st = some (r, c) → RegPtrs r)
      (inlineVisitor res index fpF) (inlineVisitor_bound h0 res index fpF)
      wF (some (reg, false)) h (JVal.ref rootA) "#" false [] Slot.root
      ⟨hb, fun r c hre => by cases hre; exact hreg⟩
    rw [hw] at hQ
    rw [hw] at he
    cases stw with
    | none => exact Option.noConfusion he
    | some p =>
      rcases p with ⟨r, c⟩
      dsimp only at he
      cases he
      exact ⟨hQ.1, hQ.2 _ _ rfl⟩

theorem inline_loop_bound (h0 : Heap) {fpF wF rootA : Nat}
    {res : ExternalResolver} :
    ∀ (lf : Nat) {reg reg' : SchemaRegistry} {h h' : Heap} {fin : Bool},
      rewriteInlineExternalSchemasToComponentRefs fpF wF rootA res lf reg
        h = some (reg', h', fin) →
      Bound h0 h → RegPtrs reg → Bound h0 h' ∧ RegPtrs reg'
  | 0, reg, reg', h, h', fin, he, hb, hreg => by
    cases he
    exact ⟨hb, hreg⟩
  | lf + 1, reg, reg', h, h', fin, he, hb, hreg => by
    rw [show rewriteInlineExternalSchemasToComponentRefs fpF wF rootA res
        (lf + 1) reg h =
      (match rewriteInlineIteration fpF wF rootA res reg h with
       | none => none
       | some (reg1, h1, ch) =>
         if ch then rewriteInlineExternalSchemasToComponentRefs fpF wF
           rootA res lf reg1 h1
         else some (reg1, h1, true)) from rfl] at he
    cases hit : rewriteInlineIteration fpF wF rootA res reg h with
    | none =>
      rw [hit] at he
      exact Option.noConfusion he
    | some t =>
      rw [hit] at he
      rcases t with ⟨reg1, h1, ch⟩
      dsimp only at he
      obtain ⟨hb1, hr1⟩ := inline_iter_bound hit hb hreg
      cases ch with
      | true =>
        rw [if_pos rfl] at he
        exact inline_loop_bound h0 lf he hb1 hr1
      | false =>
        rw [if_neg (by decide)] at he
        cases he
        exact ⟨hb1, hr1⟩

theorem replaceHoisted_bound (h0 : Heap) (wF rootA : Nat)
    (reg : SchemaRegistry) (h : Heap) (hb : Bound h0 h)
    (hreg : RegPtrs reg) :
    Bound h0 (replaceHoistedObjectsWithRefs wF rootA reg h) := by
  simp only [replaceHoistedObjectsWithRefs]
  exact walk_preserves (fun _ hh => Bound h0 hh) (replaceHoistedVisitor reg)
    (fun st hh a ptr ctx slot hq =>
      replaceHoistedVisitor_bound h0 reg hreg st hh a ptr ctx slot hq)
    wF () h (JVal.ref rootA) "#" false [] Slot.root hb

theorem collect_walk_heap (ext : List (Nat × String)) (wF : Nat)
    (st0 : List (Nat × String)) (h : Heap) (val : JVal) (ptr : String)
    (ctx : Bool) (seen : List Nat) (slot : Slot) :
    (walk (collectVisitor ext) wF st0 h val ptr ctx seen slot).2 = h :=
  walk_preserves (fun _ hh => hh = h) (collectVisitor ext)
    (fun st hh a ptr' ctx' slot' hq =>
      (collectVisitor_heap ext st hh a ptr' ctx' slot').trans hq)
    wF st0 h val ptr ctx seen slot rfl

theorem discCollect_walk_heap (wF : Nat) (st0 : List MappingRewrite)
    (h : Heap) (val : JVal) (ptr : String) (ctx : Bool) (seen : List Nat)
    (slot : Slot) :
    (walk discriminatorCollectVisitor wF st0 h val ptr ctx seen slot).2 =
      h :=
  walk_preserves (fun _ hh => hh = h) discriminatorCollectVisitor
    (fun st hh a ptr' ctx' slot' hq =>
      (discriminatorCollectVisitor_heap st hh a ptr' ctx' slot').trans hq)
    wF st0 h val ptr ctx seen slot rfl

theorem ensureExternal_bound {h0 : Heap} {o : ExtOracle}
    (ho : OracleBound o) {fpF : Nat} {h h1 : Heap}
    {res res1 : ResolverState} {sp : String} {out : Option Nat}
    (he : ensureExternalSchemaForSourcePath o fpF h res sp =
      some (h1, res1, out))
    (hb : Bound h0 h) : Bound h0 h1 := by
  simp only [ensureExternalSchemaForSourcePath] at he
  split at he
  · cases he
    exact hb
  · split at he
    · cases he
      exact hb
    · split at he
      · rename_i h1' heq
        cases he
        exact bound_trans hb (by have hx := ho h sp; rwa [heq] at hx)
      · rename_i h1' a heq
        have hb1 : Bound h0 h1' :=
          bound_trans hb (by have hx := ho h sp; rwa [heq] at hx)
        split at he
        · split at he
          · cases he
            exact hb1
          · split at he
            · exact Option.noConfusion he
            · cases he
              exact hb1
        · cases he
          exact hb1

theorem ensureCompPtr_bound {h0 : Heap} {o : ExtOracle} (ho : OracleBound o)
    {fpF : Nat} {h h2 : Heap} {reg reg2 : SchemaRegistry}
    {res res2 : ResolverState} {sp : String} {out : Option String}
    (he : ensureComponentPointerForSourcePath o fpF h reg res sp =
      some (h2, reg2, res2, out))
    (hb : Bound h0 h) (hreg : RegPtrs reg) :
    Bound h0 h2 ∧ RegPtrs reg2 ∧
      (∀ cp, out = some cp →
        jsStartsWith cp "#/components/schemas/" = true) := by
  simp only [ensureComponentPointerForSourcePath] at he
  split at he
  · exact Option.noConfusion he
  · rename_i h1 res1 heq
    cases he
    exact ⟨ensureExternal_bound ho heq hb, hreg,
      fun cp hcp => Option.noConfusion hcp⟩
  · rename_i h1 res1 a heq
    have hb1 := ensureExternal_bound ho heq hb
    split at he
    · rename_i n heq2
      rcases hrg : registerSchemaInComponents h1 reg a
        (if n = "" then createSchemaNameFromSourcePath sp else n) with
        ⟨h2', reg2', cp'⟩
      rw [hrg] at he
      dsimp only at he
      cases he
      obtain ⟨hb2, hr2, hcp2⟩ := bound_register hrg hb1 hreg
      exact ⟨hb2, hr2, fun cp hcp => by cases hcp; exact hcp2⟩
    · rcases hrg : registerSchemaInComponents h1 reg a
        (createSchemaNameFromSourcePath sp) with ⟨h2', reg2', cp'⟩
      rw [hrg] at he
      dsimp only at he
      cases he
      obtain ⟨hb2, hr2, hcp2⟩ := bound_register hrg hb1 hreg
      exact ⟨hb2, hr2, fun cp hcp => by cases hcp; exact hcp2⟩

theorem resolveMapping_bound {h0 : Heap} {o : ExtOracle}
    (ho : OracleBound o) {fpF : Nat} {h h1 : Heap}
    {reg reg1 : SchemaRegistry} {res res1 : ResolverState}
    {mv : String} {sa : Nat} {sp : String} {out : Option String}
    (he : resolveDiscriminatorMappingPointer o fpF h reg res mv sa sp =
      some (h1, reg1, res1, out))
    (hb : Bound h0 h) (hreg : RegPtrs reg) :
    Bound h0 h1 ∧ RegPtrs reg1 ∧
      (∀ cp, out = some cp →
        jsStartsWith cp "#/components/schemas/" = true) := by
  simp only [resolveDiscriminatorMappingPointer] at he
  split at he
  · rename_i hcond
    cases he
    exact ⟨hb, hreg, fun cp hcp => by cases hcp; exact hcond⟩
  · split at he
    · cases he
      exact ⟨hb, hreg, fun cp hcp => Option.noConfusion hcp⟩
    · split at he
      · cases he
        exact ⟨hb, hreg, fun cp hcp => Option.noConfusion hcp⟩
      · split at he
        · exact Option.noConfusion he
        · split at he
          · cases he
            exact ⟨hb, hreg,
              fun cp hcp => by cases hcp; exact comp_prefix_append _⟩
          · cases he
            exact ⟨hb, hreg, fun cp hcp => Option.noConfusion hcp⟩
        · rename_i sourcePath hmatch
          split at he
          · exact Option.noConfusion he
          · rename_i h1' res1' heq
            cases he
            exact ⟨ensureExternal_bound ho heq hb, hreg,
              fun cp hcp => Option.noConfusion hcp⟩
          · rename_i h1' res1' ext heq
            have hb1 := ensureExternal_bound ho heq hb
            split at he
            · rename_i n heq2
              rcases hrg : registerSchemaInComponents h1' reg ext
                (if n = "" then createSchemaNameFromSourcePath sourcePath
                 else n) with ⟨h2', reg2', cp'⟩
              rw [hrg] at he
              dsimp only at he
              cases he
              obtain ⟨hb2, hr2, hcp2⟩ := bound_register hrg hb1 hreg
              exact ⟨hb2, hr2, fun cp hcp => by cases hcp; exact hcp2⟩
            · rcases hrg : registerSchemaInComponents h1' reg ext
                (createSchemaNameFromSourcePath sourcePath) with
                ⟨h2', reg2', cp'⟩
              rw [hrg] at he
              dsimp only at he
              cases he
              obtain ⟨hb2, hr2, hcp2⟩ := bound_register hrg hb1 hreg
              exact ⟨hb2, hr2, fun cp hcp => by cases hcp; exact hcp2⟩

theorem processMapping_bound {h0 : Heap} {o : ExtOracle}
    (ho : OracleBound o) {fpF : Nat} :
    ∀ (l : List MappingRewrite) (h : Heap) (reg : SchemaRegistry)
      (res : ResolverState) (ch : Bool) {h1 : Heap}
      {reg1 : SchemaRegistry} {res1 : ResolverState} {ch1 : Bool},
      processMappingRewrites o fpF l h reg res ch =
        some (h1, reg1, res1, ch1) →
      Bound h0 h → RegPtrs reg → Bound h0 h1 ∧ RegPtrs reg1
  | [], h, reg, res, ch, h1, reg1, res1, ch1, he, hb, hreg => by
    cases he
    exact ⟨hb, hreg⟩
  | rw0 :: rest, h, reg, res, ch, h1, reg1, res1, ch1, he, hb, hreg => by
    simp only [processMappingRewrites] at he
    cases hres : resolveDiscriminatorMappingPointer o fpF h reg res
      rw0.mappingValue rw0.schemaAddr rw0.schemaPointer with
    | none =>
      rw [hres] at he
      exact Option.noConfusion he
    | some t =>
      rw [hres] at he
      rcases t with ⟨hh, rg, rs, outOpt⟩
      obtain ⟨hbx, hrx, hcpx⟩ := resolveMapping_bound ho hres hb hreg
      cases outOpt with
      | none =>
        dsimp only at he
        exact processMapping_bound ho rest hh rg rs ch he hbx hrx
      | some cp =>
        dsimp only at he
        by_cases hcpe : cp = ""
        · rw [if_pos hcpe] at he
          exact processMapping_bound ho rest hh rg rs ch he hbx hrx
        · rw [if_neg hcpe] at he
          by_cases hsame : heapGetField hh rw0.mappingAddr rw0.mappingKey =
            some (JVal.str cp)
          · rw [if_pos hsame] at he
            exact processMapping_bound ho rest hh rg rs ch he hbx hrx
          · rw [if_neg hsame] at he
            exact processMapping_bound ho rest _ rg rs true he
              (bound_heapSetField hbx (valStrs_comp_ok (hcpx cp rfl))) hrx

theorem discriminator_bound {h0 : Heap} {o : ExtOracle}
    (ho : OracleBound o) {fpF wF rootA : Nat} :
    ∀ (lf : Nat) {h h1 : Heap} {reg reg1 : SchemaRegistry}
      {res res1 : ResolverState},
      rewriteDiscriminatorMappings o fpF wF rootA lf h reg res =
        some (h1, reg1, res1) →
      Bound h0 h → RegPtrs reg → Bound h0 h1 ∧ RegPtrs reg1
  | 0, h, h1, reg, reg1, res, res1, he, hb, hreg => Option.noConfusion he
  | lf + 1, h, h1, reg, reg1, res, res1, he, hb, hreg => by
    simp only [rewriteDiscriminatorMappings] at he
    cases hpm : processMappingRewrites o fpF
      ((walk discriminatorCollectVisitor wF [] h (JVal.ref rootA) "#" false
        [] Slot.root).1) h reg res false with
    | none =>
      rw [hpm] at he
      exact Option.noConfusion he
    | some t =>
      rw [hpm] at he
      rcases t with ⟨hh, rg, rs, chx⟩
      obtain ⟨hbx, hrx⟩ := processMapping_bound ho _ h reg res false hpm hb
        hreg
      dsimp only at he
      cases chx with
      | true =>
        rw [if_pos rfl] at he
        exact discriminator_bound ho lf he hbx hrx
      | false =>
        rw [if_neg (by decide)] at he
        cases he
        exact ⟨hbx, hrx⟩

theorem templateQ {h0 : Heap} {o : ExtOracle} (ho : OracleBound o)
    (fpF : Nat) (sp : String) :
    ∀ fuel : Nat,
      (∀ h reg res sN bN h1 reg1 res1 v,
        rewriteFromSourceTemplate o fpF sp fuel h reg res sN bN =
          some (h1, reg1, res1, v) →
        Bound h0 h → RegPtrs reg →
        (∀ s, s ∈ valStrs bN → jsStartsWith s "#/paths/" = true →
          StrIn h0 s) →
        Bound h0 h1 ∧ RegPtrs reg1 ∧
          (∀ s, s ∈ valStrs v → jsStartsWith s "#/paths/" = true →
            StrIn h0 s)) ∧
      (∀ h reg res sfs ba h1 reg1 res1 v,
        rewriteTemplateCopy o fpF sp fuel h reg res sfs ba =
          some (h1, reg1, res1, v) →
        Bound h0 h → RegPtrs reg →
        Bound h0 h1 ∧ RegPtrs reg1 ∧
          (∀ s, s ∈ valStrs v → jsStartsWith s "#/paths/" = true →
            StrIn h0 s)) ∧
      (∀ h reg res sfs next h1 reg1 res1 next',
        rewriteTemplateFields o fpF sp fuel h reg res sfs next =
          some (h1, reg1, res1, next') →
        Bound h0 h → RegPtrs reg →
        (∀ s, s ∈ objStrs (JObj.record next) →
          jsStartsWith s "#/paths/" = true → StrIn h0 s) →
        Bound h0 h1 ∧ RegPtrs reg1 ∧
          (∀ s, s ∈ objStrs (JObj.record next') →
            jsStartsWith s "#/paths/" = true → StrIn h0 s)) ∧
      (∀ h reg res ss bs h1 reg1 res1 bs',
        rewriteTemplateList o fpF sp fuel h reg res ss bs =
          some (h1, reg1, res1, bs') →
        Bound h0 h → RegPtrs reg →
        (∀ s, s ∈ objStrs (JObj.arr bs) →
          jsStartsWith s "#/paths/" = true → StrIn h0 s) →
        Bound h0 h1 ∧ RegPtrs reg1 ∧
          (∀ s, s ∈ objStrs (JObj.arr bs') →
            jsStartsWith s "#/paths/" = true → StrIn h0 s)) := by
  intro fuel
  induction fuel with
  | zero =>
    refine ⟨?_, ?_, ?_, ?_⟩
    · intro h reg res sN bN h1 reg1 res1 v he hb hreg hvb
      exact Option.noConfusion he
    · intro h reg res sfs ba h1 reg1 res1 v he hb hreg
      exact Option.noConfusion he
    · intro h reg res sfs next h1 reg1 res1 next' he hb hreg hnx
      exact Option.noConfusion he
    · intro h reg res ss bs h1 reg1 res1 bs' he hb hreg hbs
      exact Option.noConfusion he
  | succ n ih =>
    obtain ⟨ih1, ih2, ih3, ih4⟩ := ih
    refine ⟨?_, ?_, ?_, ?_⟩
    · intro h reg res sN bN h1 reg1 res1 v he hb hreg hvb
      simp only [rewriteFromSourceTemplate] at he
      split at he
      · rename_i sa ba
        cases hga : h.get? sa with
        | none =>
          rw [hga] at he
          cases hgb : h.get? ba with
          | none =>
            rw [hgb] at he
            dsimp only at he
            cases he
            exact ⟨hb, hreg, hvb⟩
          | some ob =>
            rw [hgb] at he
            cases ob with
            | arr i2 =>
              dsimp only at he
              cases he
              exact ⟨hb, hreg, hvb⟩
            | record f2 =>
              dsimp only at he
              cases he
              exact ⟨hb, hreg, hvb⟩
        | some ob =>
          rw [hga] at he
          cases ob with
          | record sfs =>
            cases hgb : h.get? ba with
            | none =>
              rw [hgb] at he
              dsimp only at he
              cases he
              exact ⟨hb, hreg, hvb⟩
            | some ob2 =>
              rw [hgb] at he
              cases ob2 with
              | arr i2 =>
                dsimp only at he
                cases he
                exact ⟨hb, hreg, hvb⟩
              | record bfs0 =>
                dsimp only at he
                split at he
                · rename_i targetSourcePath hts
                  split at he
                  · exact Option.noConfusion he
                  · rename_i h1' reg1' res1' cpOpt heq
                    obtain ⟨hb1, hr1, hcpo⟩ := ensureCompPtr_bound ho heq
                      hb hreg
                    cases cpOpt with
                    | some cp =>
                      dsimp only at he
                      by_cases hcpe : cp = ""
                      · rw [if_pos hcpe] at he
                        exact ih2 h1' reg1' res1' sfs ba h1 reg1 res1 v he
                          hb1 hr1
                      · rw [if_neg hcpe] at he
                        cases hgb1 : h1'.get? ba with
                        | none =>
                          rw [hgb1] at he
                          dsimp only at he
                          exact ih2 h1' reg1' res1' sfs ba h1 reg1 res1 v
                            he hb1 hr1
                        | some ob3 =>
                          rw [hgb1] at he
                          cases ob3 with
                          | arr i3 =>
                            dsimp only at he
                            exact ih2 h1' reg1' res1' sfs ba h1 reg1 res1
                              v he hb1 hr1
                          | record bfs1 =>
                            dsimp only at he
                            cases he
                            refine ⟨bound_append_replacement hb1 hgb1
                              (hcpo cp rfl), hr1, ?_⟩
                            intro s hs
                            exact absurd hs (List.not_mem_nil s)
                    | none =>
                      dsimp only at he
                      exact ih2 h1' reg1' res1' sfs ba h1 reg1 res1 v he
                        hb1 hr1
                · exact ih2 h reg res sfs ba h1 reg1 res1 v he hb hreg
          | arr sIts =>
            cases hgb : h.get? ba with
            | none =>
              rw [hgb] at he
              dsimp only at he
              cases he
              exact ⟨hb, hreg, hvb⟩
            | some ob2 =>
              rw [hgb] at he
              cases ob2 with
              | record f2 =>
                dsimp only at he
                cases he
                exact ⟨hb, hreg, hvb⟩
              | arr bIts =>
                dsimp only at he
                split at he
                · exact Option.noConfusion he
                · rename_i h1' reg1' res1' items heq
                  cases he
                  obtain ⟨hb1, hr1, hit⟩ := ih4 h reg res sIts bIts _ _ _ _
                    heq hb hreg
                    (fun s hs hd => hb s hd (strIn_of_get hgb hs))
                  refine ⟨bound_append hb1 ?_, hr1, ?_⟩
                  · intro ob hob s hs hd
                    rw [List.mem_singleton] at hob
                    subst hob
                    exact hit s hs hd
                  · intro s hs
                    exact absurd hs (List.not_mem_nil s)
      · cases he
        exact ⟨hb, hreg, hvb⟩
    · intro h reg res sfs ba h1 reg1 res1 v he hb hreg
      simp only [rewriteTemplateCopy] at he
      cases hgb : h.get? ba with
      | none =>
        rw [hgb] at he
        cases he
        exact ⟨hb, hreg, fun s hs => absurd hs (List.not_mem_nil s)⟩
      | some ob =>
        rw [hgb] at he
        cases ob with
        | arr its =>
          cases he
          exact ⟨hb, hreg, fun s hs => absurd hs (List.not_mem_nil s)⟩
        | record bfs =>
          dsimp only at he
          cases hf : rewriteTemplateFields o fpF sp n h reg res sfs bfs with
          | none =>
            rw [hf] at he
            exact Option.noConfusion he
          | some q =>
            rw [hf] at he
            rcases q with ⟨h1', reg1', res1', next⟩
            dsimp only at he
            cases he
            obtain ⟨hb1, hr1, hnx⟩ := ih3 h reg res sfs bfs _ _ _ _ hf hb
              hreg (fun s hs hd => hb s hd (strIn_of_get hgb hs))
            refine ⟨bound_append hb1 ?_, hr1,
              fun s hs => absurd hs (List.not_mem_nil s)⟩
            intro ob hob s hs hd
            rw [List.mem_singleton] at hob
            subst hob
            exact hnx s hs hd
    · intro h reg res sfs next h1 reg1 res1 next' he hb hreg hnx
      cases sfs with
      | nil =>
        simp only [rewriteTemplateFields] at he
        cases he
        exact ⟨hb, hreg, hnx⟩
      | cons p rest =>
        rcases p with ⟨k, sv⟩
        simp only [rewriteTemplateFields] at he
        cases hgf : getFieldL next k with
        | none =>
          rw [hgf] at he
          exact ih3 h reg res rest next h1 reg1 res1 next' he hb hreg hnx
        | some bv =>
          rw [hgf] at he
          dsimp only at he
          cases he1 : rewriteFromSourceTemplate o fpF sp n h reg res sv bv
            with
          | none =>
            rw [he1] at he
            exact Option.noConfusion he
          | some q =>
            rw [he1] at he
            rcases q with ⟨hx, rgx, rsx, bv'⟩
            dsimp only at he
            obtain ⟨hbx, hrx, hvbx⟩ := ih1 h reg res sv bv hx rgx rsx bv'
              he1 hb hreg (fun s hs hd => hnx s (getFieldL_strs hgf s hs) hd)
            exact ih3 hx rgx rsx rest (setFieldL next k bv') h1 reg1 res1
              next' he hbx hrx
              (fun s hs hd => (objStrs_setFieldL hs).elim
                (fun h2 => hnx s h2 hd) (fun h2 => hvbx s h2 hd))
    · intro h reg res ss bs h1 reg1 res1 bs' he hb hreg hbs
      cases ss with
      | nil =>
        simp only [rewriteTemplateList] at he
        cases he
        exact ⟨hb, hreg, hbs⟩
      | cons sv ssr =>
        cases bs with
        | nil =>
          simp only [rewriteTemplateList] at he
          cases he
          refine ⟨hb, hreg, ?_⟩
          intro s hs hd
          rw [mem_objStrs_arr] at hs
          obtain ⟨v, hv, _⟩ := hs
          exact absurd hv (List.not_mem_nil v)
        | cons bv bsr =>
          simp only [rewriteTemplateList] at he
          cases he1 : rewriteFromSourceTemplate o fpF sp n h reg res sv bv
            with
          | none =>
            rw [he1] at he
            exact Option.noConfusion he
          | some q =>
            rw [he1] at he
            rcases q with ⟨hx, rgx, rsx, bv'⟩
            dsimp only at he
            obtain ⟨hbx, hrx, hvbx⟩ := ih1 h reg res sv bv hx rgx rsx bv'
              he1 hb hreg (fun s hs hd =>
                hbs s (mem_objStrs_arr.mpr ⟨bv, List.mem_cons_self bv bsr,
                  hs⟩) hd)
            cases he2 : rewriteTemplateList o fpF sp n hx rgx rsx ssr bsr
              with
            | none =>
              rw [he2] at he
              exact Option.noConfusion he
            | some q2 =>
              rw [he2] at he
              rcases q2 with ⟨h2, rg2, rs2, bs2⟩
              dsimp only at he
              cases he
              obtain ⟨hb2, hr2, hbs2⟩ := ih4 hx rgx rsx ssr bsr _ _ _ _ he2
                hbx hrx
                (fun s hs hd => hbs s (by
                  rw [mem_objStrs_arr] at hs ⊢
                  obtain ⟨v, hv, hsv⟩ := hs
                  exact ⟨v, List.mem_cons_of_mem bv hv, hsv⟩) hd)
              refine ⟨hb2, hr2, ?_⟩
              intro s hs hd
              rw [mem_objStrs_arr] at hs
              obtain ⟨v, hv, hsv⟩ := hs
              rcases List.mem_cons.mp hv with h3 | h3
              · subst h3
                exact hvbx s hsv hd
              · exact hbs2 s (mem_objStrs_arr.mpr ⟨v, h3, hsv⟩) hd

theorem templatePairs_bound {h0 : Heap} {o : ExtOracle}
    (ho : OracleBound o) {fpF tmplFuel : Nat} :
    ∀ (l : List (String × String)) (h : Heap) (reg : SchemaRegistry)
      (res : ResolverState) {h1 : Heap} {reg1 : SchemaRegistry}
      {res1 : ResolverState},
      templatePairsLoop o fpF tmplFuel l h reg res = some (h1, reg1, res1) →
      Bound h0 h → RegPtrs reg → Bound h0 h1 ∧ RegPtrs reg1
  | [], h, reg, res, h1, reg1, res1, he, hb, hreg => by
    cases he
    exact ⟨hb, hreg⟩
  | (cn, spath) :: rest, h, reg, res, h1, reg1, res1, he, hb, hreg => by
    simp only [templatePairsLoop] at he
    cases hee : ensureExternalSchemaForSourcePath o fpF h res spath with
    | none =>
      rw [hee] at he
      exact Option.noConfusion he
    | some t =>
      rw [hee] at he
      rcases t with ⟨hx, rsx, sOpt⟩
      dsimp only at he
      have hbx := ensureExternal_bound ho hee hb
      cases sOpt with
      | none =>
        dsimp only at he
        exact templatePairs_bound ho rest hx reg rsx he hbx hreg
      | some sa =>
        cases hgf : heapGetField hx reg.componentSchemasAddr cn with
        | none =>
          rw [hgf] at he
          dsimp only at he
          exact templatePairs_bound ho rest hx reg rsx he hbx hreg
        | some w =>
          rw [hgf] at he
          cases w with
          | null =>
            dsimp only at he
            exact templatePairs_bound ho rest hx reg rsx he hbx hreg
          | bool b =>
            dsimp only at he
            exact templatePairs_bound ho rest hx reg rsx he hbx hreg
          | num m =>
            dsimp only at he
            exact templatePairs_bound ho rest hx reg rsx he hbx hreg
          | str s =>
            dsimp only at he
            exact templatePairs_bound ho rest hx reg rsx he hbx hreg
          | ref ba =>
            dsimp only at he
            cases hga : hx.get? sa with
            | none =>
              rw [hga] at he
              dsimp only at he
              exact templatePairs_bound ho rest hx reg rsx he hbx hreg
            | some ob =>
              rw [hga] at he
              cases ob with
              | arr i1 =>
                dsimp only at he
                exact templatePairs_bound ho rest hx reg rsx he hbx hreg
              | record f1 =>
                cases hgb : hx.get? ba with
                | none =>
                  rw [hgb] at he
                  dsimp only at he
                  exact templatePairs_bound ho rest hx reg rsx he hbx hreg
                | some ob2 =>
                  rw [hgb] at he
                  cases ob2 with
                  | arr i2 =>
                    dsimp only at he
                    exact templatePairs_bound ho rest hx reg rsx he hbx
                      hreg
                  | record f2 =>
                    dsimp only at he
                    cases ht : rewriteFromSourceTemplate o fpF spath
                      tmplFuel hx reg rsx (JVal.ref sa) (JVal.ref ba) with
                    | none =>
                      rw [ht] at he
                      exact Option.noConfusion he
                    | some q =>
                      rw [ht] at he
                      rcases q with ⟨h2, reg2, res2, rewritten⟩
                      dsimp only at he
                      obtain ⟨hb2, hr2, hvb2⟩ :=
                        (templateQ ho fpF spath tmplFuel).1 hx reg rsx
                          (JVal.ref sa) (JVal.ref ba) h2 reg2 res2
                          rewritten ht hbx hreg
                          (fun s hs => absurd hs (List.not_mem_nil s))
                      exact templatePairs_bound ho rest
                        (heapSetField h2 reg2.componentSchemasAddr cn
                          rewritten) reg2 res2 he
                        (bound_heapSetField hb2 hvb2) hr2

theorem templates_bound {h0 : Heap} {o : ExtOracle} (ho : OracleBound o)
    {fpF tmplFuel rootA : Nat} {h h1 : Heap} {reg reg1 : SchemaRegistry}
    {res res1 : ResolverState}
    (he : rewriteSchemaRefsFromSourceTemplates o fpF tmplFuel rootA h reg
      res = some (h1, reg1, res1))
    (hb : Bound h0 h) (hreg : RegPtrs reg) :
    Bound h0 h1 ∧ RegPtrs reg1 := by
  simp only [rewriteSchemaRefsFromSourceTemplates] at he
  cases hp : templatePairsLoop o fpF tmplFuel res.sourcePathByComponentName
    h reg res with
  | none =>
    rw [hp] at he
    exact Option.noConfusion he
  | some t =>
    rw [hp] at he
    rcases t with ⟨hx, rgx, rsx⟩
    obtain ⟨hbx, hrx⟩ := templatePairs_bound ho _ h reg res hp hb hreg
    dsimp only at he
    cases hgr : hx.get? rootA with
    | none =>
      rw [hgr] at he
      dsimp only at he
      cases he
      exact ⟨hbx, hrx⟩
    | some ob =>
      rw [hgr] at he
      cases ob with
      | arr i1 =>
        dsimp only at he
        cases he
        exact ⟨hbx, hrx⟩
      | record f1 =>
        cases hgc : heapGetField hx rootA "components" with
        | none =>
          rw [hgc] at he
          dsimp only at he
          cases he
          exact ⟨hbx, hrx⟩
        | some w =>
          rw [hgc] at he
          cases w with
          | null =>
            dsimp only at he
            cases he
            exact ⟨hbx, hrx⟩
          | bool b =>
            dsimp only at he
            cases he
            exact ⟨hbx, hrx⟩
          | num m =>
            dsimp only at he
            cases he
            exact ⟨hbx, hrx⟩
          | str s =>
            dsimp only at he
            cases he
            exact ⟨hbx, hrx⟩
          | ref cA =>
            dsimp only at he
            cases hg2 : hx.get? cA with
            | none =>
              rw [hg2] at he
              dsimp only at he
              cases he
              exact ⟨hbx, hrx⟩
            | some ob2 =>
              rw [hg2] at he
              cases ob2 with
              | arr i2 =>
                dsimp only at he
                cases he
                exact ⟨hbx, hrx⟩
              | record f2 =>
                dsimp only at he
                cases he
                exact ⟨bound_heapSetField hbx valStrs_ref_ok, hrx⟩

theorem ensureFieldRecordN_bound {h0 h : Heap} {a : Nat} {k : String}
    {h1 : Heap} {b : Nat} (he : ensureFieldRecordN h a k = some (h1, b))
    (hb : Bound h0 h) : Bound h0 h1 := by
  simp only [ensureFieldRecordN] at he
  split at he
  · rename_i fs heq
    split at he
    · cases he
      exact hb
    · cases he
      refine bound_append ?_ ?_
      · intro s hd hs
        rcases strIn_set_elim hs with h2 | h2
        · exact hb s hd h2
        · rcases objStrs_setFieldL h2 with h3 | h3
          · exact hb s hd (strIn_of_get heq h3)
          · exact absurd h3 (List.not_mem_nil s)
      · intro ob hob s hs hd
        rw [List.mem_singleton] at hob
        subst hob
        exact absurd hs (List.not_mem_nil s)
    · exact Option.noConfusion he
    · cases he
      refine bound_append ?_ ?_
      · intro s hd hs
        rcases strIn_set_elim hs with h2 | h2
        · exact hb s hd h2
        · rcases objStrs_setFieldL h2 with h3 | h3
          · exact hb s hd (strIn_of_get heq h3)
          · exact absurd h3 (List.not_mem_nil s)
      · intro ob hob s hs hd
        rw [List.mem_singleton] at hob
        subst hob
        exact absurd hs (List.not_mem_nil s)
  · exact Option.noConfusion he

theorem createRegistryD_bound {h0 h h1 : Heap} {rootA : Nat}
    {reg : SchemaRegistry}
    (he : createSchemaRegistryD h rootA = some (h1, reg))
    (hb : Bound h0 h) : Bound h0 h1 ∧ RegPtrs reg := by
  simp only [createSchemaRegistryD] at he
  cases he1 : ensureFieldRecordN h rootA "components" with
  | none =>
    rw [he1] at he
    exact Option.noConfusion he
  | some t1 =>
    rw [he1] at he
    rcases t1 with ⟨hA, cA⟩
    dsimp only at he
    cases he2 : ensureFieldRecordN hA cA "schemas" with
    | none =>
      rw [he2] at he
      exact Option.noConfusion he
    | some t2 =>
      rw [he2] at he
      rcases t2 with ⟨hB, sA⟩
      dsimp only at he
      cases hg : hB.get? sA with
      | none =>
        rw [hg] at he
        exact Option.noConfusion he
      | some ob =>
        rw [hg] at he
        cases ob with
        | arr i1 => exact Option.noConfusion he
        | record sFs =>
          dsimp only at he
          cases he
          refine ⟨ensureFieldRecordN_bound he2
            (ensureFieldRecordN_bound he1 hb), ?_⟩
          intro p hp
          obtain ⟨q, hq, hsome⟩ := List.mem_filterMap.mp hp
          cases hq2 : q.2 with
          | ref a2 =>
            rw [hq2] at hsome
            cases hsome
            exact comp_prefix_append _
          | null => rw [hq2] at hsome; exact Option.noConfusion hsome
          | bool b2 => rw [hq2] at hsome; exact Option.noConfusion hsome
          | num m2 => rw [hq2] at hsome; exact Option.noConfusion hsome
          | str s2 => rw [hq2] at hsome; exact Option.noConfusion hsome

theorem preRegister_bound {h0 : Heap} {fpF wF : Nat} {h : Heap}
    {rootA : Nat} {reg : SchemaRegistry} {res : ResolverState}
    {paths : List (String × Nat)} {h1 : Heap} {reg1 : SchemaRegistry}
    {res1 : ResolverState}
    (he : preRegisterExternalRoots fpF wF h rootA reg res paths =
      some (h1, reg1, res1))
    (hb : Bound h0 h) (hreg : RegPtrs reg) :
    Bound h0 h1 ∧ RegPtrs reg1 := by
  cases paths with
  | nil =>
    simp only [preRegisterExternalRoots] at he
    cases he
    exact ⟨hb, hreg⟩
  | cons p0 rest =>
    rcases p0 with ⟨rootPath, rootAddr⟩
    simp only [preRegisterExternalRoots] at he
    split at he
    · exact Option.noConfusion he
    · rename_i externalSchemas res1' heqf
      have htriple := Option.some.inj he
      have hP : Bound h0
          ((h1, reg1, res1) : Heap × SchemaRegistry × ResolverState).1 ∧
          RegPtrs
            ((h1, reg1, res1) :
              Heap × SchemaRegistry × ResolverState).2.1 := by
        rw [← htriple]
        refine foldl_inv
          (fun t : Heap × SchemaRegistry × ResolverState =>
            Bound h0 t.1 ∧ RegPtrs t.2.1) _ ?_ _ _ ⟨hb, hreg⟩
        intro b t hPb
        rcases hrg : registerSchemaInComponents b.1 b.2.1 t.2
          (createSchemaNameFromSourcePath t.1) with ⟨h', reg', cp⟩
        obtain ⟨hbx, hrx, _⟩ := bound_register hrg hPb.1 hPb.2
        exact ⟨hbx, hrx⟩
      exact ⟨hP.1, hP.2⟩

theorem mappingRound_bound {h0 : Heap} {o : ExtOracle} (ho : OracleBound o)
    {fpF wF lF rootA : Nat} {h h1 : Heap} {reg reg1 : SchemaRegistry}
    {res res1 : ResolverState}
    (he : mappingTemplateRound o fpF wF lF rootA h reg res =
      some (h1, reg1, res1))
    (hb : Bound h0 h) (hreg : RegPtrs reg) :
    Bound h0 h1 ∧ RegPtrs reg1 := by
  simp only [mappingTemplateRound] at he
  cases hd : rewriteDiscriminatorMappings o fpF wF rootA lF h reg res with
  | none =>
    rw [hd] at he
    exact Option.noConfusion he
  | some t =>
    rw [hd] at he
    rcases t with ⟨hx, rgx, rsx⟩
    obtain ⟨hbx, hrx⟩ := discriminator_bound ho lF hd hb hreg
    exact templates_bound ho he hbx hrx

theorem hoist_bound {o : ExtOracle} (ho : OracleBound o)
    {fpF wF lF : Nat} {p : ParserState} {h' : Heap}
    (he : hoistBundledSchemas o fpF wF lF p = some h') :
    Bound p.heap h' := by
  simp only [hoistBundledSchemas] at he
  by_cases hgd : (!isOpenAPI p.heap p.rootA || p.refs.isNone) = true
  · rw [if_pos hgd] at he
    cases he
    exact bound_refl p.heap
  · rw [if_neg hgd] at he
    cases hrefs : p.refs with
    | none =>
      rw [hrefs] at he
      cases he
      exact bound_refl p.heap
    | some resolvedPaths =>
      rw [hrefs] at he
      dsimp only at he
      cases hcr : createSchemaRegistryD p.heap p.rootA with
      | none =>
        rw [hcr] at he
        exact Option.noConfusion he
      | some t1 =>
        rw [hcr] at he
        rcases t1 with ⟨h1, reg1⟩
        obtain ⟨hb1, hr1⟩ := createRegistryD_bound hcr (bound_refl p.heap)
        dsimp only at he
        cases hpre : preRegisterExternalRoots fpF wF h1 p.rootA reg1
          emptyResolver resolvedPaths with
        | none =>
          rw [hpre] at he
          exact Option.noConfusion he
        | some t2 =>
          rw [hpre] at he
          rcases t2 with ⟨h2, reg2, res2⟩
          obtain ⟨hb2, hr2⟩ := preRegister_bound hpre hb1 hr1
          dsimp only at he
          cases hloc : rewriteLocalSchemaRefsToComponents fpF wF p.rootA
            res2.core reg2 h2 with
          | none =>
            rw [hloc] at he
            exact Option.noConfusion he
          | some t3 =>
            rw [hloc] at he
            rcases t3 with ⟨reg3, h3⟩
            obtain ⟨hb3, hr3⟩ := rewriteLocal_pass_bound hloc hb2 hr2
            dsimp only at he
            cases hinl : rewriteInlineExternalSchemasToComponentRefs fpF
              wF p.rootA res2.core lF reg3 h3 with
            | none =>
              rw [hinl] at he
              exact Option.noConfusion he
            | some t4 =>
              rw [hinl] at he
              rcases t4 with ⟨reg4, h4, fin⟩
              obtain ⟨hb4, hr4⟩ := inline_loop_bound p.heap lF hinl hb3 hr3
              dsimp only at he
              cases hmt1 : mappingTemplateRound o fpF wF lF p.rootA h4
                reg4 res2 with
              | none =>
                rw [hmt1] at he
                exact Option.noConfusion he
              | some t5 =>
                rw [hmt1] at he
                rcases t5 with ⟨h5, reg5, res5⟩
                obtain ⟨hb5, hr5⟩ := mappingRound_bound ho hmt1 hb4 hr4
                dsimp only at he
                cases hmt2 : mappingTemplateRound o fpF wF lF p.rootA h5
                  reg5 res5 with
                | none =>
                  rw [hmt2] at he
                  exact Option.noConfusion he
                | some t6 =>
                  rw [hmt2] at he
                  rcases t6 with ⟨h6, reg6, res6⟩
                  obtain ⟨hb6, hr6⟩ := mappingRound_bound ho hmt2 hb5 hr5
                  dsimp only at he
                  cases he
                  exact replaceHoisted_bound p.heap wF p.rootA reg6 h6 hb6
                    hr6

theorem walk_ctxSteps {σ : Type} (vis : WalkVisitor σ)
    (hid : ∀ st h a ptr slot, vis st h a ptr false slot = (st, h))
    (fuel : Nat) (st : σ) (h : Heap) (val : JVal) (ptr : String)
    (ctx : Bool) (seen : List Nat) (slot : Slot) :
    CtxSteps vis h (walk vis fuel st h val ptr ctx seen slot).2 := by
  refine walk_preserves (fun _ hh => CtxSteps vis h hh) vis ?_ fuel st h
    val ptr ctx seen slot (CtxSteps.refl h)
  intro st' hh a ptr' ctx' slot' hq
  cases ctx' with
  | true => exact CtxSteps.tail st' a ptr' slot' hq
  | false =>
    rw [hid st' hh a ptr' slot']
    exact hq

theorem rewriteLocal_ctxSteps {fpF wF rootA : Nat} {res : ExternalResolver}
    {reg reg' : SchemaRegistry} {h h' : Heap}
    (he : rewriteLocalSchemaRefsToComponents fpF wF rootA res reg h =
      some (reg', h')) :
    CtxSteps (rewriteLocalVisitor rootA res fpF) h h' := by
  rcases hw : walk (rewriteLocalVisitor rootA res fpF) wF (some reg) h
    (JVal.ref rootA) "#" false [] Slot.root with ⟨stw, hw'⟩
  have hs := walk_ctxSteps (rewriteLocalVisitor rootA res fpF)
    (fun st hh a ptr slot => by cases st <;> rfl) wF (some reg) h
    (JVal.ref rootA) "#" false [] Slot.root
  rw [hw] at hs
  simp only [rewriteLocalSchemaRefsToComponents] at he
  rw [hw] at he
  cases stw with
  | none => exact Option.noConfusion he
  | some r =>
    dsimp only at he
    cases he
    exact hs

theorem inline_iter_ctxSteps {fpF wF rootA : Nat} {res : ExternalResolver}
    {reg reg' : SchemaRegistry} {h h' : Heap} {ch : Bool}
    (he : rewriteInlineIteration fpF wF rootA res reg h =
      some (reg', h', ch)) :
    ∃ index, CtxSteps (inlineVisitor res index fpF) h h' := by
  simp only [rewriteInlineIteration] at he
  cases hbi : buildExternalComponentFingerprintIndex h fpF reg
    res.canonicalByName with
  | none =>
    rw [hbi] at he
    exact Option.noConfusion he
  | some index =>
    rw [hbi] at he
    dsimp only at he
    rcases hw : walk (inlineVisitor res index fpF) wF (some (reg, false)) h
      (JVal.ref rootA) "#" false [] Slot.root with ⟨stw, hw'⟩
    have hs := walk_ctxSteps (inlineVisitor res index fpF)
      (fun st hh a ptr slot => by
        cases st with
        | none => rfl
        | some p => rcases p with ⟨r, c⟩; rfl) wF (some (reg, false)) h
      (JVal.ref rootA) "#" false [] Slot.root
    rw [hw] at hs
    rw [hw] at he
    cases stw with
    | none => exact Option.noConfusion he
    | some p =>
      rcases p with ⟨r, c⟩
      dsimp only at he
      cases he
      exact ⟨index, hs⟩

theorem replaceHoisted_ctxSteps (wF rootA : Nat) (reg : SchemaRegistry)
    (h : Heap) :
    CtxSteps (replaceHoistedVisitor reg) h
      (replaceHoistedObjectsWithRefs wF rootA reg h) := by
  simp only [replaceHoistedObjectsWithRefs]
  exact walk_ctxSteps (replaceHoistedVisitor reg)
    (fun st hh a ptr slot => rfl) wF () h (JVal.ref rootA) "#" false []
    Slot.root

theorem getFieldL_append_none {fs : List (String × JVal)} {k : String}
    (h : getFieldL fs k = none) (l2 : List (String × JVal)) :
    getFieldL (fs ++ l2) k = getFieldL l2 k := by
  rw [getFieldL] at h ⊢
  rw [List.find?_append]
  cases hf : fs.find? (fun p => p.1 == k) with
  | none => rfl
  | some p => rw [hf] at h; simp at h

theorem getFieldL_map_replace (k : String) (v : JVal) :
    ∀ fs : List (String × JVal),
    getFieldL (fs.map (fun p => if p.1 = k then (k, v) else p)) k =
      (getFieldL fs k).map (fun _ => v)
  | [] => rfl
  | (k1, v1) :: r => by
    by_cases hk : k1 = k
    · subst hk
      simp [getFieldL, List.find?]
    · simp only [List.map, if_neg hk]
      rw [getFieldL, List.find?]
      have hne : (k1 == k) = false := by simp [hk]
      rw [hne]
      rw [getFieldL, List.find?, hne]
      exact getFieldL_map_replace k v r

theorem getFieldL_setFieldL_self (fs : List (String × JVal)) (k : String)
    (v : JVal) : getFieldL (setFieldL fs k v) k = some v := by
  rw [setFieldL]
  cases hg : getFieldL fs k with
  | some w =>
    simp only [Option.isSome_some, if_true]
    rw [getFieldL_map_replace, hg]
    rfl
  | none =>
    simp only [Option.isSome_none, Bool.false_eq_true, if_false]
    rw [getFieldL_append_none hg]
    simp [getFieldL, List.find?]

theorem heapSetField_keeps_record {h : Heap} {a : Nat}
    {fs : List (String × JVal)} (hg : h.get? a = some (JObj.record fs))
    (b : Nat) (k : String) (v : JVal) :
    ∃ fs2, (heapSetField h b k v).get? a = some (JObj.record fs2) := by
  by_cases hab : b = a
  · subst hab
    exact ⟨setFieldL fs k v, heapSetField_get_self hg k v⟩
  · rw [heapSetField]
    cases hb : h.get? b with
    | none => exact ⟨fs, hg⟩
    | some o =>
      cases o with
      | arr items => exact ⟨fs, hg⟩
      | record fs3 =>
        refine ⟨fs, ?_⟩
        rw [List.get?_set_ne _ _ hab]
        exact hg

theorem register_keeps_record {h h' : Heap} {reg reg' : SchemaRegistry}
    {sa : Nat} {pn cp : String} {a : Nat} {fs : List (String × JVal)}
    (hreg : registerSchemaInComponents h reg sa pn = (h', reg', cp))
    (hg : h.get? a = some (JObj.record fs)) :
    ∃ fs2, h'.get? a = some (JObj.record fs2) := by
  rw [registerSchemaInComponents] at hreg
  cases hl : lookupAddr reg.schemaPointersByValue sa with
  | some p =>
    rw [hl] at hreg
    injection hreg with h1 h23
    subst h1
    exact ⟨fs, hg⟩
  | none =>
    rw [hl] at hreg
    dsimp only at hreg
    injection hreg with h1 h23
    subst h1
    exact heapSetField_keeps_record hg _ _ _


/-- C2: amended.  (i) When the local-ref visitor fires in a schema context
on a record whose string `$ref` is a local non-component pointer that
resolves to a record, the `$ref` is overwritten with a registered component
pointer — a string starting with `#/components/schemas/` and hence not with
`#/paths/` — and every registered pointer keeps that shape.  (ii) When the
`$ref` target does not resolve to a record, the visitor leaves the registry
and the document unchanged: such a dangling deep pointer survives the
pass.  (iii) Run level: provided the external file loader introduces no
`#/paths/`-prefixed strings, neither does any pass of the full driver —
every `#/paths/`-prefixed string value of the output heap already occurs
in the input heap, so after `hoistBundledSchemas` completes the only deep
`$ref`s are ones the input document already contained. -/
theorem C2_no_deep_schema_refs :
    (∀ (rootA fpF : Nat) (res : ExternalResolver) (reg : SchemaRegistry)
      (h : Heap) (a : Nat) (ptr : String) (slot : Slot)
      (fs gs : List (String × JVal)) (s : String) (ra : Nat)
      (m : Option (String × Nat)),
      h.get? a = some (JObj.record fs) →
      getFieldL fs "$ref" = some (JVal.str s) →
      jsStartsWith s "#/" = true →
      jsStartsWith s "#/components/schemas/" = false →
      resolveLocalPointer h rootA s = some (JVal.ref ra) →
      h.get? ra = some (JObj.record gs) →
      resolveExternalSchemaCandidate h fpF res ra = some m →
      (∀ p ∈ reg.schemaPointersByValue,
        jsStartsWith p.2 "#/components/schemas/" = true) →
      ∃ reg' h' cp,
        rewriteLocalVisitor rootA res fpF (some reg) h a ptr true slot =
          (some reg', h') ∧
        heapGetField h' a "$ref" = some (JVal.str cp) ∧
        jsStartsWith cp "#/components/schemas/" = true ∧
        jsStartsWith cp "#/paths/" = false ∧
        (∀ p ∈ reg'.schemaPointersByValue,
          jsStartsWith p.2 "#/components/schemas/" = true)) ∧
    (∀ (rootA fpF : Nat) (res : ExternalResolver) (reg : SchemaRegistry)
      (h : Heap) (a : Nat) (ptr : String) (slot : Slot)
      (fs : List (String × JVal)) (s : String),
      h.get? a = some (JObj.record fs) →
      getFieldL fs "$ref" = some (JVal.str s) →
      (∀ ra, resolveLocalPointer h rootA s = some (JVal.ref ra) →
        ∀ gs, h.get? ra ≠ some (JObj.record gs)) →
      rewriteLocalVisitor rootA res fpF (some reg) h a ptr true slot =
        (some reg, h)) ∧
    (∀ (o : ExtOracle), OracleBound o →
      ∀ (fpF wF lF : Nat) (p : ParserState) (h' : Heap),
        hoistBundledSchemas o fpF wF lF p = some h' →
        ∀ s, jsStartsWith s "#/paths/" = true → StrIn h' s →
          StrIn p.heap s) := by
  refine ⟨?_, ?_, ?_⟩
  · intro rootA fpF res reg h a ptr slot fs gs s ra m hrec href hs1 hs2 hres
      hra hcand hptrs
    simp only [rewriteLocalVisitor]
    rw [if_neg (by decide)]
    rw [hrec]
    dsimp only
    rw [href]
    dsimp only
    rw [if_pos (by rw [hs1, hs2]; rfl)]
    rw [hres]
    dsimp only
    rw [hra]
    dsimp only
    rw [hcand]
    dsimp only
    have tail : ∀ (sc : Nat) (pn : String),
        ∃ reg' h' cp,
        (match registerSchemaInComponents h reg sc pn with
         | (h1, reg1, cp1) =>
           if s ≠ cp1 then
             ((some reg1 : Option SchemaRegistry),
               heapSetField h1 a "$ref" (JVal.str cp1))
           else (some reg1, h1)) = (some reg', h') ∧
        heapGetField h' a "$ref" = some (JVal.str cp) ∧
        jsStartsWith cp "#/components/schemas/" = true ∧
        jsStartsWith cp "#/paths/" = false ∧
        (∀ p ∈ reg'.schemaPointersByValue,
          jsStartsWith p.2 "#/components/schemas/" = true) := by
      intro sc pn
      rcases hre : registerSchemaInComponents h reg sc pn with ⟨h1, reg1, cp1⟩
      obtain ⟨hcp, hptrs1⟩ := register_pointer_prefix hre hptrs
      obtain ⟨fs2, hg2⟩ := register_keeps_record hre hrec
      have hne : s ≠ cp1 := by
        intro heq
        rw [heq, hcp] at hs2
        exact Bool.noConfusion hs2
      refine ⟨reg1, heapSetField h1 a "$ref" (JVal.str cp1), cp1, ?_, ?_,
        hcp, comp_pointer_not_paths _ hcp, hptrs1⟩
      · dsimp only
        rw [if_pos hne]
      · rw [heapGetField, heapSetField_get_self hg2]
        exact getFieldL_setFieldL_self fs2 "$ref" (JVal.str cp1)
    cases m with
    | none => exact tail ra (createSchemaNameFromPointer s)
    | some nc =>
      rcases nc with ⟨n, c⟩
      dsimp only
      by_cases hn : n = ""
      · rw [if_pos hn]
        exact tail c (createSchemaNameFromPointer s)
      · rw [if_neg hn]
        exact tail c n
  · intro rootA fpF res reg h a ptr slot fs s hrec href hnr
    simp only [rewriteLocalVisitor]
    rw [if_neg (by decide)]
    rw [hrec]
    dsimp only
    rw [href]
    dsimp only
    by_cases hg : (jsStartsWith s "#/" &&
        !jsStartsWith s "#/components/schemas/") = true
    · rw [if_pos hg]
      cases hres : resolveLocalPointer h rootA s with
      | none => rfl
      | some v =>
        cases v with
        | null => rfl
        | bool b => rfl
        | num n => rfl
        | str t => rfl
        | ref ra =>
          dsimp only
          cases hra : h.get? ra with
          | none => rfl
          | some o =>
            cases o with
            | arr items => rfl
            | record gs => exact absurd hra (hnr ra hres gs)
    · rw [if_neg hg]
  · intro o ho fpF wF lF p h' he s hd hs
    exact hoist_bound ho he s hd hs


set_option maxHeartbeats 1600000 in
/-- Witness for C2: the resolvable case rewrites `#/foo` to a component
pointer, a dangling `#/paths/x` target leaves everything unchanged, and a
full driver run introduces no deep strings. -/
theorem C2_no_deep_schema_refs_witness :
    (∃ reg' h' cp, rewriteLocalVisitor 0 ⟨[], [], []⟩ 6 (some localRefReg)
        localRefHeap 2 "#/x" true (Slot.fld 0 "x") = (some reg', h') ∧
      heapGetField h' 2 "$ref" = some (JVal.str cp) ∧
      jsStartsWith cp "#/components/schemas/" = true ∧
      jsStartsWith cp "#/paths/" = false ∧
      (∀ p ∈ reg'.schemaPointersByValue,
        jsStartsWith p.2 "#/components/schemas/" = true)) ∧
    rewriteLocalVisitor 0 ⟨[], [], []⟩ 6 (some localRefReg) danglingHeap 0
      "#" true Slot.root = (some localRefReg, danglingHeap) ∧
    (∀ s, jsStartsWith s "#/paths/" = true → StrIn c3bFinal s →
      StrIn c3bHeap s) := by
  refine ⟨?_, ?_, ?_⟩
  · exact C2_no_deep_schema_refs.1 0 6 ⟨[], [], []⟩ localRefReg localRefHeap
      2 "#/x" (Slot.fld 0 "x") [("$ref", JVal.str "#/foo")]
      [("type", JVal.str "t")] "#/foo" 1 none rfl rfl (by decide) (by decide)
      rfl rfl rfl (fun p hp => absurd hp (List.not_mem_nil p))
  · exact C2_no_deep_schema_refs.2.1 0 6 ⟨[], [], []⟩ localRefReg
      danglingHeap
      0 "#" Slot.root [("$ref", JVal.str "#/paths/x")] "#/paths/x" rfl rfl
      (fun ra hra => by
        simp [show resolveLocalPointer danglingHeap 0 "#/paths/x" = none
          from rfl] at hra)
  · exact C2_no_deep_schema_refs.2.2 trivialOracle
      (fun h p => bound_refl h) 20 40 5 c3bParser c3bFinal (by decide)

set_option maxHeartbeats 1600000 in
/-- Counterexample to C2 as stated: after the full driver run, the record
at `#/components/schemas/T` — a schema-context location — still carries the
dangling `$ref` `#/paths/missing`, which starts with `#/paths/`. -/
theorem C2_no_deep_schema_refs_counterexample :
    hoistBundledSchemas trivialOracle 20 40 5 c2Parser = some c2Heap ∧
    heapGetField c2Heap 4 "$ref" = some (JVal.str "#/paths/missing") ∧
    jsStartsWith "#/paths/missing" "#/paths/" = true ∧
    "schemas" ∈ schemaContextKeys ∧
    heapGetField c2Heap 0 "components" = some (JVal.ref 2) ∧
    heapGetField c2Heap 2 "schemas" = some (JVal.ref 3) ∧
    heapGetField c2Heap 3 "T" = some (JVal.ref 4) :=
  ⟨by decide, by decide, by decide, by decide, by decide, by decide,
    by decide⟩


set_option maxHeartbeats 1600000 in
/-- C3: amended.  The keys `example`, `examples` and `x-doc-refs` never
open a schema context by themselves; every rewriting visitor of the
normalization passes is the identity at a visit outside a schema context;
every heap modification of the rewriting traversals (local-ref pass,
inline-external iteration, hoisted-object replacement) arises from a
visitor invocation at a schema-context visit (`CtxSteps`), and the
collect-only traversals never modify the heap.  Hence a document whose
example and `x-doc-refs` values neither lie in nor contain a schema
context is returned unchanged, as on the concrete run of the last
conjunct.  The original universal preservation claim is refuted by the
counterexample. -/
theorem C3_example_values_frame :
    (∀ ctx : Bool, (ctx || schemaContextKeys.contains "example") = ctx) ∧
    (∀ ctx : Bool, (ctx || schemaContextKeys.contains "examples") = ctx) ∧
    (∀ ctx : Bool, (ctx || schemaContextKeys.contains "x-doc-refs") = ctx) ∧
    (∀ (res : ExternalResolver) (index : List (String × List (String × Nat)))
      (fpF : Nat) (st : Option (SchemaRegistry × Bool)) (h : Heap) (a : Nat)
      (ptr : String) (slot : Slot),
      inlineVisitor res index fpF st h a ptr false slot = (st, h)) ∧
    (∀ (reg : SchemaRegistry) (u : Unit) (h : Heap) (a : Nat) (ptr : String)
      (slot : Slot),
      replaceHoistedVisitor reg u h a ptr false slot = ((), h)) ∧
    (∀ (rootA : Nat) (res : ExternalResolver) (fpF : Nat)
      (st : Option SchemaRegistry) (h : Heap) (a : Nat) (ptr : String)
      (slot : Slot),
      rewriteLocalVisitor rootA res fpF st h a ptr false slot = (st, h)) ∧
    (∀ (ms : List MappingRewrite) (h : Heap) (a : Nat) (ptr : String)
      (slot : Slot),
      discriminatorCollectVisitor ms h a ptr false slot = (ms, h)) ∧
    (∀ (fpF wF rootA : Nat) (res : ExternalResolver)
      (reg reg' : SchemaRegistry) (h h' : Heap),
      rewriteLocalSchemaRefsToComponents fpF wF rootA res reg h =
        some (reg', h') →
      CtxSteps (rewriteLocalVisitor rootA res fpF) h h') ∧
    (∀ (fpF wF rootA : Nat) (res : ExternalResolver)
      (reg reg' : SchemaRegistry) (h h' : Heap) (ch : Bool),
      rewriteInlineIteration fpF wF rootA res reg h = some (reg', h', ch) →
      ∃ index, CtxSteps (inlineVisitor res index fpF) h h') ∧
    (∀ (wF rootA : Nat) (reg : SchemaRegistry) (h : Heap),
      CtxSteps (replaceHoistedVisitor reg) h
        (replaceHoistedObjectsWithRefs wF rootA reg h)) ∧
    (∀ (ext : List (Nat × String)) (wF : Nat) (st0 : List (Nat × String))
      (h : Heap) (val : JVal) (ptr : String) (ctx : Bool) (seen : List Nat)
      (slot : Slot),
      (walk (collectVisitor ext) wF st0 h val ptr ctx seen slot).2 = h) ∧
    (∀ (wF : Nat) (st0 : List MappingRewrite) (h : Heap) (val : JVal)
      (ptr : String) (ctx : Bool) (seen : List Nat) (slot : Slot),
      (walk discriminatorCollectVisitor wF st0 h val ptr ctx seen
        slot).2 = h) ∧
    (hoistBundledSchemas trivialOracle 20 40 5 c3qParser = some c3qHeap ∧
      heapGetField c3qHeap 0 "example" = some (JVal.ref 3) ∧
      c3qHeap.get? 3 = some (JObj.record [("foo", JVal.str "bar")]) ∧
      heapGetField c3qHeap 0 "x-doc-refs" = some (JVal.ref 4) ∧
      c3qHeap.get? 4 = some (JObj.arr [JVal.str "./a.yaml"])) := by
  refine ⟨?_, ?_, ?_, ?_, ?_, ?_, ?_, ?_, ?_, ?_, ?_, ?_, ?_⟩
  · intro ctx; cases ctx <;> decide
  · intro ctx; cases ctx <;> decide
  · intro ctx; cases ctx <;> decide
  · exact inline_vis_noCtx
  · intro reg u h a ptr slot; rfl
  · intro rootA res fpF st h a ptr slot
    rcases st with _ | reg <;> rfl
  · intro ms h a ptr slot; rfl
  · intro fpF wF rootA res reg reg' h h' he
    exact rewriteLocal_ctxSteps he
  · intro fpF wF rootA res reg reg' h h' ch he
    exact inline_iter_ctxSteps he
  · intro wF rootA reg h
    exact replaceHoisted_ctxSteps wF rootA reg h
  · intro ext wF st0 h val ptr ctx seen slot
    exact collect_walk_heap ext wF st0 h val ptr ctx seen slot
  · intro wF st0 h val ptr ctx seen slot
    exact discCollect_walk_heap wF st0 h val ptr ctx seen slot
  · exact ⟨by decide, by decide, by decide, by decide, by decide⟩

/-- Closed instance of the pass-level provenance conjuncts of C3 on a
minimal document: both the local-ref pass and one inline-external
iteration leave the heap in the schema-context-steps closure of itself. -/
theorem C3_example_values_frame_witness :
    CtxSteps (rewriteLocalVisitor 0 ⟨[], [], []⟩ 5) c3wHeap c3wHeap ∧
    (∃ index, CtxSteps (inlineVisitor ⟨[], [], []⟩ index 5) c3wHeap
      c3wHeap) :=
  ⟨C3_example_values_frame.2.2.2.2.2.2.2.1 5 5 0 ⟨[], [], []⟩ ⟨[], [], 1⟩
      ⟨[], [], 1⟩ c3wHeap c3wHeap rfl,
    C3_example_values_frame.2.2.2.2.2.2.2.2.1 5 5 0 ⟨[], [], []⟩
      ⟨[], [], 1⟩ ⟨[], [], 1⟩ c3wHeap c3wHeap false rfl⟩

set_option maxHeartbeats 1600000 in
/-- Counterexample to C3 as stated, in both directions the original
sentence can be read: (a) the record under `components.schemas.T.example`
— a payload under an `example` key inside a schema context — is
structurally identical to the external schema `x.yaml` and the full driver
replaces it with a `$ref` record; (b) a payload under a top-level
`example` key (outside any schema context) containing the schema-context
key `schema` has that inner record replaced likewise, so it is not
structurally equal before and after normalization either. -/
theorem C3_example_values_frame_counterexample :
    hoistBundledSchemas trivialOracle 20 40 5 c3Parser = some c3Final ∧
    heapGetField c3Heap 3 "example" = some (JVal.ref 4) ∧
    c3Heap.get? 4 = some (JObj.record
      [("type", JVal.str "string"), ("format", JVal.str "uuid")]) ∧
    heapGetField c3Final 3 "example" = some (JVal.ref 6) ∧
    c3Final.get? 6 = some (JObj.record
      [("$ref", JVal.str "#/components/schemas/x")]) ∧
    JObj.record [("$ref", JVal.str "#/components/schemas/x")] ≠
      JObj.record [("type", JVal.str "string"), ("format", JVal.str "uuid")] ∧
    "schemas" ∈ schemaContextKeys ∧
    hoistBundledSchemas trivialOracle 20 40 5 c3bParser = some c3bFinal ∧
    schemaContextKeys.contains "example" = false ∧
    heapGetField c3bHeap 0 "example" = some (JVal.ref 3) ∧
    heapGetField c3bHeap 3 "schema" = some (JVal.ref 4) ∧
    c3bHeap.get? 4 = some (JObj.record
      [("type", JVal.str "string"), ("format", JVal.str "uuid")]) ∧
    heapGetField c3bFinal 3 "schema" = some (JVal.ref 6) ∧
    c3bFinal.get? 6 = some (JObj.record
      [("$ref", JVal.str "#/components/schemas/x")]) ∧
    "schema" ∈ schemaContextKeys :=
  ⟨by decide, by decide, by decide, by decide, by decide, by decide,
    by decide, by decide, by decide, by decide, by decide, by decide,
    by decide, by decide, by decide⟩

theorem ensureFieldRecordN_fresh {h : Heap} {a : Nat} {fs} (k : String)
    (hg : h.get? a = some (JObj.record fs)) (hc : getFieldL fs k = none) :
    ensureFieldRecordN h a k =
      some ((h.set a (JObj.record (setFieldL fs k (JVal.ref h.length)))) ++
        [JObj.record []], h.length) := by
  unfold ensureFieldRecordN
  rw [hg]
  dsimp only
  rw [hc]

theorem createSchemaRegistryD_eq {h : Heap} {rootA : Nat} {h1 cA h2 sA}
    (e1 : ensureFieldRecordN h rootA "components" = some (h1, cA))
    (e2 : ensureFieldRecordN h1 cA "schemas" = some (h2, sA))
    (hg2 : h2.get? sA = some (JObj.record [])) :
    createSchemaRegistryD h rootA = some (h2, ⟨[], [], sA⟩) := by
  unfold createSchemaRegistryD
  rw [e1]
  dsimp only
  rw [e2]
  dsimp only
  rw [hg2]
  rfl

theorem createSchemaRegistryD_fresh {h : Heap} {rootA : Nat} {fs}
    (hg : h.get? rootA = some (JObj.record fs))
    (hc : getFieldL fs "components" = none) :
    ∃ h' cA sA,
      createSchemaRegistryD h rootA = some (h', ⟨[], [], sA⟩) ∧
      heapGetField h' rootA "components" = some (JVal.ref cA) ∧
      heapGetField h' cA "schemas" = some (JVal.ref sA) ∧
      h'.get? sA = some (JObj.record []) ∧
      (∀ i, i ≠ rootA → i < h.length → h'.get? i = h.get? i) := by
  have hlt : rootA < h.length := by
    rcases List.get?_eq_some.mp hg with ⟨hl, _⟩
    exact hl
  have e1 := ensureFieldRecordN_fresh "components" hg hc
  set X := JObj.record (setFieldL fs "components" (JVal.ref h.length))
    with hX
  set h1 := h.set rootA X ++ [JObj.record []] with hh1
  have hlen1 : h1.length = h.length + 1 := by
    rw [hh1, List.length_append, List.length_set]
    rfl
  have hg1 : h1.get? h.length = some (JObj.record []) := by
    have hcl := List.get?_concat_length (h.set rootA X) (JObj.record [])
    rw [List.length_set] at hcl
    rw [hh1]
    exact hcl
  have e2 := ensureFieldRecordN_fresh "schemas" hg1
    (show getFieldL [] "schemas" = none from rfl)
  rw [hlen1] at e2
  set Y := JObj.record (setFieldL [] "schemas" (JVal.ref (h.length + 1)))
    with hY
  set h2 := h1.set h.length Y ++ [JObj.record []] with hh2
  have hlen2 : (h1.set h.length Y).length = h.length + 1 := by
    rw [List.length_set, hlen1]
  have hg2 : h2.get? (h.length + 1) = some (JObj.record []) := by
    have hcl := List.get?_concat_length (h1.set h.length Y)
      (JObj.record [])
    rw [hlen2] at hcl
    rw [hh2]
    exact hcl
  refine ⟨h2, h.length, h.length + 1,
    createSchemaRegistryD_eq e1 e2 hg2, ?_, ?_, hg2, ?_⟩
  · have hgr : h2.get? rootA = some X := by
      rw [hh2, List.get?_append (show rootA < (h1.set h.length Y).length
          by rw [hlen2]; omega),
        List.get?_set_ne _ _ (show h.length ≠ rootA by omega), hh1,
        List.get?_append (show rootA < (h.set rootA X).length
          by rw [List.length_set]; exact hlt)]
      exact List.get?_set_eq_of_lt _ hlt
    rw [hX] at hgr
    rw [heapGetField_eq hgr]
    exact getFieldL_setFieldL_self fs "components" (JVal.ref h.length)
  · have hgc : h2.get? h.length = some Y := by
      rw [hh2, List.get?_append (show h.length < (h1.set h.length Y).length
          by rw [hlen2]; omega)]
      exact List.get?_set_eq_of_lt _ (by rw [hlen1]; omega)
    rw [hY] at hgc
    rw [heapGetField_eq hgc]
    exact getFieldL_setFieldL_self [] "schemas" _
  · intro i hne hlti
    rw [hh2, List.get?_append (show i < (h1.set h.length Y).length
        by rw [hlen2]; omega),
      List.get?_set_ne _ _ (show h.length ≠ i by omega), hh1,
      List.get?_append (show i < (h.set rootA X).length
        by rw [List.length_set]; exact hlti)]
    exact List.get?_set_ne _ _ (fun he => hne he.symm)

set_option maxHeartbeats 1600000 in
/-- C1: the OpenAPI-3.x/`$refs` guard of `hoistBundledSchemas` returns the
document heap unchanged (so in particular no `components.schemas` is
created) when the document is not OpenAPI 3.x or `$refs` is absent;
`createSchemaRegistry` on a root without `components` allocates
`components.schemas` as a fresh empty record with an empty name registry,
touching no other cell of the document; an empty resolved-path list makes
the pre-registration step a no-op; and on a minimal OpenAPI 3.x document
with `$refs` present but empty the full driver yields exactly the document
extended with an empty `components.schemas` record. -/
theorem C1_guard_and_empty_init :
    (∀ (o : ExtOracle) (fpF wF lF : Nat) (p : ParserState),
      isOpenAPI p.heap p.rootA = false ∨ p.refs = none →
      hoistBundledSchemas o fpF wF lF p = some p.heap) ∧
    (∀ (h : Heap) (rootA : Nat) (fs : List (String × JVal)),
      h.get? rootA = some (JObj.record fs) →
      getFieldL fs "components" = none →
      ∃ h' cA sA,
        createSchemaRegistryD h rootA = some (h', ⟨[], [], sA⟩) ∧
        heapGetField h' rootA "components" = some (JVal.ref cA) ∧
        heapGetField h' cA "schemas" = some (JVal.ref sA) ∧
        h'.get? sA = some (JObj.record []) ∧
        (∀ i, i ≠ rootA → i < h.length → h'.get? i = h.get? i)) ∧
    (∀ (fpF wF : Nat) (h : Heap) (rootA : Nat) (reg : SchemaRegistry)
      (res : ResolverState),
      preRegisterExternalRoots fpF wF h rootA reg res [] =
        some (h, reg, res)) ∧
    (hoistBundledSchemas trivialOracle 20 40 5 ⟨c1Heap, 0, some []⟩ =
        some c1Final ∧
      heapGetField c1Heap 0 "components" = none ∧
      heapGetField c1Final 0 "components" = some (JVal.ref 1) ∧
      heapGetField c1Final 1 "schemas" = some (JVal.ref 2) ∧
      c1Final.get? 2 = some (JObj.record [])) := by
  refine ⟨?_, ?_, ?_, by decide, by decide, by decide, by decide, by decide⟩
  · intro o fpF wF lF p hp
    unfold hoistBundledSchemas
    rcases hp with hp | hp
    · rw [hp]
      rfl
    · rw [hp]
      simp
  · intro h rootA fs hg hc
    exact createSchemaRegistryD_fresh hg hc
  · intro fpF wF h rootA reg res
    rfl

/-- Closed instance of `C1_guard_and_empty_init`: the guard no-op on a
parser with `$refs` absent, the fresh registry on `c1Heap`, and the no-op
pre-registration on an empty path list. -/
theorem C1_guard_and_empty_init_witness :
    hoistBundledSchemas trivialOracle 7 9 3 ⟨c1Heap, 0, none⟩ =
      some c1Heap ∧
    (∃ h' cA sA,
      createSchemaRegistryD c1Heap 0 = some (h', ⟨[], [], sA⟩) ∧
      heapGetField h' 0 "components" = some (JVal.ref cA) ∧
      heapGetField h' cA "schemas" = some (JVal.ref sA) ∧
      h'.get? sA = some (JObj.record []) ∧
      (∀ i, i ≠ 0 → i < c1Heap.length → h'.get? i = c1Heap.get? i)) ∧
    preRegisterExternalRoots 1 2 c1Heap 0 ⟨[], [], 0⟩ emptyResolver [] =
      some (c1Heap, ⟨[], [], 0⟩, emptyResolver) :=
  ⟨C1_guard_and_empty_init.1 trivialOracle 7 9 3 ⟨c1Heap, 0, none⟩
      (Or.inr rfl),
    C1_guard_and_empty_init.2.1 c1Heap 0 [("openapi", JVal.str "3.0.2")]
      (by decide) (by decide),
    C1_guard_and_empty_init.2.2.1 1 2 c1Heap 0 ⟨[], [], 0⟩ emptyResolver⟩

end OasHoist
